import Mathlib

/-!
# Trees: a binary search tree engine with an AVL balancing policy

A shallow embedding of `BaseTree.c` and `AVL.c`.  Nodes live in a memory
indexed by addresses; `NULL` is `none`.  Loops carry fuel taken from the number
of allocated addresses, and every operation that dereferences `NULL`, runs out
of fuel or goes on with a node it has freed yields `none`.  The `int` fields are
integers without a bound: keys are only compared, and the counters and heights
of a tree that fits in memory stay far below the range of `int`.

`malloc` never hands out an address twice, and `FreeNode` notes the address it
frees in the list `freed`.  To read or write a freed node is undefined
behaviour.  The code itself does so in one place: `RemoveNode`, at a node with
two children, links in the node that its inner call has freed; the model tests
`freed` there.  The position of an iterator is a pointer the caller holds, and
the model reads the memory at it as it is.
-/

namespace Trees

/-- A C pointer: `none` is `NULL`, `some a` is the address `a`. -/
abbrev Ptr := Option Nat

/-- The record `struct Node` (the `pTree` back reference is left out: the state
holds one tree).  `pAuxiliary` is `NULL`, or the `AVLNode` it points to, given
by its `nHeight`. -/
structure Node where
  pLeftChild : Ptr
  pRightChild : Ptr
  pParent : Ptr
  nKey : Int
  pContent : Ptr
  pAuxiliary : Option Int
deriving DecidableEq, Repr

/-- One call through a callback of the tree, in the order they happen. -/
inductive HookCall where
  | cbInsert (pNode : Nat)
  | cbRemove (pNode : Ptr) (ucOriginal : Bool)
  | cbRotation (pNode : Nat)
deriving DecidableEq, Repr

/-- The record `struct Tree` together with the memory its nodes live in.
A callback field is `true` when the function of `AVL.c` is installed and `false`
when it is `NULL`.  `brk` is the first address never handed out by `malloc`,
`calls` records the callbacks invoked so far, `freed` the addresses given to
`free`. -/
structure State where
  pRoot : Ptr
  pFirst : Ptr
  nSize : Int
  nIterators : Int
  cbAllocNode : Bool
  cbInsert : Bool
  cbRemove : Bool
  cbRotation : Bool
  mem : Nat → Node
  brk : Nat
  calls : List HookCall
  freed : List Nat

/-- The record `struct Iterator`; `pTree` is `true` when it points to the tree
of the state and `false` when it is `NULL`. -/
structure Iterator where
  pTree : Bool
  pNode : Ptr
  ucDirection : Nat
deriving DecidableEq, Repr

def FORWARD : Nat := 0
def BACKWARD : Nat := 1

/-- The node `AllocNode` leaves before a callback fills `pAuxiliary`. -/
def blankNode : Node := ⟨none, none, none, 0, none, none⟩

def State.setLeft (s : State) (a : Nat) (p : Ptr) : State :=
  { s with mem := Function.update s.mem a { s.mem a with pLeftChild := p } }

def State.setRight (s : State) (a : Nat) (p : Ptr) : State :=
  { s with mem := Function.update s.mem a { s.mem a with pRightChild := p } }

def State.setParent (s : State) (a : Nat) (p : Ptr) : State :=
  { s with mem := Function.update s.mem a { s.mem a with pParent := p } }

def State.setHeight (s : State) (a : Nat) (h : Int) : State :=
  { s with mem := Function.update s.mem a { s.mem a with pAuxiliary := some h } }

def State.setKeyContent (s : State) (a : Nat) (k : Int) (c : Ptr) : State :=
  { s with mem := Function.update s.mem a { s.mem a with nKey := k, pContent := c } }

def State.record (s : State) (c : HookCall) : State :=
  { s with calls := s.calls ++ [c] }

/-- `AllocTree(NULL)`: an empty tree without callbacks. -/
def AllocTree : State :=
  { pRoot := none, pFirst := none, nSize := 0, nIterators := 0,
    cbAllocNode := false, cbInsert := false, cbRemove := false, cbRotation := false,
    mem := fun _ => blankNode, brk := 0, calls := [], freed := [] }

/-- `AVLAllocTree`: an empty tree with the four AVL callbacks installed. -/
def AVLAllocTree : State :=
  { AllocTree with cbAllocNode := true, cbInsert := true, cbRemove := true, cbRotation := true }

/-- `AllocNode`: a fresh zeroed node; `AVLAllocNode` gives it height 0. -/
def AllocNode (s : State) : Nat × State :=
  (s.brk,
   { s with
     brk := s.brk + 1
     mem := Function.update s.mem s.brk
       { blankNode with pAuxiliary := if s.cbAllocNode then some 0 else none } })

/-- `FreeNode`: the address is given to `free`. -/
def FreeNode (pNode : Nat) (s : State) : State :=
  { s with freed := pNode :: s.freed }

/-- The pointer names a node that has been freed. -/
def State.isFreed (s : State) : Ptr → Bool
  | none => false
  | some a => decide (a ∈ s.freed)

/-- `AllocIterator`. -/
def AllocIterator : Iterator := ⟨false, none, FORWARD⟩

/-- `AttachNodes`. -/
def AttachNodes (pParent pChild : Ptr) (s : State) : State :=
  match pChild with
  | none => s
  | some c =>
    let s1 := s.setParent c pParent
    match pParent with
    | none =>
      let s2 := { s1 with pRoot := some c }
      if s2.pFirst = none then { s2 with pFirst := some c } else s2
    | some p =>
      if (s1.mem c).nKey < (s1.mem p).nKey then
        let s2 := s1.setLeft p (some c)
        if s2.pFirst = some p then { s2 with pFirst := some c } else s2
      else
        s1.setRight p (some c)

/-- `DetachNodes` (both arguments are dereferenced, so they are addresses). -/
def DetachNodes (pParent pChild : Nat) (s : State) : State :=
  let s1 :=
    if (s.mem pChild).nKey < (s.mem pParent).nKey then s.setLeft pParent none
    else s.setRight pParent none
  s1.setParent pChild none

/-- `AVLGetHeight`: -1 for `NULL`; reading through a `NULL` `pAuxiliary` fails. -/
def AVLGetHeight (pNode : Ptr) (s : State) : Option Int :=
  match pNode with
  | none => some (-1)
  | some a => (s.mem a).pAuxiliary

/-- `AVLSetHeight`. -/
def AVLSetHeight (pNode : Nat) (s : State) : Option State :=
  match AVLGetHeight (s.mem pNode).pLeftChild s, AVLGetHeight (s.mem pNode).pRightChild s,
        (s.mem pNode).pAuxiliary with
  | some nLeftHeight, some nRightHeight, some _ =>
    some (s.setHeight pNode ((if nLeftHeight > nRightHeight then nLeftHeight else nRightHeight) + 1))
  | _, _, _ => none

/-- `AVLBalanceFactor`. -/
def AVLBalanceFactor (pNode : Nat) (s : State) : Option Int :=
  match AVLGetHeight (s.mem pNode).pLeftChild s, AVLGetHeight (s.mem pNode).pRightChild s with
  | some l, some r => some (l - r)
  | _, _ => none

/-- `AVLRotationSetHeights`. -/
def AVLRotationSetHeights (pNode : Nat) (s : State) : Option State :=
  match AVLSetHeight pNode s with
  | none => none
  | some s1 =>
    match (s1.mem pNode).pParent with
    | none => some s1
    | some p => AVLSetHeight p s1

/-- The call `pTree->cbRotation(pNode)` guarded by the `NULL` test. -/
def callRotation (pNode : Nat) (s : State) : Option State :=
  if s.cbRotation then AVLRotationSetHeights pNode (s.record (.cbRotation pNode)) else some s

/-- `LeftRotation`; fails when the right child is `NULL`. -/
def LeftRotation (pNode : Nat) (s : State) : Option (Nat × State) :=
  match (s.mem pNode).pRightChild with
  | none => none
  | some pChildNode =>
    let s1 := s.setRight pNode none
    let s2 := AttachNodes (some pNode) (s1.mem pChildNode).pLeftChild s1
    let s3 := AttachNodes (s2.mem pNode).pParent (some pChildNode) s2
    let s4 := AttachNodes (some pChildNode) (some pNode) s3
    match callRotation pNode s4 with
    | none => none
    | some s5 => some (pChildNode, s5)

/-- `RightRotation`; fails when the left child is `NULL`. -/
def RightRotation (pNode : Nat) (s : State) : Option (Nat × State) :=
  match (s.mem pNode).pLeftChild with
  | none => none
  | some pChildNode =>
    let s1 := s.setLeft pNode none
    let s2 := AttachNodes (some pNode) (s1.mem pChildNode).pRightChild s1
    let s3 := AttachNodes (s2.mem pNode).pParent (some pChildNode) s2
    let s4 := AttachNodes (some pChildNode) (some pNode) s3
    match callRotation pNode s4 with
    | none => none
    | some s5 => some (pChildNode, s5)

/-- The loop of `AVLBalance`; one unit of fuel per visited node. -/
def AVLBalanceLoop : Nat → Ptr → State → Option State
  | _, none, s => some s
  | 0, some _, _ => none
  | fuel + 1, some pNode, s =>
    match AVLSetHeight pNode s with
    | none => none
    | some s1 =>
      match AVLBalanceFactor pNode s1 with
      | none => none
      | some nBalance =>
        if nBalance > 1 then
          match (s1.mem pNode).pLeftChild with
          | none => none
          | some pLeft =>
            match AVLBalanceFactor pLeft s1 with
            | none => none
            | some nChildBalance =>
              if nChildBalance > -1 then
                match RightRotation pNode s1 with
                | none => none
                | some (pNew, s2) => AVLBalanceLoop fuel (s2.mem pNew).pParent s2
              else
                match LeftRotation pLeft s1 with
                | none => none
                | some (_, s2) =>
                  match RightRotation pNode s2 with
                  | none => none
                  | some (pNew, s3) => AVLBalanceLoop fuel (s3.mem pNew).pParent s3
        else if nBalance < -1 then
          match (s1.mem pNode).pRightChild with
          | none => none
          | some pRight =>
            match AVLBalanceFactor pRight s1 with
            | none => none
            | some nChildBalance =>
              if nChildBalance < 1 then
                match LeftRotation pNode s1 with
                | none => none
                | some (pNew, s2) => AVLBalanceLoop fuel (s2.mem pNew).pParent s2
              else
                match RightRotation pRight s1 with
                | none => none
                | some (_, s2) =>
                  match LeftRotation pNode s2 with
                  | none => none
                  | some (pNew, s3) => AVLBalanceLoop fuel (s3.mem pNew).pParent s3
        else AVLBalanceLoop fuel (s1.mem pNode).pParent s1

/-- `AVLBalance`. -/
def AVLBalance (pNode : Ptr) (s : State) : Option State :=
  AVLBalanceLoop s.brk pNode s

/-- `AVLRemoveBalance`. -/
def AVLRemoveBalance (pNode : Ptr) (_ucOriginal : Bool) (s : State) : Option State :=
  AVLBalance pNode s

/-- The loop of `SearchNode`. -/
def SearchNodeLoop (nKey : Int) (mem : Nat → Node) : Nat → Ptr → Option Ptr
  | _, none => some none
  | 0, some _ => none
  | fuel + 1, some pNode =>
    if nKey < (mem pNode).nKey then SearchNodeLoop nKey mem fuel (mem pNode).pLeftChild
    else if nKey > (mem pNode).nKey then SearchNodeLoop nKey mem fuel (mem pNode).pRightChild
    else some (some pNode)

/-- `SearchNode`. -/
def SearchNode (nKey : Int) (s : State) : Option Ptr :=
  SearchNodeLoop nKey s.mem s.brk s.pRoot

/-- `Search`. -/
def Search (nKey : Int) (s : State) : Option Ptr :=
  match SearchNode nKey s with
  | none => none
  | some none => some none
  | some (some pNode) => some (s.mem pNode).pContent

/-- The loop of `InsertNode`: `some (true, pPrevNode)` when it runs to its end,
`some (false, _)` when it leaves through `return FALSE`. -/
def InsertNodeLoop (nKey : Int) (mem : Nat → Node) : Nat → Ptr → Ptr → Option (Bool × Ptr)
  | _, none, pPrevNode => some (true, pPrevNode)
  | 0, some _, _ => none
  | fuel + 1, some pCurrNode, _ =>
    if nKey < (mem pCurrNode).nKey then
      InsertNodeLoop nKey mem fuel (mem pCurrNode).pLeftChild (some pCurrNode)
    else if nKey > (mem pCurrNode).nKey then
      InsertNodeLoop nKey mem fuel (mem pCurrNode).pRightChild (some pCurrNode)
    else some (false, some pCurrNode)

/-- `InsertNode`. -/
def InsertNode (pNode : Nat) (s : State) : Option (Bool × State) :=
  match InsertNodeLoop (s.mem pNode).nKey s.mem s.brk s.pRoot none with
  | none => none
  | some (false, _) => some (false, s)
  | some (true, pPrevNode) =>
    let s1 := AttachNodes pPrevNode (some pNode) s
    let s2 := { s1 with nSize := s1.nSize + 1 }
    if s2.cbInsert then
      match AVLBalance (some pNode) (s2.record (.cbInsert pNode)) with
      | none => none
      | some s3 => some (true, s3)
    else some (true, s2)

/-- `Insert`. -/
def Insert (nKey : Int) (pContent : Ptr) (s : State) : Option (Bool × State) :=
  let pNode := (AllocNode s).1
  let s1 := (AllocNode s).2
  match InsertNode pNode (s1.setKeyContent pNode nKey pContent) with
  | none => none
  | some (false, s2) => some (false, FreeNode pNode s2)
  | some (true, s2) => some (true, s2)

/-- `GetFirst`. -/
def GetFirst (s : State) : Ptr := s.pFirst

/-- The loop of `GetLast`. -/
def GetLastLoop (mem : Nat → Node) : Nat → Ptr → Option Ptr
  | _, none => some none
  | fuel, some pNode =>
    match (mem pNode).pRightChild with
    | none => some (some pNode)
    | some r =>
      match fuel with
      | 0 => none
      | fuel + 1 => GetLastLoop mem fuel (some r)

/-- `GetLast`. -/
def GetLast (s : State) : Option Ptr := GetLastLoop s.mem s.brk s.pRoot

/-- The loop `while (pNode->pLeftChild != NULL) pNode = pNode->pLeftChild`. -/
def descendLeft (mem : Nat → Node) : Nat → Nat → Option Nat
  | fuel, pNode =>
    match (mem pNode).pLeftChild with
    | none => some pNode
    | some l =>
      match fuel with
      | 0 => none
      | fuel + 1 => descendLeft mem fuel l

/-- The loop `while (pNode->pRightChild != NULL) pNode = pNode->pRightChild`. -/
def descendRight (mem : Nat → Node) : Nat → Nat → Option Nat
  | fuel, pNode =>
    match (mem pNode).pRightChild with
    | none => some pNode
    | some r =>
      match fuel with
      | 0 => none
      | fuel + 1 => descendRight mem fuel r

/-- The loop `while (pNode != NULL && pNode->nKey < nPrevKey)` of `GetNext`. -/
def climbNext (mem : Nat → Node) : Nat → Ptr → Int → Option Ptr
  | _, none, _ => some none
  | fuel, some pNode, nPrevKey =>
    if (mem pNode).nKey < nPrevKey then
      match fuel with
      | 0 => none
      | fuel + 1 => climbNext mem fuel (mem pNode).pParent (mem pNode).nKey
    else some (some pNode)

/-- The loop `while (pNode != NULL && pNode->nKey > nPrevKey)` of `GetPrevious`. -/
def climbPrevious (mem : Nat → Node) : Nat → Ptr → Int → Option Ptr
  | _, none, _ => some none
  | fuel, some pNode, nPrevKey =>
    if (mem pNode).nKey > nPrevKey then
      match fuel with
      | 0 => none
      | fuel + 1 => climbPrevious mem fuel (mem pNode).pParent (mem pNode).nKey
    else some (some pNode)

/-- `GetNext`. -/
def GetNext (pNode : Nat) (s : State) : Option Ptr :=
  match (s.mem pNode).pRightChild with
  | some r => (descendLeft s.mem s.brk r).map some
  | none => climbNext s.mem s.brk (s.mem pNode).pParent (s.mem pNode).nKey

/-- `GetPrevious`. -/
def GetPrevious (pNode : Nat) (s : State) : Option Ptr :=
  match (s.mem pNode).pLeftChild with
  | some l => (descendRight s.mem s.brk l).map some
  | none => climbPrevious s.mem s.brk (s.mem pNode).pParent (s.mem pNode).nKey

/-- The call `pTree->cbRemove(pOtherNode, ucOriginal)` guarded by the `NULL` test. -/
def callRemove (pOtherNode : Ptr) (ucOriginal : Bool) (s : State) : Option State :=
  if s.cbRemove then
    AVLRemoveBalance pOtherNode ucOriginal (s.record (.cbRemove pOtherNode ucOriginal))
  else some s

/-- `RemoveNode`; the fuel bounds the depth of the recursion.  In the branch of
a node with two children the inner call has freed `pOtherNode` before
`AttachNodes(pNode->pParent, pOtherNode)` writes `pOtherNode->pParent`. -/
def RemoveNode : Nat → Ptr → Bool → State → Option (Bool × State)
  | _, none, _, s => some (false, s)
  | 0, some _, _, _ => none
  | fuel + 1, some pNode, ucOriginal, s =>
    match (if s.pFirst = some pNode then
             (GetNext pNode s).map (fun p => { s with pFirst := p })
           else some s) with
    | none => none
    | some s1 =>
      if (s1.mem pNode).pLeftChild = none ∨ (s1.mem pNode).pRightChild = none then
        let pChildNode :=
          if (s1.mem pNode).pLeftChild = none then (s1.mem pNode).pRightChild
          else (s1.mem pNode).pLeftChild
        match (s1.mem pNode).pParent with
        | none =>
          let s2 := { s1 with pRoot := pChildNode }
          let s3 := match pChildNode with
            | none => s2
            | some c => s2.setParent c none
          (callRemove pChildNode ucOriginal (FreeNode pNode s3)).map (fun s4 => (true, s4))
        | some pOtherNode =>
          let s2 := DetachNodes pOtherNode pNode s1
          let s3 := AttachNodes (some pOtherNode) pChildNode s2
          (callRemove (some pOtherNode) ucOriginal (FreeNode pNode s3)).map
            (fun s4 => (true, s4))
      else
        match GetPrevious pNode s1 with
        | none => none
        | some pOtherNode =>
          match RemoveNode fuel pOtherNode false s1 with
          | none => none
          | some (_, s2) =>
            if s2.isFreed pOtherNode then none
            else
              let s3 := AttachNodes (s2.mem pNode).pParent pOtherNode s2
              let s4 := AttachNodes pOtherNode (s3.mem pNode).pLeftChild s3
              let s5 := AttachNodes pOtherNode (s4.mem pNode).pRightChild s4
              (callRemove pOtherNode ucOriginal (FreeNode pNode s5)).map
                (fun s6 => (true, s6))

/-- `Remove`. -/
def Remove (nKey : Int) (s : State) : Option (Bool × State) :=
  match SearchNode nKey s with
  | none => none
  | some pNode =>
    match RemoveNode (s.brk + 1) pNode true s with
    | none => none
    | some (true, s1) => some (true, { s1 with nSize := s1.nSize - 1 })
    | some (false, s1) => some (false, s1)

/-- The loop of `FreeTree`. -/
def FreeTreeLoop : Nat → State → Option State
  | fuel, s =>
    if s.nSize > 0 then
      match fuel with
      | 0 => none
      | fuel + 1 =>
        match RemoveNode (s.brk + 1) s.pFirst true s with
        | none => none
        | some (_, s1) => FreeTreeLoop fuel s1
    else some s

/-- `FreeTree`, with the fuel of its loop as a parameter. -/
def FreeTree (fuel : Nat) (s : State) : Option (Bool × State) :=
  if s.nIterators > 0 then some (false, s)
  else (FreeTreeLoop fuel s).map (fun s1 => (true, s1))

/-- `Attach`. -/
def Attach (pIter : Iterator) (s : State) : Option (Iterator × State) :=
  let it1 := { pIter with pTree := true }
  match (if it1.ucDirection = FORWARD then some (GetFirst s) else GetLast s) with
  | none => none
  | some p => some ({ it1 with pNode := p }, { s with nIterators := s.nIterators + 1 })

/-- `AttachEnd`. -/
def AttachEnd (pIter : Iterator) (s : State) : Option (Iterator × State) :=
  Attach { pIter with ucDirection := BACKWARD } s

/-- `Current` (the debug print is left out). -/
def Current (pIter : Iterator) (s : State) : Ptr :=
  match pIter.pNode with
  | none => none
  | some a => (s.mem a).pContent

/-- `Next`. -/
def Next (pIter : Iterator) (s : State) : Option (Ptr × Iterator) :=
  let pContent := Current pIter s
  match pIter.pNode with
  | none => some (pContent, pIter)
  | some a =>
    match (if pIter.ucDirection = FORWARD then GetNext a s else GetPrevious a s) with
    | none => none
    | some p => some (pContent, { pIter with pNode := p })

/-- `Detach`. -/
def Detach (pIter : Iterator) (s : State) : Iterator × State :=
  if pIter.pTree then
    ({ pIter with pTree := false }, { s with nIterators := s.nIterators - 1 })
  else (pIter, s)



/-! ## The shape of the memory -/

/-- A binary tree of nodes, each with its address, key, content and auxiliary
height, as the links of the memory lay it out. -/
inductive BT where
  | nil : BT
  | node (l : BT) (a : Nat) (k : Int) (c : Ptr) (x : Option Int) (r : BT) : BT
deriving DecidableEq, Repr

namespace BT

/-- The pointer to the root of the tree. -/
def ptr : BT → Ptr
  | nil => none
  | node _ a _ _ _ _ => some a

/-- The addresses of the nodes, in order. -/
def addrs : BT → List Nat
  | nil => []
  | node l a _ _ _ r => l.addrs ++ a :: r.addrs

/-- The keys of the nodes, in order. -/
def keys : BT → List Int
  | nil => []
  | node l _ k _ _ r => l.keys ++ k :: r.keys

/-- The pairs of key and content, in order. -/
def toList : BT → List (Int × Ptr)
  | nil => []
  | node l _ k c _ r => l.toList ++ (k, c) :: r.toList

/-- The number of nodes. -/
def size : BT → Nat
  | nil => 0
  | node l _ _ _ _ r => l.size + 1 + r.size

/-- BST order: the keys of the left subtree are below the key of the node, the
keys of the right subtree above it, at every node. -/
def Ordered : BT → Prop
  | nil => True
  | node l _ k _ _ r =>
    l.Ordered ∧ r.Ordered ∧ (∀ j ∈ l.keys, j < k) ∧ (∀ j ∈ r.keys, k < j)

/-- The height of a tree, -1 for the empty tree. -/
def height : BT → Int
  | nil => -1
  | node l _ _ _ _ r => (if l.height > r.height then l.height else r.height) + 1

/-- The AVL invariant with correct stored heights, at every node. -/
def AVL : BT → Prop
  | nil => True
  | node l _ _ _ x r =>
    l.AVL ∧ r.AVL ∧ x = some ((if l.height > r.height then l.height else r.height) + 1) ∧
      l.height - r.height ≤ 1 ∧ r.height - l.height ≤ 1

end BT

/-- The memory holds the nodes of the tree, linked as the tree says, the root
pointing up to `par`. -/
def Rep (mem : Nat → Node) : BT → Ptr → Prop
  | .nil, _ => True
  | .node l a k c x r, par =>
    mem a = ⟨l.ptr, r.ptr, par, k, c, x⟩ ∧ Rep mem l (some a) ∧ Rep mem r (some a)

/-- One step of a path from a node down to a hole: the hole is the left child
(`L`, with the right sibling) or the right child (`R`, with the left sibling). -/
inductive Frame where
  | L (a : Nat) (k : Int) (c : Ptr) (x : Option Int) (r : BT) : Frame
  | R (l : BT) (a : Nat) (k : Int) (c : Ptr) (x : Option Int) : Frame
deriving DecidableEq, Repr

namespace Frame

def addr : Frame → Nat
  | L a _ _ _ _ => a
  | R _ a _ _ _ => a

def key : Frame → Int
  | L _ k _ _ _ => k
  | R _ _ k _ _ => k

/-- The subtree obtained by putting `t` in the hole of the frame. -/
def fill : Frame → BT → BT
  | L a k c x r, t => .node t a k c x r
  | R l a k c x, t => .node l a k c x t

/-- The sibling of the hole. -/
def sibling : Frame → BT
  | L _ _ _ _ r => r
  | R l _ _ _ _ => l

end Frame

/-- The tree around a hole: the frames from the hole up to the root. -/
abbrev Path := List Frame

/-- The whole tree, with `t` in the hole. -/
def plug : Path → BT → BT
  | [], t => t
  | f :: fs, t => plug fs (f.fill t)

/-- The pointer to the parent of the hole. -/
def parOf : Path → Ptr
  | [] => none
  | f :: _ => some f.addr

/-- The pointer to the root of the whole tree when the hole holds `p`. -/
def rootOf : Path → Ptr → Ptr
  | [], p => p
  | f :: fs, _ => rootOf fs (some f.addr)

/-- The addresses in order before the hole. -/
def addrsBefore : Path → List Nat
  | [] => []
  | .L _ _ _ _ _ :: fs => addrsBefore fs
  | .R l a _ _ _ :: fs => addrsBefore fs ++ (l.addrs ++ [a])

/-- The addresses in order after the hole. -/
def addrsAfter : Path → List Nat
  | [] => []
  | .L a _ _ _ r :: fs => a :: r.addrs ++ addrsAfter fs
  | .R _ _ _ _ _ :: fs => addrsAfter fs

def keysBefore : Path → List Int
  | [] => []
  | .L _ _ _ _ _ :: fs => keysBefore fs
  | .R l _ k _ _ :: fs => keysBefore fs ++ (l.keys ++ [k])

def keysAfter : Path → List Int
  | [] => []
  | .L _ k _ _ r :: fs => k :: r.keys ++ keysAfter fs
  | .R _ _ _ _ _ :: fs => keysAfter fs

def listBefore : Path → List (Int × Ptr)
  | [] => []
  | .L _ _ _ _ _ :: fs => listBefore fs
  | .R l _ k c _ :: fs => listBefore fs ++ (l.toList ++ [(k, c)])

def listAfter : Path → List (Int × Ptr)
  | [] => []
  | .L _ k c _ r :: fs => (k, c) :: r.toList ++ listAfter fs
  | .R _ _ _ _ _ :: fs => listAfter fs

/-- The memory holds the nodes of the path and of the siblings along it, the
hole being filled by the pointer `p`. -/
def RepCtx (mem : Nat → Node) : Path → Ptr → Prop
  | [], _ => True
  | .L a k c x r :: fs, p =>
    mem a = ⟨p, r.ptr, parOf fs, k, c, x⟩ ∧ Rep mem r (some a) ∧ RepCtx mem fs (some a)
  | .R l a k c x :: fs, p =>
    mem a = ⟨l.ptr, p, parOf fs, k, c, x⟩ ∧ Rep mem l (some a) ∧ RepCtx mem fs (some a)

/-- The nodes reachable from `pRoot` are those of `plug fs t`, with these links. -/
structure ZRep (s : State) (fs : Path) (t : BT) : Prop where
  root : s.pRoot = rootOf fs t.ptr
  ctx : RepCtx s.mem fs t.ptr
  sub : Rep s.mem t (parOf fs)

/-- The addresses of the frames of a path and of the siblings along it. -/
def ctxAddrs : Path → List Nat
  | [] => []
  | f :: fs => f.addr :: f.sibling.addrs ++ ctxAddrs fs

/-- The descent of `SearchNode` and `InsertNode` for the key `k`: the path to the
node that holds `k`, or to the empty place where `k` belongs. -/
def locate (k : Int) : Path → BT → Path × BT
  | fs, .nil => (fs, .nil)
  | fs, .node l a k' c x r =>
    if k < k' then locate k (.L a k' c x r :: fs) l
    else if k > k' then locate k (.R l a k' c x :: fs) r
    else (fs, .node l a k' c x r)

/-- The key `k` lies between the keys before the hole and the keys after it. -/
def PathFits (k : Int) (fs : Path) : Prop :=
  (∀ j ∈ keysBefore fs, j < k) ∧ (∀ j ∈ keysAfter fs, k < j)

/-- The comparison of `AttachNodes` puts a child with key `k` on the side of the hole. -/
def sideOK : Path → Int → Prop
  | [], _ => True
  | .L _ k' _ _ _ :: _, k => k < k'
  | .R _ _ k' _ _ :: _, k => k' < k

/-- The value of `pFirst` after `AttachNodes` hangs the node `c` in the hole. -/
def firstAttach : Path → Nat → Ptr → Ptr
  | [], c, first => if first = none then some c else first
  | .L a _ _ _ _ :: _, c, first => if first = some a then some c else first
  | .R _ _ _ _ _ :: _, _, first => first

/-- The state `s'` differs from `s` at most in `pRoot`, `pFirst`, the recorded
calls and the memory at the addresses of `A`. -/
structure Keeps (s s' : State) (A : List Nat) : Prop where
  nSize : s'.nSize = s.nSize
  nIterators : s'.nIterators = s.nIterators
  cbAllocNode : s'.cbAllocNode = s.cbAllocNode
  cbInsert : s'.cbInsert = s.cbInsert
  cbRemove : s'.cbRemove = s.cbRemove
  cbRotation : s'.cbRotation = s.cbRotation
  brk : s'.brk = s.brk
  mem : ∀ b, b ∉ A → s'.mem b = s.mem b

/-- No callback is installed (a tree made by `AllocTree(NULL)`). -/
def NoHooks (s : State) : Prop :=
  s.cbAllocNode = false ∧ s.cbInsert = false ∧ s.cbRemove = false ∧ s.cbRotation = false

/-- The four AVL callbacks are installed (a tree made by `AVLAllocTree`). -/
def AVLHooks (s : State) : Prop :=
  s.cbAllocNode = true ∧ s.cbInsert = true ∧ s.cbRemove = true ∧ s.cbRotation = true

/-- The nodes reachable from `pRoot` are exactly the nodes of `T`, linked as `T`
says with consistent parent links, at distinct allocated addresses. -/
structure Shape (s : State) (T : BT) : Prop where
  rep : ZRep s [] T
  nodup : T.addrs.Nodup
  lt_brk : ∀ a ∈ T.addrs, a < s.brk

/-- A well-formed tree state: the reachable nodes form the BST `T`, `nSize` counts
them, and the tree is either without callbacks or an AVL tree with the AVL
invariant. -/
structure Good (s : State) (T : BT) : Prop where
  shape : Shape s T
  ordered : T.Ordered
  size : s.nSize = T.size
  hooks : NoHooks s ∨ (AVLHooks s ∧ T.AVL)

/-- The tree after a new node with key `k` is hung where the descent for `k` ends. -/
def insertAt (k : Int) (c : Ptr) (x : Option Int) (a : Nat) (T : BT) : BT :=
  plug (locate k [] T).1 (.node .nil a k c x .nil)

/-- The state in which `Insert` calls `InsertNode`. -/
def insertStart (k : Int) (c : Ptr) (s : State) : State :=
  (AllocNode s).2.setKeyContent s.brk k c

/-- The state of `InsertNode` after `AttachNodes` and `nSize++`, before the
insert callback, when the descent for `k` in `T` ends at an empty place. -/
def insertLinked (k : Int) (c : Ptr) (s : State) (T : BT) : State :=
  { AttachNodes (parOf (locate k [] T).1) (some s.brk) (insertStart k c s) with
    nSize := (AttachNodes (parOf (locate k [] T).1) (some s.brk) (insertStart k c s)).nSize + 1 }

/-- The auxiliary value `AllocNode` gives a new node. -/
def newAux (s : State) : Option Int := if s.cbAllocNode then some 0 else none

/-- A memory with three nodes: key 2 at address 0, its left child with key 1 at
address 1 and its right child with key 3 at address 2. -/
def demoMem : Nat → Node
  | 0 => ⟨some 1, some 2, none, 2, some 20, none⟩
  | 1 => ⟨none, none, some 0, 1, some 10, none⟩
  | 2 => ⟨none, none, some 0, 3, some 30, none⟩
  | _ => blankNode

/-- A tree without callbacks holding the keys 1, 2, 3, as `Insert` of 2, 1, 3
into an empty tree leaves it. -/
def demoState : State :=
  { pRoot := some 0, pFirst := some 1, nSize := 3, nIterators := 0,
    cbAllocNode := false, cbInsert := false, cbRemove := false, cbRotation := false,
    mem := demoMem, brk := 3, calls := [], freed := [] }

/-- The shape of `demoState`. -/
def demoTree : BT :=
  .node (.node .nil 1 1 (some 10) none .nil) 0 2 (some 20) none
    (.node .nil 2 3 (some 30) none .nil)

namespace BT

/-- What `AVLGetHeight` reads at the root of the tree. -/
def sh : BT → Option Int
  | nil => some (-1)
  | node _ _ _ _ x _ => x

/-- A node whose stored height is computed from its children, as `AVLSetHeight`
leaves it. -/
def mk (l : BT) (a : Nat) (k : Int) (c : Ptr) (r : BT) : BT :=
  node l a k c (some ((if l.height > r.height then l.height else r.height) + 1)) r

/-- The tree after `RightRotation` at its root with the AVL rotation callback. -/
def rotRight : BT → BT
  | node (node ll b kb cb _ lr) a ka ca _ r => mk ll b kb cb (mk lr a ka ca r)
  | t => t

/-- The tree after `LeftRotation` at its root with the AVL rotation callback. -/
def rotLeft : BT → BT
  | node l a ka ca _ (node rl b kb cb _ rr) => mk (mk l a ka ca rl) b kb cb rr
  | t => t

/-- The balance factor of the root. -/
def bal : BT → Int
  | nil => 0
  | node l _ _ _ _ r => l.height - r.height

/-- One turn of the loop of `AVLBalance` at the root of the tree. -/
def fix : BT → BT
  | nil => nil
  | node l a k c x r =>
    if l.height - r.height > 1 then
      if l.bal > -1 then rotRight (node l a k c x r)
      else rotRight (node (rotLeft l) a k c x r)
    else if l.height - r.height < -1 then
      if r.bal < 1 then rotLeft (node l a k c x r)
      else rotLeft (node l a k c x (rotRight r))
    else mk l a k c r

end BT

/-- The rebalancing walk of `AVLBalance` from the parent of the hole up to the root. -/
def walkUp : Path → BT → BT
  | [], t => t
  | f :: fs, t => walkUp fs (f.fill t).fix

/-- The path is laid out as an AVL tree around a hole of height `h`. -/
def CtxAVL : Path → Int → Prop
  | [], _ => True
  | .L _ _ _ x r :: fs, h =>
    r.AVL ∧ h - r.height ≤ 1 ∧ r.height - h ≤ 1 ∧ x.isSome ∧
      CtxAVL fs ((if h > r.height then h else r.height) + 1)
  | .R l _ _ _ x :: fs, h =>
    l.AVL ∧ l.height - h ≤ 1 ∧ h - l.height ≤ 1 ∧ x.isSome ∧
      CtxAVL fs ((if l.height > h then l.height else h) + 1)

/-- The nodes in order, each as address, key and content. -/
def BT.items : BT → List (Nat × Int × Ptr)
  | .nil => []
  | .node l a k c _ r => l.items ++ (a, k, c) :: r.items

def itemsBefore : Path → List (Nat × Int × Ptr)
  | [] => []
  | .L _ _ _ _ _ :: fs => itemsBefore fs
  | .R l a k c _ :: fs => itemsBefore fs ++ (l.items ++ [(a, k, c)])

def itemsAfter : Path → List (Nat × Int × Ptr)
  | [] => []
  | .L a k c _ r :: fs => (a, k, c) :: r.items ++ itemsAfter fs
  | .R _ _ _ _ _ :: fs => itemsAfter fs

/-- The descent of `GetPrevious` along right children: the path to the last node
of a subtree. -/
def splitMax : Path → BT → Path × BT
  | fs, .nil => (fs, .nil)
  | fs, .node l a k c x .nil => (fs, .node l a k c x .nil)
  | fs, .node l a k c x (.node rl b kb cb xb rr) =>
    splitMax (.R l a k c x :: fs) (.node rl b kb cb xb rr)

/-- The address `GetNext` climbs to from the hole: the nearest node above whose
left subtree holds the hole. -/
def nextUp : Path → Ptr
  | [] => none
  | .L a _ _ _ _ :: _ => some a
  | .R _ _ _ _ _ :: fs => nextUp fs

/-- The address `GetPrevious` climbs to from the hole. -/
def prevUp : Path → Ptr
  | [] => none
  | .L _ _ _ _ _ :: fs => prevUp fs
  | .R _ a _ _ _ :: _ => some a

/-- The comparisons of the climbing loop of `GetNext` come out as the path says:
below a frame entered from the right the key is larger than the frame's key,
and the climb stops at the first frame entered from the left. -/
def ChainNext : Int → Path → Prop
  | _, [] => True
  | j, .L _ k _ _ _ :: _ => j < k
  | j, .R _ _ k _ _ :: fs => k < j ∧ ChainNext k fs

/-- The comparisons of the climbing loop of `GetPrevious` come out as the path says. -/
def ChainPrev : Int → Path → Prop
  | _, [] => True
  | j, .L _ k _ _ _ :: fs => j < k ∧ ChainPrev k fs
  | j, .R _ _ k _ _ :: _ => k < j

/-- The whole tree after the remove callback has run from the parent of the hole:
rebalanced by the walk of `AVLBalance` when the callback is installed, as it is
otherwise. -/
def reb (avl : Bool) (fs : Path) (t : BT) : BT :=
  if avl then walkUp fs t else plug fs t

/-- The whole tree after the remove callback has run from the root of the
subtree in the hole. -/
def rebAt (avl : Bool) (fs : Path) (t : BT) : BT :=
  if avl then walkUp fs t.fix else plug fs t

/-- The node at which the descent for the key `k` ends holds `k` and has two
children. -/
def TwoChildren (k : Int) (T : BT) : Prop :=
  match (locate k [] T).2 with
  | .nil => False
  | .node l _ _ _ _ r => l ≠ .nil ∧ r ≠ .nil

/-- The value of `pFirst` after `RemoveNode` has put the child with the pointer
`p` in the place of a node: `AttachNodes` is called when the node has a parent. -/
def firstSplice (fs : Path) (p : Ptr) (first : Ptr) : Ptr :=
  match fs, p with
  | _ :: _, some c => firstAttach fs c first
  | _, _ => first

/-- `Remove(k)` comes to use a freed node: `SearchNode` finds a node with two
children, the first statement of `RemoveNode` and `GetPrevious` return, and the
inner call of `RemoveNode` on the node `pOtherNode` that `GetPrevious` has given
returns with that node freed; the next statement,
`AttachNodes(pNode->pParent, pOtherNode)`, writes it. -/
def UsesFreed (k : Int) (s : State) : Prop :=
  ∃ pNode s1 pOtherNode s2, SearchNode k s = some (some pNode) ∧
    (if s.pFirst = some pNode then (GetNext pNode s).map (fun p => { s with pFirst := p })
      else some s) = some s1 ∧
    (s1.mem pNode).pLeftChild ≠ none ∧ (s1.mem pNode).pRightChild ≠ none ∧
    GetPrevious pNode s1 = some (some pOtherNode) ∧
    RemoveNode s.brk (some pOtherNode) false s1 = some (true, s2) ∧
    s2.isFreed (some pOtherNode) = true
/-! ### Sequences of calls and the loop of a caller over an iterator -/

/-- A call that changes the tree: `Insert(k, c, tree)` or `Remove(k, tree)`. -/
inductive Op where
  | insert (k : Int) (c : Ptr) : Op
  | remove (k : Int) : Op

/-- The call on a tree, with what it returns. -/
def applyOp : Op → State → Option (Bool × State)
  | .insert k c, s => Insert k c s
  | .remove k, s => Remove k s

/-- The calls of a list, one after the other on the same tree; `none` when one of
them does not return. -/
def runOps : List Op → State → Option State
  | [], s => some s
  | op :: ops, s =>
    match applyOp op s with
    | none => none
    | some (_, s') => runOps ops s'

/-- A new empty tree: `AVLAllocTree()` or `AllocTree(NULL)`. -/
def newTree (avl : Bool) : State := if avl then AVLAllocTree else AllocTree

/-- The calls that insert the pairs of a list, in the order of the list. -/
def insertsOf (kcs : List (Int × Ptr)) : List Op :=
  kcs.map (fun kc => .insert kc.1 kc.2)

/-- The loop of a caller over an attached iterator: as long as the iterator
stands on a node, note the key of that node and call `Next`. -/
def visitKeys : Nat → Iterator → State → Option (List Int)
  | fuel, it, s =>
    match it.pNode with
    | none => some []
    | some a =>
      match fuel with
      | 0 => none
      | fuel + 1 =>
        match Next it s with
        | none => none
        | some (_, it1) => (visitKeys fuel it1 s).map (fun ks => (s.mem a).nKey :: ks)

/-- The keys seen by a new iterator attached with `Attach`. -/
def keysForward (s : State) : Option (List Int) :=
  match Attach AllocIterator s with
  | none => none
  | some (it, s1) => visitKeys s1.brk it s1

/-- The keys seen by a new iterator attached with `AttachEnd`. -/
def keysBackward (s : State) : Option (List Int) :=
  match AttachEnd AllocIterator s with
  | none => none
  | some (it, s1) => visitKeys s1.brk it s1

/-- Three inserts that give the node with the key 2 two children, then the removal
of that node. -/
def staleOps : List Op :=
  [.insert 2 none, .insert 1 none, .insert 3 none, .remove 2]
/-! ### Neighbours by key, and states for the examples -/

/-- The pointer `n` names the in-order successor of the node `a` of the tree: the
node of the tree with the least key above the key of `a`, or `NULL` when no node
of the tree has a key above it. -/
def IsSuccessor (s : State) (T : BT) (a : Nat) (n : Ptr) : Prop :=
  (n = none → ∀ b ∈ T.addrs, (s.mem b).nKey ≤ (s.mem a).nKey) ∧
  (∀ b, n = some b → b ∈ T.addrs ∧ (s.mem a).nKey < (s.mem b).nKey ∧
    ∀ d ∈ T.addrs, (s.mem a).nKey < (s.mem d).nKey → (s.mem b).nKey ≤ (s.mem d).nKey)

/-- The pointer `p` names the in-order predecessor of the node `a` of the tree:
the node of the tree with the greatest key below the key of `a`, or `NULL` when
no node of the tree has a key below it. -/
def IsPredecessor (s : State) (T : BT) (a : Nat) (p : Ptr) : Prop :=
  (p = none → ∀ b ∈ T.addrs, (s.mem a).nKey ≤ (s.mem b).nKey) ∧
  (∀ b, p = some b → b ∈ T.addrs ∧ (s.mem b).nKey < (s.mem a).nKey ∧
    ∀ d ∈ T.addrs, (s.mem d).nKey < (s.mem a).nKey → (s.mem d).nKey ≤ (s.mem b).nKey)

/-- The pointer `p` names the node of the tree with the least key, or is `NULL`
when the tree is empty. -/
def IsLeast (s : State) (T : BT) (p : Ptr) : Prop :=
  (p = none ↔ T = .nil) ∧
  (∀ b, p = some b → b ∈ T.addrs ∧ ∀ d ∈ T.addrs, (s.mem b).nKey ≤ (s.mem d).nKey)

/-- The pointer `p` names the node of the tree with the greatest key, or is `NULL`
when the tree is empty. -/
def IsGreatest (s : State) (T : BT) (p : Ptr) : Prop :=
  (p = none ↔ T = .nil) ∧
  (∀ b, p = some b → b ∈ T.addrs ∧ ∀ d ∈ T.addrs, (s.mem d).nKey ≤ (s.mem b).nKey)

/-- A memory with three nodes in a chain of right children: key 10 at address 0,
key 20 at address 1 and key 30 at address 2, the two lower ones with their AVL
heights. -/
def tiltMem : Nat → Node
  | 0 => ⟨none, some 1, none, 10, none, some 1⟩
  | 1 => ⟨none, some 2, some 0, 20, none, some 1⟩
  | 2 => ⟨none, none, some 1, 30, none, some 0⟩
  | _ => blankNode

/-- A tree with the AVL callbacks in which the root is out of balance, as
`InsertNode` leaves it after 10, 20 and 30 before the insert callback runs. -/
def tiltState : State :=
  { pRoot := some 0, pFirst := some 0, nSize := 3, nIterators := 0,
    cbAllocNode := true, cbInsert := true, cbRemove := true, cbRotation := true,
    mem := tiltMem, brk := 3, calls := [], freed := [] }

/-- The shape of `tiltState`. -/
def tiltTree : BT :=
  .node .nil 0 10 none (some 1)
    (.node .nil 1 20 none (some 1) (.node .nil 2 30 none (some 0) .nil))

/-- Four inserts into a tree with the AVL callbacks that leave the node with key
3 with one child (key 4) and the parent with key 2. -/
def hookOps : List Op :=
  [.insert 2 none, .insert 1 none, .insert 3 none, .insert 4 none]
/-! ### The body of the loop of `AVLBalance`, and stored heights -/

/-- The body of the loop of `AVLBalance` at the node `pNode`, the assignment
`pNode = pNode->pParent` at its end included: the node the loop goes on with and
the state; `none` when the body dereferences `NULL`. -/
def AVLBalanceStep (pNode : Nat) (s : State) : Option (Ptr × State) :=
  match AVLSetHeight pNode s with
  | none => none
  | some s1 =>
    match AVLBalanceFactor pNode s1 with
    | none => none
    | some nBalance =>
      if nBalance > 1 then
        match (s1.mem pNode).pLeftChild with
        | none => none
        | some pLeft =>
          match AVLBalanceFactor pLeft s1 with
          | none => none
          | some nChildBalance =>
            if nChildBalance > -1 then
              match RightRotation pNode s1 with
              | none => none
              | some (pNew, s2) => some ((s2.mem pNew).pParent, s2)
            else
              match LeftRotation pLeft s1 with
              | none => none
              | some (_, s2) =>
                match RightRotation pNode s2 with
                | none => none
                | some (pNew, s3) => some ((s3.mem pNew).pParent, s3)
      else if nBalance < -1 then
        match (s1.mem pNode).pRightChild with
        | none => none
        | some pRight =>
          match AVLBalanceFactor pRight s1 with
          | none => none
          | some nChildBalance =>
            if nChildBalance < 1 then
              match LeftRotation pNode s1 with
              | none => none
              | some (pNew, s2) => some ((s2.mem pNew).pParent, s2)
            else
              match RightRotation pRight s1 with
              | none => none
              | some (_, s2) =>
                match LeftRotation pNode s2 with
                | none => none
                | some (pNew, s3) => some ((s3.mem pNew).pParent, s3)
      else some ((s1.mem pNode).pParent, s1)

/-- Every stored height of the tree is the height of the subtree below it (the
AVL invariant without the bound on the balance factors). -/
def BT.Stored : BT → Prop
  | .nil => True
  | .node l _ _ _ x r =>
    l.Stored ∧ r.Stored ∧ x = some ((if l.height > r.height then l.height else r.height) + 1)

/-- Along the path every node has its AVL record and every sibling subtree has
correct stored heights. -/
def CtxStored : Path → Prop
  | [] => True
  | .L _ _ _ x r :: fs => r.Stored ∧ x.isSome ∧ CtxStored fs
  | .R l _ _ _ x :: fs => l.Stored ∧ x.isSome ∧ CtxStored fs
/-! ### Lists of a plugged tree -/

theorem addrs_plug (fs : Path) (t : BT) :
    (plug fs t).addrs = addrsBefore fs ++ t.addrs ++ addrsAfter fs := by
  induction fs generalizing t with
  | nil => simp [plug, addrsBefore, addrsAfter]
  | cons f fs ih =>
    cases f <;> simp [plug, Frame.fill, ih, BT.addrs, addrsBefore, addrsAfter]

theorem keys_plug (fs : Path) (t : BT) :
    (plug fs t).keys = keysBefore fs ++ t.keys ++ keysAfter fs := by
  induction fs generalizing t with
  | nil => simp [plug, keysBefore, keysAfter]
  | cons f fs ih =>
    cases f <;> simp [plug, Frame.fill, ih, BT.keys, keysBefore, keysAfter]

theorem toList_plug (fs : Path) (t : BT) :
    (plug fs t).toList = listBefore fs ++ t.toList ++ listAfter fs := by
  induction fs generalizing t with
  | nil => simp [plug, listBefore, listAfter]
  | cons f fs ih =>
    cases f <;> simp [plug, Frame.fill, ih, BT.toList, listBefore, listAfter]

theorem ptr_plug (fs : Path) (t : BT) : (plug fs t).ptr = rootOf fs t.ptr := by
  induction fs generalizing t with
  | nil => rfl
  | cons f fs ih => cases f <;> (simp only [plug, rootOf, Frame.fill, Frame.addr]; rw [ih]; rfl)

theorem size_eq_length (t : BT) : t.size = t.addrs.length := by
  induction t with
  | nil => rfl
  | node l a k c x r ihl ihr => simp [BT.size, BT.addrs, ihl, ihr]; omega

theorem keys_length (t : BT) : t.keys.length = t.addrs.length := by
  induction t with
  | nil => rfl
  | node l a k c x r ihl ihr => simp [BT.keys, BT.addrs, ihl, ihr]

theorem toList_keys (t : BT) : t.toList.map Prod.fst = t.keys := by
  induction t with
  | nil => rfl
  | node l a k c x r ihl ihr => simp [BT.keys, BT.toList, ihl, ihr]

/-- BST order is the keys in order being strictly increasing. -/
theorem ordered_iff (t : BT) : t.Ordered ↔ t.keys.Pairwise (· < ·) := by
  induction t with
  | nil => simp [BT.Ordered, BT.keys]
  | node l a k c x r ihl ihr =>
    simp only [BT.Ordered, BT.keys, List.pairwise_append, List.pairwise_cons, ihl, ihr,
      List.mem_cons]
    constructor
    · rintro ⟨h1, h2, h3, h4⟩
      refine ⟨h1, ⟨h4, h2⟩, ?_⟩
      intro x hx y hy
      rcases hy with rfl | hy
      · exact h3 x hx
      · exact lt_trans (h3 x hx) (h4 y hy)
    · rintro ⟨h1, ⟨h4, h2⟩, h5⟩
      exact ⟨h1, h2, fun j hj => h5 j hj k (Or.inl rfl), h4⟩

/-! ### Memory that agrees on the nodes of a tree -/

theorem rep_congr {mem mem' : Nat → Node} {t : BT} {par : Ptr}
    (h : Rep mem t par) (hm : ∀ a ∈ t.addrs, mem' a = mem a) : Rep mem' t par := by
  induction t generalizing par with
  | nil => trivial
  | node l a k c x r ihl ihr =>
    obtain ⟨h1, h2, h3⟩ := h
    refine ⟨?_, ihl h2 ?_, ihr h3 ?_⟩
    · rw [hm a (by simp [BT.addrs]), h1]
    · intro b hb; exact hm b (by simp [BT.addrs, hb])
    · intro b hb; exact hm b (by simp [BT.addrs, hb])

theorem repCtx_congr {mem mem' : Nat → Node} {fs : Path} {p : Ptr}
    (h : RepCtx mem fs p) (hm : ∀ a ∈ ctxAddrs fs, mem' a = mem a) : RepCtx mem' fs p := by
  induction fs generalizing p with
  | nil => trivial
  | cons f fs ih =>
    cases f with
    | L a k c x r =>
      obtain ⟨h1, h2, h3⟩ := h
      refine ⟨?_, rep_congr h2 ?_, ih h3 ?_⟩
      · rw [hm a (by simp [ctxAddrs, Frame.addr]), h1]
      · intro b hb; exact hm b (by simp [ctxAddrs, Frame.sibling, hb])
      · intro b hb; exact hm b (by simp [ctxAddrs, hb])
    | R l a k c x =>
      obtain ⟨h1, h2, h3⟩ := h
      refine ⟨?_, rep_congr h2 ?_, ih h3 ?_⟩
      · rw [hm a (by simp [ctxAddrs, Frame.addr]), h1]
      · intro b hb; exact hm b (by simp [ctxAddrs, Frame.sibling, hb])
      · intro b hb; exact hm b (by simp [ctxAddrs, hb])

theorem mem_ctxAddrs_iff (fs : Path) (a : Nat) :
    a ∈ ctxAddrs fs ↔ a ∈ addrsBefore fs ∨ a ∈ addrsAfter fs := by
  induction fs with
  | nil => simp [ctxAddrs, addrsBefore, addrsAfter]
  | cons f fs ih =>
    cases f <;> simp [ctxAddrs, addrsBefore, addrsAfter, Frame.addr, Frame.sibling, ih] <;> tauto

theorem mem_addrs_plug (fs : Path) (t : BT) (a : Nat) :
    a ∈ (plug fs t).addrs ↔ a ∈ ctxAddrs fs ∨ a ∈ t.addrs := by
  rw [addrs_plug, mem_ctxAddrs_iff]; simp; tauto

/-- The whole tree is laid out in memory exactly when the path and the subtree are. -/
theorem rep_plug (mem : Nat → Node) (fs : Path) (t : BT) :
    Rep mem (plug fs t) none ↔ RepCtx mem fs t.ptr ∧ Rep mem t (parOf fs) := by
  induction fs generalizing t with
  | nil => simp [plug, RepCtx, parOf]
  | cons f fs ih =>
    cases f <;> simp [plug, ih, Frame.fill, RepCtx, Rep, parOf, BT.ptr, Frame.addr] <;> tauto

theorem zrep_nil_iff (s : State) (fs : Path) (t : BT) :
    ZRep s [] (plug fs t) ↔ ZRep s fs t := by
  constructor
  · rintro ⟨h1, -, h3⟩
    have := (rep_plug s.mem fs t).1 h3
    exact ⟨by simpa [rootOf, ptr_plug] using h1, this.1, this.2⟩
  · rintro ⟨h1, h2, h3⟩
    exact ⟨by simpa [rootOf, ptr_plug] using h1, trivial, (rep_plug s.mem fs t).2 ⟨h2, h3⟩⟩

/-! ### Keeping the rest of the state -/

theorem keeps_refl (s : State) (A : List Nat) : Keeps s s A :=
  ⟨rfl, rfl, rfl, rfl, rfl, rfl, rfl, fun _ _ => rfl⟩

theorem keeps_trans {s s' s'' : State} {A B C : List Nat} (h : Keeps s s' A) (h' : Keeps s' s'' B)
    (hA : ∀ a ∈ A, a ∈ C) (hB : ∀ a ∈ B, a ∈ C) : Keeps s s'' C where
  nSize := h'.nSize.trans h.nSize
  nIterators := h'.nIterators.trans h.nIterators
  cbAllocNode := h'.cbAllocNode.trans h.cbAllocNode
  cbInsert := h'.cbInsert.trans h.cbInsert
  cbRemove := h'.cbRemove.trans h.cbRemove
  cbRotation := h'.cbRotation.trans h.cbRotation
  brk := h'.brk.trans h.brk
  mem := fun b hb => (h'.mem b (fun hb' => hb (hB b hb'))).trans (h.mem b (fun hb' => hb (hA b hb')))

theorem keeps_mono {s s' : State} {A C : List Nat} (h : Keeps s s' A) (hA : ∀ a ∈ A, a ∈ C) :
    Keeps s s' C :=
  ⟨h.nSize, h.nIterators, h.cbAllocNode, h.cbInsert, h.cbRemove, h.cbRotation, h.brk,
    fun b hb => h.mem b (fun hb' => hb (hA b hb'))⟩

/-! ### The descent for a key -/

theorem plug_locate (k : Int) (fs : Path) (t : BT) :
    plug (locate k fs t).1 (locate k fs t).2 = plug fs t := by
  induction t generalizing fs with
  | nil => rfl
  | node l a k' c x r ihl ihr =>
    unfold locate
    split_ifs
    · rw [ihl]; rfl
    · rw [ihr]; rfl
    · rfl

theorem locate_snd (k : Int) (fs fs' : Path) (t : BT) :
    (locate k fs t).2 = (locate k fs' t).2 := by
  induction t generalizing fs fs' with
  | nil => rfl
  | node l a k' c x r ihl ihr =>
    unfold locate
    split_ifs
    · exact ihl _ _
    · exact ihr _ _
    · rfl

/-- The descent ends at a node that holds `k`, or at an empty place. -/
theorem locate_key (k : Int) (fs : Path) (t : BT) :
    (locate k fs t).2 = .nil ∨ ∃ l a c x r, (locate k fs t).2 = .node l a k c x r := by
  induction t generalizing fs with
  | nil => exact Or.inl rfl
  | node l a k' c x r ihl ihr =>
    unfold locate
    split_ifs with h1 h2
    · exact ihl _
    · exact ihr _
    · have hk : k = k' := by omega
      subst hk
      exact Or.inr ⟨l, a, c, x, r, rfl⟩

/-- In a BST the descent finds the key exactly when the tree holds it. -/
theorem locate_nil_iff (k : Int) (fs : Path) (t : BT) (ho : t.Ordered) :
    (locate k fs t).2 = .nil ↔ k ∉ t.keys := by
  induction t generalizing fs with
  | nil => simp [locate, BT.keys]
  | node l a k' c x r ihl ihr =>
    obtain ⟨hl, hr, h1, h2⟩ := ho
    unfold locate
    split_ifs with h3 h4
    · rw [ihl _ hl]
      simp only [BT.keys, List.mem_append, List.mem_cons, not_or]
      constructor
      · intro h; exact ⟨h, by omega, fun h' => by have := h2 k h'; omega⟩
      · intro h; exact h.1
    · rw [ihr _ hr]
      simp only [BT.keys, List.mem_append, List.mem_cons, not_or]
      constructor
      · intro h; exact ⟨fun h' => by have := h1 k h'; omega, by omega, h⟩
      · intro h; exact h.2.2
    · have : k = k' := by omega
      simp [BT.keys, this]

theorem locate_fits (k : Int) (fs : Path) (t : BT) (ho : t.Ordered) (hf : PathFits k fs) :
    PathFits k (locate k fs t).1 := by
  induction t generalizing fs with
  | nil => exact hf
  | node l a k' c x r ihl ihr =>
    obtain ⟨hl, hr, h1, h2⟩ := ho
    unfold locate
    split_ifs with h3 h4
    · apply ihl _ hl
      refine ⟨hf.1, ?_⟩
      intro j hj
      simp only [keysAfter, List.cons_append, List.mem_cons, List.mem_append] at hj
      rcases hj with rfl | hj | hj
      · exact h3
      · have := h2 j hj; omega
      · exact hf.2 j hj
    · apply ihr _ hr
      refine ⟨?_, hf.2⟩
      intro j hj
      simp only [keysBefore, List.mem_append, List.mem_cons, List.mem_singleton,
        List.not_mem_nil, or_false] at hj
      rcases hj with hj | hj | rfl
      · exact hf.1 j hj
      · have := h1 j hj; omega
      · omega
    · exact hf

theorem pathFits_nil (k : Int) : PathFits k [] := by
  simp [PathFits, keysBefore, keysAfter]

theorem sideOK_of_fits {k : Int} {fs : Path} (h : PathFits k fs) : sideOK fs k := by
  cases fs with
  | nil => trivial
  | cons f fs =>
    cases f with
    | L a k' c x r => exact h.2 k' (by simp [keysAfter])
    | R l a k' c x => exact h.1 k' (by simp [keysBefore])

theorem searchNodeLoop_eq (k : Int) (mem : Nat → Node) (t : BT) (par : Ptr) (fuel : Nat)
    (fs : Path) (h : Rep mem t par) (hf : t.size ≤ fuel) :
    SearchNodeLoop k mem fuel t.ptr = some (locate k fs t).2.ptr := by
  induction t generalizing par fuel fs with
  | nil => cases fuel <;> rfl
  | node l a k' c x r ihl ihr =>
    obtain ⟨h1, h2, h3⟩ := h
    cases fuel with
    | zero => simp [BT.size] at hf
    | succ fuel =>
      simp only [BT.size] at hf
      simp only [BT.ptr, SearchNodeLoop, h1, locate]
      split_ifs with h4 h5
      · exact ihl _ _ _ h2 (by omega)
      · exact ihr _ _ _ h3 (by omega)
      · rfl

theorem insertNodeLoop_eq (k : Int) (mem : Nat → Node) (t : BT) (par : Ptr) (fuel : Nat)
    (fs : Path) (h : Rep mem t par) (hf : t.size ≤ fuel) :
    ((locate k fs t).2 = .nil →
      InsertNodeLoop k mem fuel t.ptr (parOf fs) = some (true, parOf (locate k fs t).1)) ∧
    ((locate k fs t).2 ≠ .nil →
      InsertNodeLoop k mem fuel t.ptr (parOf fs) = some (false, (locate k fs t).2.ptr)) := by
  induction t generalizing par fuel fs with
  | nil => cases fuel <;> simp [locate, InsertNodeLoop, BT.ptr]
  | node l a k' c x r ihl ihr =>
    obtain ⟨h1, h2, h3⟩ := h
    cases fuel with
    | zero => simp [BT.size] at hf
    | succ fuel =>
      simp only [BT.size] at hf
      simp only [BT.ptr, InsertNodeLoop, h1, locate]
      split_ifs with h4 h5
      · exact ihl _ _ (.L a k' c x r :: fs) h2 (by omega)
      · exact ihr _ _ (.R l a k' c x :: fs) h3 (by omega)
      · simp [BT.ptr]

/-! ### What `AttachNodes` writes -/

theorem nodup_node {l r : BT} {a : Nat} {k : Int} {c : Ptr} {x : Option Int} :
    (BT.node l a k c x r).addrs.Nodup ↔
      l.addrs.Nodup ∧ r.addrs.Nodup ∧ a ∉ l.addrs ∧ a ∉ r.addrs ∧
        ∀ b ∈ l.addrs, b ∉ r.addrs := by
  simp only [BT.addrs, List.nodup_append, List.nodup_cons, List.Disjoint, List.mem_cons]
  constructor
  · rintro ⟨h1, ⟨h2, h3⟩, h5⟩
    exact ⟨h1, h3, fun h => h5 h (Or.inl rfl), h2, fun b hb hb' => h5 hb (Or.inr hb')⟩
  · rintro ⟨h1, h2, h3, h4, h5⟩
    refine ⟨h1, ⟨h4, h2⟩, ?_⟩
    intro b hb hb'
    rcases hb' with rfl | hb'
    · exact h3 hb
    · exact h5 b hb hb'

theorem update_of_mem {m : Nat → Node} {a b : Nat} {v : Node} {xs : List Nat}
    (hb : b ∈ xs) (ha : a ∉ xs) : Function.update m a v b = m b :=
  Function.update_noteq (by rintro rfl; exact ha hb) _ _

@[simp] theorem attachNodes_none (par : Ptr) (s : State) : AttachNodes par none s = s := rfl

theorem attachNodes_root (c : Nat) (s : State) :
    AttachNodes none (some c) s =
      { s with
        mem := Function.update s.mem c { s.mem c with pParent := none }
        pRoot := some c
        pFirst := if s.pFirst = none then some c else s.pFirst } := by
  unfold AttachNodes State.setParent
  by_cases h : s.pFirst = none <;> simp [h]

theorem attachNodes_left (p c : Nat) (s : State) (hpc : p ≠ c)
    (hk : (s.mem c).nKey < (s.mem p).nKey) :
    AttachNodes (some p) (some c) s =
      { s with
        mem := Function.update (Function.update s.mem c { s.mem c with pParent := some p }) p
          { s.mem p with pLeftChild := some c }
        pFirst := if s.pFirst = some p then some c else s.pFirst } := by
  unfold AttachNodes State.setParent State.setLeft
  by_cases h : s.pFirst = some p <;> simp [h, hpc, hk, Function.update_noteq]

theorem attachNodes_right (p c : Nat) (s : State) (hpc : p ≠ c)
    (hk : ¬ (s.mem c).nKey < (s.mem p).nKey) :
    AttachNodes (some p) (some c) s =
      { s with
        mem := Function.update (Function.update s.mem c { s.mem c with pParent := some p }) p
          { s.mem p with pRightChild := some c } } := by
  unfold AttachNodes State.setParent State.setRight
  simp [hpc, hk, Function.update_noteq]

theorem parOf_mem (fs : Path) (b : Nat) (h : b ∈ parOf fs) : b ∈ ctxAddrs fs := by
  cases fs with
  | nil => simp [parOf] at h
  | cons f fs =>
    simp only [parOf, Option.mem_def, Option.some.injEq] at h
    simp [ctxAddrs, h]

/-- What `AttachNodes` does when it hangs the node `c` in the hole of a path: the
parent link of `c` and the child link of the frame next to the hole are written. -/
theorem attach_path (s : State) (fs : Path) (c : Nat) (p0 : Ptr)
    (hctx : RepCtx s.mem fs p0) (hnd : (ctxAddrs fs).Nodup) (hc : c ∉ ctxAddrs fs)
    (hside : sideOK fs (s.mem c).nKey) (hroot : s.pRoot = rootOf fs p0) :
    RepCtx (AttachNodes (parOf fs) (some c) s).mem fs (some c) ∧
    (AttachNodes (parOf fs) (some c) s).mem c = { s.mem c with pParent := parOf fs } ∧
    (AttachNodes (parOf fs) (some c) s).pRoot = rootOf fs (some c) ∧
    Keeps s (AttachNodes (parOf fs) (some c) s) (c :: (parOf fs).toList) ∧
    (AttachNodes (parOf fs) (some c) s).pFirst = firstAttach fs c s.pFirst ∧
    (AttachNodes (parOf fs) (some c) s).calls = s.calls := by
  cases fs with
  | nil =>
    rw [parOf, attachNodes_root]
    refine ⟨trivial, by simp, rfl, ?_, rfl, rfl⟩
    exact ⟨rfl, rfl, rfl, rfl, rfl, rfl, rfl, fun b hb => by
      simp at hb; simp [Function.update_noteq hb]⟩
  | cons f fs =>
    have hac : f.addr ≠ c := fun h => hc (by simp [ctxAddrs, h])
    have hkeep : ∀ (m : Nat → Node) (v w : Node), ∀ b, b ∉ c :: (parOf (f :: fs)).toList →
        Function.update (Function.update m c v) f.addr w b = m b := by
      intro m v w b hb
      simp [parOf] at hb
      simp [Function.update_noteq hb.1, Function.update_noteq hb.2]
    have hsib : ∀ b ∈ f.sibling.addrs, b ≠ f.addr ∧ b ≠ c := by
      intro b hb
      constructor
      · rintro rfl
        simp [ctxAddrs] at hnd
        exact hnd.1.1 hb
      · rintro rfl
        exact hc (by simp [ctxAddrs, hb])
    have hrest : ∀ b ∈ ctxAddrs fs, b ≠ f.addr ∧ b ≠ c := by
      intro b hb
      constructor
      · rintro rfl
        simp [ctxAddrs] at hnd
        exact hnd.1.2 hb
      · rintro rfl
        exact hc (by simp [ctxAddrs, hb])
    have hupd : ∀ (m : Nat → Node) (v w : Node) (b : Nat), b ≠ f.addr ∧ b ≠ c →
        Function.update (Function.update m c v) f.addr w b = m b := fun m v w b hb => by
      simp [Function.update_noteq hb.1, Function.update_noteq hb.2]
    cases f with
    | L a k' c' x' r' =>
      obtain ⟨ha, hr', hfs⟩ := hctx
      simp only [Frame.addr, Frame.sibling] at hac hsib hrest hupd hkeep
      have hk : (s.mem c).nKey < (s.mem a).nKey := by rw [ha]; exact hside
      simp only [parOf, Frame.addr]
      rw [attachNodes_left a c s hac hk]
      refine ⟨⟨?_, ?_, ?_⟩, ?_, hroot, ?_, rfl, rfl⟩
      · simp [ha, BT.ptr]
      · exact rep_congr hr' (fun b hb => hupd _ _ _ b (hsib b hb))
      · exact repCtx_congr hfs (fun b hb => hupd _ _ _ b (hrest b hb))
      · simp [Function.update_noteq hac.symm]
      · exact ⟨rfl, rfl, rfl, rfl, rfl, rfl, rfl, fun b hb => hkeep _ _ _ b hb⟩
    | R l' a k' c' x' =>
      obtain ⟨ha, hl', hfs⟩ := hctx
      simp only [Frame.addr, Frame.sibling] at hac hsib hrest hupd hkeep
      have hk : ¬ (s.mem c).nKey < (s.mem a).nKey := by
        rw [ha]; simp only [sideOK] at hside; simp only [not_lt]; omega
      simp only [parOf, Frame.addr]
      rw [attachNodes_right a c s hac hk]
      refine ⟨⟨?_, ?_, ?_⟩, ?_, hroot, ?_, rfl, rfl⟩
      · simp [ha, BT.ptr]
      · exact rep_congr hl' (fun b hb => hupd _ _ _ b (hsib b hb))
      · exact repCtx_congr hfs (fun b hb => hupd _ _ _ b (hrest b hb))
      · simp [Function.update_noteq hac.symm]
      · exact ⟨rfl, rfl, rfl, rfl, rfl, rfl, rfl, fun b hb => hkeep _ _ _ b hb⟩

/-- Hanging the root of a subtree in the hole of a path lays out the plugged tree. -/
theorem attach_hole (s : State) (fs : Path) (l : BT) (c : Nat) (kc : Int) (cc : Ptr)
    (xc : Option Int) (r : BT) (p0 par0 : Ptr)
    (hctx : RepCtx s.mem fs p0) (hsub : Rep s.mem (.node l c kc cc xc r) par0)
    (hnd : (ctxAddrs fs ++ (BT.node l c kc cc xc r).addrs).Nodup)
    (hside : sideOK fs kc) (hroot : s.pRoot = rootOf fs p0) :
    ZRep (AttachNodes (parOf fs) (some c) s) fs (.node l c kc cc xc r) ∧
    Keeps s (AttachNodes (parOf fs) (some c) s) (c :: (parOf fs).toList) ∧
    (AttachNodes (parOf fs) (some c) s).pFirst = firstAttach fs c s.pFirst ∧
    (AttachNodes (parOf fs) (some c) s).calls = s.calls := by
  obtain ⟨hc, hl, hr⟩ := hsub
  rw [List.nodup_append] at hnd
  obtain ⟨hn1, hn2, hn3⟩ := hnd
  obtain ⟨hnl, hnr, hcl, hcr, hlr⟩ := nodup_node.1 hn2
  have hct : c ∈ (BT.node l c kc cc xc r).addrs := by simp [BT.addrs]
  have hcn : c ∉ ctxAddrs fs := fun h => hn3 h hct
  obtain ⟨h1, h2, h3, h4, h5, h6⟩ := attach_path s fs c p0 hctx hn1 hcn (by rw [hc]; exact hside) hroot
  refine ⟨⟨h3, h1, ?_, ?_, ?_⟩, h4, h5, h6⟩
  · rw [h2, hc]
  · refine rep_congr hl (fun b hb => h4.mem b ?_)
    simp only [List.mem_cons, Option.mem_toList, not_or]
    refine ⟨fun h => hcl (h ▸ hb), fun h => hn3 (parOf_mem _ _ h) ?_⟩
    simp [BT.addrs, hb]
  · refine rep_congr hr (fun b hb => h4.mem b ?_)
    simp only [List.mem_cons, Option.mem_toList, not_or]
    refine ⟨fun h => hcr (h ▸ hb), fun h => hn3 (parOf_mem _ _ h) ?_⟩
    simp [BT.addrs, hb]
/-! ### Distinct addresses along a path -/

theorem ctxAddrs_perm (fs : Path) : (ctxAddrs fs).Perm (addrsBefore fs ++ addrsAfter fs) := by
  induction fs with
  | nil => simp [ctxAddrs, addrsBefore, addrsAfter]
  | cons f fs ih =>
    cases f with
    | L a k c x r =>
      simp only [ctxAddrs, Frame.addr, Frame.sibling, addrsBefore, addrsAfter]
      have h1 : (a :: r.addrs ++ ctxAddrs fs).Perm
          (a :: r.addrs ++ (addrsBefore fs ++ addrsAfter fs)) := List.Perm.append_left _ ih
      refine h1.trans ?_
      have h2 : (addrsBefore fs ++ (a :: r.addrs ++ addrsAfter fs)) =
          addrsBefore fs ++ (a :: r.addrs) ++ addrsAfter fs := by simp
      rw [h2]
      have h3 : (a :: r.addrs ++ (addrsBefore fs ++ addrsAfter fs)) =
          (a :: r.addrs) ++ addrsBefore fs ++ addrsAfter fs := by simp
      rw [h3]
      exact List.Perm.append_right _ List.perm_append_comm
    | R l a k c x =>
      simp only [ctxAddrs, Frame.addr, Frame.sibling, addrsBefore, addrsAfter]
      have h1 : (a :: l.addrs ++ ctxAddrs fs).Perm
          (a :: l.addrs ++ (addrsBefore fs ++ addrsAfter fs)) := List.Perm.append_left _ ih
      refine h1.trans ?_
      have h3 : (a :: l.addrs ++ (addrsBefore fs ++ addrsAfter fs)) =
          ((a :: l.addrs) ++ addrsBefore fs) ++ addrsAfter fs := by simp
      rw [h3]
      have h2 : (addrsBefore fs ++ (l.addrs ++ [a]) ++ addrsAfter fs) =
          (addrsBefore fs ++ (l.addrs ++ [a])) ++ addrsAfter fs := by simp
      rw [h2]
      refine List.Perm.append_right _ ?_
      refine List.perm_append_comm.trans (List.Perm.append_left _ ?_)
      exact (List.perm_append_singleton a l.addrs).symm

theorem plug_addrs_perm (fs : Path) (t : BT) :
    (plug fs t).addrs.Perm (ctxAddrs fs ++ t.addrs) := by
  rw [addrs_plug]
  have h1 : (addrsBefore fs ++ t.addrs ++ addrsAfter fs).Perm
      (addrsBefore fs ++ addrsAfter fs ++ t.addrs) := by
    rw [List.append_assoc, List.append_assoc]
    exact List.Perm.append_left _ List.perm_append_comm
  exact h1.trans (List.Perm.append_right _ (ctxAddrs_perm fs).symm)

theorem nodup_plug (fs : Path) (t : BT) :
    (plug fs t).addrs.Nodup ↔ (ctxAddrs fs ++ t.addrs).Nodup :=
  (plug_addrs_perm fs t).nodup_iff

theorem size_plug (fs : Path) (t t' : BT) :
    ((plug fs t').size : Int) = (plug fs t).size + t'.size - t.size := by
  simp only [size_eq_length, addrs_plug, List.length_append]
  push_cast
  ring

/-! ### Insertion without callbacks -/

theorem plug_locate_root (k : Int) (T : BT) (hnil : (locate k [] T).2 = .nil) :
    plug (locate k [] T).1 .nil = T := by
  have h := plug_locate k [] T
  rw [hnil] at h
  exact h

theorem ordered_insertAt (k : Int) (c : Ptr) (x : Option Int) (a : Nat) (T : BT)
    (ho : T.Ordered) (hk : k ∉ T.keys) : (insertAt k c x a T).Ordered := by
  have hnil := (locate_nil_iff k [] T ho).2 hk
  have hfit := locate_fits k [] T ho (pathFits_nil k)
  have hT : T.keys = keysBefore (locate k [] T).1 ++ keysAfter (locate k [] T).1 := by
    conv_lhs => rw [← plug_locate_root k T hnil]
    rw [keys_plug]; simp [BT.keys]
  rw [ordered_iff] at ho ⊢
  rw [insertAt, keys_plug]
  rw [hT, List.pairwise_append] at ho
  simp only [BT.keys, List.nil_append, List.append_assoc, List.singleton_append,
    List.pairwise_append, List.pairwise_cons, List.mem_cons]
  refine ⟨ho.1, ⟨hfit.2, ho.2.1⟩, ?_⟩
  intro i hi j hj
  rcases hj with rfl | hj
  · exact hfit.1 i hi
  · exact ho.2.2 i hi j hj

theorem toList_insertAt (k : Int) (c : Ptr) (x : Option Int) (a : Nat) (T : BT)
    (ho : T.Ordered) (hk : k ∉ T.keys) :
    ∃ xs ys, T.toList = xs ++ ys ∧ (insertAt k c x a T).toList = xs ++ (k, c) :: ys := by
  have hnil := (locate_nil_iff k [] T ho).2 hk
  refine ⟨listBefore (locate k [] T).1, listAfter (locate k [] T).1, ?_, ?_⟩
  · conv_lhs => rw [← plug_locate_root k T hnil]
    rw [toList_plug]; simp [BT.toList]
  · rw [insertAt, toList_plug]; simp [BT.toList]

theorem addrs_insertAt (k : Int) (c : Ptr) (x : Option Int) (a : Nat) (T : BT)
    (ho : T.Ordered) (hk : k ∉ T.keys) :
    (insertAt k c x a T).addrs.Perm (a :: T.addrs) := by
  have hnil := (locate_nil_iff k [] T ho).2 hk
  have h1 := plug_addrs_perm (locate k [] T).1 (.node .nil a k c x .nil)
  have h2 := plug_addrs_perm (locate k [] T).1 .nil
  rw [plug_locate_root k T hnil] at h2
  simp only [BT.addrs, List.append_nil, List.nil_append] at h1 h2
  rw [insertAt]
  exact h1.trans (List.perm_append_singleton _ _ |>.trans (List.Perm.cons _ h2.symm))

/-! ### Shapes -/

theorem shape_size_le {s : State} {T : BT} (h : Shape s T) : T.size ≤ s.brk := by
  rw [size_eq_length]
  have hsub : T.addrs ⊆ List.range s.brk := fun a ha => List.mem_range.2 (h.lt_brk a ha)
  simpa using (List.subperm_of_subset h.nodup hsub).length_le

theorem shape_fresh {s : State} {T : BT} (h : Shape s T) : s.brk ∉ T.addrs :=
  fun hb => lt_irrefl _ (h.lt_brk _ hb)

theorem shape_zrep {s : State} {T : BT} (h : Shape s T) (fs : Path) (t : BT)
    (hT : plug fs t = T) : ZRep s fs t := by
  have := h.rep
  rw [← hT] at this
  exact (zrep_nil_iff s fs t).1 this

theorem insertStart_mem (k : Int) (c : Ptr) (s : State) :
    (insertStart k c s).mem = Function.update s.mem s.brk
      ⟨none, none, none, k, c, newAux s⟩ := by
  simp [insertStart, AllocNode, State.setKeyContent, blankNode, newAux]

theorem insert_eq (k : Int) (c : Ptr) (s : State) :
    Insert k c s =
      match InsertNode s.brk (insertStart k c s) with
      | none => none
      | some (false, s2) => some (false, FreeNode s.brk s2)
      | some (true, s2) => some (true, s2) := rfl

/-- Inserting a key that the tree holds: `Insert` returns `FALSE`; only the node
it allocated and freed was written. -/
theorem insert_dup (k : Int) (c : Ptr) (s : State) (T : BT) (hs : Shape s T)
    (ho : T.Ordered) (hk : k ∈ T.keys) :
    Insert k c s = some (false, FreeNode s.brk (insertStart k c s)) := by
  have hrep : Rep (insertStart k c s).mem T none := by
    refine rep_congr hs.rep.sub (fun a ha => ?_)
    rw [insertStart_mem]
    exact update_of_mem ha (shape_fresh hs)
  have hloop := (insertNodeLoop_eq k (insertStart k c s).mem T none (s.brk + 1) [] hrep
    (by have := shape_size_le hs; omega)).2
  have hne : (locate k [] T).2 ≠ .nil := fun h => (locate_nil_iff k [] T ho).1 h hk
  have hroot : (insertStart k c s).pRoot = T.ptr := hs.rep.root
  have hkey : ((insertStart k c s).mem s.brk).nKey = k := by simp [insertStart_mem]
  have hbrk : (insertStart k c s).brk = s.brk + 1 := rfl
  rw [insert_eq, InsertNode, hkey, hbrk, hroot]
  rw [show (none : Ptr) = parOf [] from rfl, hloop hne]
theorem insert_new (k : Int) (c : Ptr) (s : State) (T : BT) (hs : Shape s T)
    (ho : T.Ordered) (hk : k ∉ T.keys) :
    Insert k c s =
      (if (insertLinked k c s T).cbInsert then
        match AVLBalance (some s.brk) ((insertLinked k c s T).record (.cbInsert s.brk)) with
        | none => none
        | some s3 => some (true, s3)
      else some (true, insertLinked k c s T)) := by
  have hrep : Rep (insertStart k c s).mem T none := by
    refine rep_congr hs.rep.sub (fun a ha => ?_)
    rw [insertStart_mem]
    exact update_of_mem ha (shape_fresh hs)
  have hloop := (insertNodeLoop_eq k (insertStart k c s).mem T none (s.brk + 1) [] hrep
    (by have := shape_size_le hs; omega)).1
  have hnil : (locate k [] T).2 = .nil := (locate_nil_iff k [] T ho).2 hk
  have hroot : (insertStart k c s).pRoot = T.ptr := hs.rep.root
  have hkey : ((insertStart k c s).mem s.brk).nKey = k := by simp [insertStart_mem]
  have hbrk : (insertStart k c s).brk = s.brk + 1 := rfl
  rw [insert_eq, InsertNode, hkey, hbrk, hroot]
  rw [show (none : Ptr) = parOf [] from rfl, hloop hnil]
  show (match (if (insertLinked k c s T).cbInsert then
        match AVLBalance (some s.brk) ((insertLinked k c s T).record (.cbInsert s.brk)) with
        | none => none
        | some s3 => some (true, s3)
      else some (true, insertLinked k c s T)) with
    | none => none
    | some (false, s2) => some (false, FreeNode s.brk s2)
    | some (true, s2) => some (true, s2)) = _
  by_cases hcb : (insertLinked k c s T).cbInsert = true
  · simp only [hcb, if_true]
    cases AVLBalance (some s.brk) ((insertLinked k c s T).record (.cbInsert s.brk)) <;> rfl
  · simp only [hcb, if_false]
    rfl

theorem insertLinked_spec (k : Int) (c : Ptr) (s : State) (T : BT) (hs : Shape s T)
    (ho : T.Ordered) (hk : k ∉ T.keys) :
    ZRep (insertLinked k c s T) (locate k [] T).1 (.node .nil s.brk k c (newAux s) .nil) ∧
    (insertLinked k c s T).pFirst = firstAttach (locate k [] T).1 s.brk s.pFirst ∧
    (insertLinked k c s T).nSize = s.nSize + 1 ∧
    (insertLinked k c s T).brk = s.brk + 1 ∧
    (insertLinked k c s T).nIterators = s.nIterators ∧
    (insertLinked k c s T).calls = s.calls ∧
    (insertLinked k c s T).cbAllocNode = s.cbAllocNode ∧
    (insertLinked k c s T).cbInsert = s.cbInsert ∧
    (insertLinked k c s T).cbRemove = s.cbRemove ∧
    (insertLinked k c s T).cbRotation = s.cbRotation ∧
    (∀ b, b ∉ T.addrs → b ≠ s.brk → (insertLinked k c s T).mem b = s.mem b) := by
  have hnil : (locate k [] T).2 = .nil := (locate_nil_iff k [] T ho).2 hk
  have hplug := plug_locate_root k T hnil
  have hs0 : Shape (insertStart k c s) T := by
    refine ⟨⟨hs.rep.root, trivial, ?_⟩, hs.nodup, fun a ha => ?_⟩
    · refine rep_congr hs.rep.sub (fun a ha => ?_)
      rw [insertStart_mem]
      exact update_of_mem ha (shape_fresh hs)
    · have := hs.lt_brk a ha
      show a < s.brk + 1
      omega
  have hz := shape_zrep hs0 _ _ hplug
  have hnd : (ctxAddrs (locate k [] T).1 ++
      (BT.node .nil s.brk k c (newAux s) .nil).addrs).Nodup := by
    have h1 := (nodup_plug (locate k [] T).1 .nil).1 (by rw [hplug]; exact hs.nodup)
    simp only [BT.addrs, List.append_nil, List.nil_append] at h1 ⊢
    rw [List.nodup_append]
    refine ⟨h1, List.nodup_singleton _, ?_⟩
    intro a ha hb
    simp at hb
    rw [hb] at ha
    have h2 : s.brk ∈ (plug (locate k [] T).1 .nil).addrs :=
      (mem_addrs_plug _ _ _).2 (Or.inl ha)
    rw [hplug] at h2
    exact (shape_fresh hs) h2
  have hsub : Rep (insertStart k c s).mem (.node .nil s.brk k c (newAux s) .nil) none := by
    refine ⟨?_, trivial, trivial⟩
    simp [insertStart_mem, BT.ptr]
  have hat := attach_hole (insertStart k c s) (locate k [] T).1 .nil s.brk k c (newAux s) .nil
    none none hz.ctx hsub hnd
    (sideOK_of_fits (locate_fits k [] T ho (pathFits_nil k))) hz.root
  obtain ⟨h1, h2, h3, h4⟩ := hat
  refine ⟨⟨h1.root, h1.ctx, h1.sub⟩, h3, congrArg (· + 1) h2.nSize, h2.brk, h2.nIterators, h4, h2.cbAllocNode,
    h2.cbInsert, h2.cbRemove, h2.cbRotation, ?_⟩
  intro b hb1 hb2
  show (AttachNodes _ _ _).mem b = _
  rw [h2.mem b, insertStart_mem, Function.update_noteq hb2]
  simp only [List.mem_cons, Option.mem_toList, not_or]
  refine ⟨hb2, fun hb => hb1 ?_⟩
  rw [← hplug]
  exact (mem_addrs_plug _ _ _).2 (Or.inl (parOf_mem _ _ hb))
theorem good_insertLinked_nohooks (k : Int) (c : Ptr) (s : State) (T : BT) (hg : Good s T)
    (hh : NoHooks s) (hk : k ∉ T.keys) :
    Good (insertLinked k c s T) (insertAt k c (newAux s) s.brk T) := by
  obtain ⟨hz, hf, hsz, hbrk, hit, hcalls, hc1, hc2, hc3, hc4, hmem⟩ :=
    insertLinked_spec k c s T hg.shape hg.ordered hk
  have hperm := addrs_insertAt k c (newAux s) s.brk T hg.ordered hk
  refine ⟨⟨(zrep_nil_iff _ _ _).2 hz, ?_, ?_⟩, ordered_insertAt k c _ _ T hg.ordered hk, ?_, ?_⟩
  · rw [hperm.nodup_iff, List.nodup_cons]
    exact ⟨shape_fresh hg.shape, hg.shape.nodup⟩
  · intro a ha
    have := hperm.mem_iff.1 ha
    rw [hbrk]
    rcases List.mem_cons.1 this with rfl | h
    · omega
    · have := hg.shape.lt_brk a h; omega
  · rw [hsz, hg.size, size_eq_length, size_eq_length, hperm.length_eq]
    simp
  · left
    obtain ⟨h1, h2, h3, h4⟩ := hh
    exact ⟨hc1.trans h1, hc2.trans h2, hc3.trans h3, hc4.trans h4⟩

theorem searchNode_eq (k : Int) (s : State) (T : BT) (hs : Shape s T) :
    SearchNode k s = some (locate k [] T).2.ptr := by
  rw [SearchNode, hs.rep.root]
  exact searchNodeLoop_eq k s.mem T none s.brk [] hs.rep.sub (shape_size_le hs)

/-- Removing a key that the tree does not hold: `Remove` returns `FALSE` and the
state is the one it started from. -/
theorem remove_absent (k : Int) (s : State) (T : BT) (hs : Shape s T) (ho : T.Ordered)
    (hk : k ∉ T.keys) : Remove k s = some (false, s) := by
  have hnil : (locate k [] T).2 = .nil := (locate_nil_iff k [] T ho).2 hk
  rw [Remove, searchNode_eq k s T hs, hnil]
  rfl
/-! ### Heights in memory -/

theorem getHeight_eq (s : State) (t : BT) (par : Ptr) (h : Rep s.mem t par) :
    AVLGetHeight t.ptr s = t.sh := by
  cases t with
  | nil => rfl
  | node l a k c x r => simp [AVLGetHeight, BT.ptr, BT.sh, h.1]

theorem avl_sh {t : BT} (h : t.AVL) : t.sh = some t.height := by
  cases t with
  | nil => rfl
  | node l a k c x r => simp [BT.sh, BT.height, h.2.2.1]

theorem balanceFactor_eq (s : State) (fs : Path) (l : BT) (a : Nat) (k : Int) (c : Ptr)
    (x : Option Int) (r : BT) (hz : ZRep s fs (.node l a k c x r))
    (hl : l.sh = some l.height) (hr : r.sh = some r.height) :
    AVLBalanceFactor a s = some (l.height - r.height) := by
  obtain ⟨h1, h2, h3⟩ := hz.sub
  simp [AVLBalanceFactor, h1, getHeight_eq s l _ h2, getHeight_eq s r _ h3, hl, hr]

theorem zrep_congr_node {s s' : State} {fs : Path} {l r : BT} {a : Nat} {k : Int} {c : Ptr}
    {x x' : Option Int} (hz : ZRep s fs (.node l a k c x r))
    (hnd : (ctxAddrs fs ++ (BT.node l a k c x r).addrs).Nodup)
    (hroot : s'.pRoot = s.pRoot)
    (ha : s'.mem a = { s.mem a with pAuxiliary := x' })
    (hm : ∀ b, b ≠ a → s'.mem b = s.mem b) :
    ZRep s' fs (.node l a k c x' r) := by
  rw [List.nodup_append] at hnd
  obtain ⟨hn1, hn2, hn3⟩ := hnd
  obtain ⟨hnl, hnr, hcl, hcr, hlr⟩ := nodup_node.1 hn2
  obtain ⟨h1, h2, h3⟩ := hz.sub
  refine ⟨hroot.trans hz.root, repCtx_congr hz.ctx (fun b hb => hm b ?_), ?_,
    rep_congr h2 (fun b hb => hm b ?_), rep_congr h3 (fun b hb => hm b ?_)⟩
  · rintro rfl; exact hn3 hb (by simp [BT.addrs])
  · rw [ha, h1]
  · rintro rfl; exact hcl hb
  · rintro rfl; exact hcr hb

theorem setHeight_spec (s : State) (fs : Path) (l : BT) (a : Nat) (k : Int) (c : Ptr)
    (x : Option Int) (r : BT) (hz : ZRep s fs (.node l a k c x r))
    (hnd : (ctxAddrs fs ++ (BT.node l a k c x r).addrs).Nodup)
    (hx : x.isSome) (hl : l.sh = some l.height) (hr : r.sh = some r.height) :
    ∃ s', AVLSetHeight a s = some s' ∧ ZRep s' fs (BT.mk l a k c r) ∧ Keeps s s' [a] ∧
      s'.pFirst = s.pFirst ∧ s'.calls = s.calls := by
  obtain ⟨h1, h2, h3⟩ := hz.sub
  obtain ⟨x0, rfl⟩ := Option.isSome_iff_exists.1 hx
  refine ⟨s.setHeight a ((if l.height > r.height then l.height else r.height) + 1), ?_, ?_,
    ?_, rfl, rfl⟩
  · simp [AVLSetHeight, h1, getHeight_eq s l _ h2, getHeight_eq s r _ h3, hl, hr]
  · refine zrep_congr_node hz hnd rfl ?_ ?_
    · simp [State.setHeight]
    · intro b hb; simp [State.setHeight, Function.update_noteq hb]
  · exact ⟨rfl, rfl, rfl, rfl, rfl, rfl, rfl, fun b hb => by
      simp at hb; simp [State.setHeight, Function.update_noteq hb]⟩
/-! ### Rotations in memory -/

theorem head_ne_of_later {xs ys : List Nat} {y a : Nat} (hnd : (xs ++ y :: ys).Nodup)
    (ha : a ∈ ys) : (xs ++ y :: ys).head? ≠ some a := by
  intro h
  cases xs with
  | nil =>
    simp only [List.nil_append, List.head?_cons, Option.some.injEq] at h
    subst h
    exact (List.nodup_cons.1 hnd).1 ha
  | cons x xs =>
    simp only [List.cons_append, List.head?_cons, Option.some.injEq] at h
    subst h
    have := (List.nodup_cons.1 hnd).1
    exact this (by simp [ha])

theorem addrs_ne_nil {t : BT} (ht : t ≠ .nil) : ∃ y ys, t.addrs = y :: ys := by
  cases t with
  | nil => exact absurd rfl ht
  | node l a k c x r =>
    cases h : l.addrs with
    | nil => exact ⟨a, r.addrs, by simp [BT.addrs, h]⟩
    | cons y ys => exact ⟨y, ys ++ a :: r.addrs, by simp [BT.addrs, h]⟩

theorem firstAttach_head (fs : Path) (t : BT) (c : Nat) (first : Ptr)
    (hF : first = (plug fs t).addrs.head?) (ht : t ≠ .nil)
    (hnd : (ctxAddrs fs ++ t.addrs).Nodup) : firstAttach fs c first = first := by
  have hnd' := (nodup_plug fs t).2 hnd
  obtain ⟨y, ys, hy⟩ := addrs_ne_nil ht
  rw [addrs_plug, hy] at hnd' hF
  cases fs with
  | nil =>
    have : first ≠ none := by rw [hF]; simp [addrsBefore]
    simp [firstAttach, this]
  | cons f fs =>
    cases f with
    | L g kg cg xg rg =>
      have hne : first ≠ some g := by
        rw [hF, List.append_assoc]
        refine head_ne_of_later (by simpa using hnd') ?_
        simp [addrsAfter]
      simp [firstAttach, hne]
    | R lg g kg cg xg => rfl

theorem keeps_setLeft (s : State) (a : Nat) (p : Ptr) : Keeps s (s.setLeft a p) [a] :=
  ⟨rfl, rfl, rfl, rfl, rfl, rfl, rfl, fun b hb => by
    simp at hb; simp [State.setLeft, Function.update_noteq hb]⟩

theorem keeps_setRight (s : State) (a : Nat) (p : Ptr) : Keeps s (s.setRight a p) [a] :=
  ⟨rfl, rfl, rfl, rfl, rfl, rfl, rfl, fun b hb => by
    simp at hb; simp [State.setRight, Function.update_noteq hb]⟩

theorem ptr_mem_addrs {t : BT} {x : Nat} (h : x ∈ t.ptr.toList) : x ∈ t.addrs := by
  cases t with
  | nil => simp [BT.ptr] at h
  | node l3 c3 k3 cc3 x3 r3 => simp [BT.ptr] at h; simp [BT.addrs, h]

/-- Hanging a subtree as the left child of the node next to the hole. -/
theorem attach_sub (s : State) (fs : Path) (t : BT) (par0 : Ptr)
    (hctx : RepCtx s.mem fs none) (hsub : Rep s.mem t par0)
    (hnd : (ctxAddrs fs ++ t.addrs).Nodup)
    (hside : ∀ j ∈ t.keys, sideOK fs j) (hroot : s.pRoot = rootOf fs none) (hfs : fs ≠ []) :
    ZRep (AttachNodes (parOf fs) t.ptr s) fs t ∧
    Keeps s (AttachNodes (parOf fs) t.ptr s) (t.ptr.toList ++ (parOf fs).toList) ∧
    (AttachNodes (parOf fs) t.ptr s).pFirst =
      (match t.ptr with
        | none => s.pFirst
        | some c => firstAttach fs c s.pFirst) ∧
    (AttachNodes (parOf fs) t.ptr s).calls = s.calls := by
  cases t with
  | nil =>
    simp only [BT.ptr, attachNodes_none]
    refine ⟨⟨?_, hctx, trivial⟩, keeps_refl _ _, trivial, trivial⟩
    cases fs with
    | nil => exact absurd rfl hfs
    | cons f fs => exact hroot
  | node l c k cc x r =>
    have h := attach_hole s fs l c k cc x r none par0 hctx hsub hnd
      (hside k (by simp [BT.keys])) hroot
    exact ⟨h.1, by simpa [BT.ptr] using h.2.1, h.2.2.1, h.2.2.2⟩

theorem attachNodes_right_spec (p c : Nat) (s : State) (hpc : p ≠ c)
    (hk : ¬ (s.mem c).nKey < (s.mem p).nKey) :
    (AttachNodes (some p) (some c) s).mem c = { s.mem c with pParent := some p } ∧
    (AttachNodes (some p) (some c) s).mem p = { s.mem p with pRightChild := some c } ∧
    (∀ x, x ≠ c → x ≠ p → (AttachNodes (some p) (some c) s).mem x = s.mem x) ∧
    (AttachNodes (some p) (some c) s).pRoot = s.pRoot ∧
    (AttachNodes (some p) (some c) s).pFirst = s.pFirst ∧
    (AttachNodes (some p) (some c) s).calls = s.calls ∧
    Keeps s (AttachNodes (some p) (some c) s) [c, p] := by
  rw [attachNodes_right p c s hpc hk]
  refine ⟨by simp [Function.update_noteq hpc.symm], by simp, fun x h1 h2 => by
    simp [Function.update_noteq h1, Function.update_noteq h2], rfl, rfl, rfl, ?_⟩
  exact ⟨rfl, rfl, rfl, rfl, rfl, rfl, rfl, fun x hx => by
    simp at hx; simp [Function.update_noteq hx.1, Function.update_noteq hx.2]⟩

theorem attachNodes_left_spec (p c : Nat) (s : State) (hpc : p ≠ c)
    (hk : (s.mem c).nKey < (s.mem p).nKey) :
    (AttachNodes (some p) (some c) s).mem c = { s.mem c with pParent := some p } ∧
    (AttachNodes (some p) (some c) s).mem p = { s.mem p with pLeftChild := some c } ∧
    (∀ x, x ≠ c → x ≠ p → (AttachNodes (some p) (some c) s).mem x = s.mem x) ∧
    (AttachNodes (some p) (some c) s).pRoot = s.pRoot ∧
    (AttachNodes (some p) (some c) s).pFirst =
      (if s.pFirst = some p then some c else s.pFirst) ∧
    (AttachNodes (some p) (some c) s).calls = s.calls ∧
    Keeps s (AttachNodes (some p) (some c) s) [c, p] := by
  rw [attachNodes_left p c s hpc hk]
  refine ⟨by simp [Function.update_noteq hpc.symm], by simp, fun x h1 h2 => by
    simp [Function.update_noteq h1, Function.update_noteq h2], rfl, rfl, rfl, ?_⟩
  exact ⟨rfl, rfl, rfl, rfl, rfl, rfl, rfl, fun x hx => by
    simp at hx; simp [Function.update_noteq hx.1, Function.update_noteq hx.2]⟩

theorem rotRight_links (s : State) (fs : Path) (ll : BT) (b : Nat) (kb : Int) (cb : Ptr)
    (xb : Option Int) (lr : BT) (a : Nat) (ka : Int) (ca : Ptr) (xa : Option Int) (r : BT)
    (hz : ZRep s fs (.node (.node ll b kb cb xb lr) a ka ca xa r))
    (hnd : (ctxAddrs fs ++ (BT.node (.node ll b kb cb xb lr) a ka ca xa r).addrs).Nodup)
    (hkb : kb < ka) (hlr : ∀ j ∈ lr.keys, j < ka) (hside : sideOK fs kb) :
    ∃ s4, RightRotation a s =
        (match callRotation a s4 with
          | none => none
          | some s5 => some (b, s5)) ∧
      ZRep s4 fs (.node ll b kb cb xb (.node lr a ka ca xa r)) ∧
      Keeps s s4 (ctxAddrs fs ++ (BT.node (.node ll b kb cb xb lr) a ka ca xa r).addrs) ∧
      (s.pFirst = (plug fs (.node (.node ll b kb cb xb lr) a ka ca xa r)).addrs.head? →
        s4.pFirst = s.pFirst) ∧
      s4.calls = s.calls := by
  obtain ⟨hza, ⟨hzb, hzll, hzlr⟩, hzr⟩ := hz.sub
  have hnd' := hnd
  rw [List.nodup_append] at hnd'
  obtain ⟨hn1, hn2, hn3⟩ := hnd'
  obtain ⟨hnl, hnr, hal, har, hlr'⟩ := nodup_node.1 hn2
  obtain ⟨hnll, hnlr, hbll, hblr, hlllr⟩ := nodup_node.1 hnl
  have hab : a ≠ b := fun h => hal (by simp [BT.addrs, h])
  -- the state after the left link of `a` is cleared
  have hs1a : (s.setLeft a none).mem a = ⟨none, r.ptr, parOf fs, ka, ca, xa⟩ := by
    simp [State.setLeft, hza]
  have hs1o : ∀ x, x ≠ a → (s.setLeft a none).mem x = s.mem x := fun x hx => by
    simp [State.setLeft, Function.update_noteq hx]
  have hctx1 : RepCtx (s.setLeft a none).mem (.L a ka ca xa r :: fs) none := by
    refine ⟨hs1a, rep_congr hzr (fun x hx => hs1o x ?_), repCtx_congr hz.ctx (fun x hx => hs1o x ?_)⟩
    · rintro rfl; exact har hx
    · rintro rfl; exact hn3 hx (by simp [BT.addrs])
  have hsub1 : Rep (s.setLeft a none).mem lr (some b) :=
    rep_congr hzlr (fun x hx => hs1o x (by rintro rfl; exact hal (by simp [BT.addrs, hx])))
  have hnd1 : (ctxAddrs (.L a ka ca xa r :: fs) ++ lr.addrs).Nodup := by
    rw [List.nodup_iff_count_le_one] at hnd ⊢
    intro x
    have := hnd x
    simp only [List.count_append, List.count_cons, BT.addrs, ctxAddrs, Frame.addr,
      Frame.sibling] at this ⊢
    split_ifs at this ⊢ <;> omega
  obtain ⟨hz2, hk2, hf2, hc2⟩ := attach_sub (s.setLeft a none) (.L a ka ca xa r :: fs) lr (some b)
    hctx1 hsub1 hnd1 (fun j hj => hlr j hj) hz.root (by simp)
  simp only [parOf, Frame.addr] at hz2 hk2 hf2 hc2
  generalize hs2 : AttachNodes (some a) lr.ptr (s.setLeft a none) = s2 at hz2 hk2 hf2 hc2
  obtain ⟨hz2a, hz2r, hz2c⟩ := hz2.ctx
  -- `b` is hung in the place of `a`
  have hb2 : s2.mem b = ⟨ll.ptr, lr.ptr, some a, kb, cb, xb⟩ := by
    rw [hk2.mem b, hs1o b hab.symm, hzb]
    simp only [List.mem_append, Option.mem_toList, not_or]
    constructor
    · intro h
      have : b ∈ lr.addrs := by
        cases lr with
        | nil => simp [BT.ptr] at h
        | node l3 c3 k3 cc3 x3 r3 => simp [BT.ptr] at h; simp [BT.addrs, h]
      exact hblr this
    · simp [Option.mem_def, hab, hab.symm]
  have hbc : b ∉ ctxAddrs fs := fun h => hn3 h (by simp [BT.addrs])
  obtain ⟨h3c, h3b, h3r, h3k, h3f, h3calls⟩ := attach_path s2 fs b (some a) hz2c hn1 hbc
    (by rw [hb2]; exact hside) hz2.root
  generalize hs3 : AttachNodes (parOf fs) (some b) s2 = s3 at h3c h3b h3r h3k h3f h3calls
  have hpb : ∀ x, x ∈ (parOf fs).toList → x ∈ ctxAddrs fs := fun x hx =>
    parOf_mem fs x (by simpa using hx)
  have ha3 : s3.mem a = ⟨lr.ptr, r.ptr, parOf fs, ka, ca, xa⟩ := by
    rw [h3k.mem a, hz2a]
    simp only [List.mem_cons, not_or]
    exact ⟨hab, fun h => hn3 (hpb a h) (by simp [BT.addrs])⟩
  have hb3 : s3.mem b = ⟨ll.ptr, lr.ptr, parOf fs, kb, cb, xb⟩ := by
    rw [h3b, hb2]
  have hk4 : ¬ (s3.mem a).nKey < (s3.mem b).nKey := by
    rw [ha3, hb3]; simp only [not_lt]; omega
  refine ⟨AttachNodes (some b) (some a) s3, ?_, ?_, ?_, ?_, ?_⟩
  · simp only [RightRotation, hza, BT.ptr]
    have e1 : ((s.setLeft a none).mem b).pRightChild = lr.ptr := by
      rw [hs1o b hab.symm, hzb]
    simp only [e1, hs2]
    have e2 : (s2.mem a).pParent = parOf fs := by rw [hz2a]
    simp only [e2, hs3]
  · obtain ⟨h4a, h4b, hm, h4r, -, -, -⟩ := attachNodes_right_spec b a s3 hab.symm hk4
    have hm3 : ∀ x, x ≠ a → x ≠ b → x ∉ ctxAddrs fs → s3.mem x = s2.mem x := fun x h1 h2 h3 => by
      apply h3k.mem
      simp only [List.mem_cons, not_or]
      exact ⟨h2, fun h => h3 (hpb x h)⟩
    refine ⟨h4r.trans h3r, repCtx_congr h3c (fun x hx => hm x ?_ ?_), ?_, ?_, ?_, ?_, ?_⟩
    · rintro rfl; exact hn3 hx (by simp [BT.addrs])
    · rintro rfl; exact hbc hx
    · rw [h4b, hb3]; rfl
    · refine rep_congr hzll (fun x hx => ?_)
      have hxa : x ≠ a := by rintro rfl; exact hal (by simp [BT.addrs, hx])
      have hxb : x ≠ b := by rintro rfl; exact hbll hx
      have hxc : x ∉ ctxAddrs fs := fun h => hn3 h (by simp [BT.addrs, hx])
      rw [hm x hxa hxb, hm3 x hxa hxb hxc, hk2.mem x, hs1o x hxa]
      simp only [List.mem_append, Option.mem_toList, not_or]
      constructor
      · intro h
        have : x ∈ lr.addrs := by
          cases lr with
          | nil => simp [BT.ptr] at h
          | node l3 c3 k3 cc3 x3 r3 => simp [BT.ptr] at h; simp [BT.addrs, h]
        exact hlllr x hx this
      · simp [Option.mem_def, hxa, hxa.symm]
    · rw [h4a, ha3]
    · refine rep_congr hz2.sub (fun x hx => ?_)
      have hxa : x ≠ a := by rintro rfl; exact hal (by simp [BT.addrs, hx])
      have hxb : x ≠ b := by rintro rfl; exact hblr hx
      have hxc : x ∉ ctxAddrs fs := fun h => hn3 h (by simp [BT.addrs, hx])
      rw [hm x hxa hxb, hm3 x hxa hxb hxc]
    · refine rep_congr hz2r (fun x hx => ?_)
      have hxa : x ≠ a := by rintro rfl; exact har hx
      have hxb : x ≠ b := fun h => hlr' b (by simp [BT.addrs]) (h ▸ hx)
      have hxc : x ∉ ctxAddrs fs := fun h => hn3 h (by simp [BT.addrs, hx])
      rw [hm x hxa hxb, hm3 x hxa hxb hxc]
  · obtain ⟨-, -, -, -, -, -, h4k⟩ := attachNodes_right_spec b a s3 hab.symm hk4
    have k12 := keeps_trans (C := ctxAddrs fs ++ (BT.node (.node ll b kb cb xb lr) a ka ca xa r).addrs)
      (keeps_setLeft s a none) hk2
      (fun x hx => by simp at hx; simp [BT.addrs, hx])
      (fun x hx => by
        rcases List.mem_append.1 hx with h | h
        · have := ptr_mem_addrs h; simp [BT.addrs, this]
        · simp at h; simp [BT.addrs, h])
    have k34 := keeps_trans (C := ctxAddrs fs ++ (BT.node (.node ll b kb cb xb lr) a ka ca xa r).addrs)
      h3k h4k
      (fun x hx => by
        rcases List.mem_cons.1 hx with h | h
        · simp [BT.addrs, h]
        · exact List.mem_append_left _ (hpb x h))
      (fun x hx => by simp at hx; rcases hx with h | h <;> simp [BT.addrs, h])
    exact keeps_trans k12 k34 (fun _ h => h) (fun _ h => h)
  · intro hF
    obtain ⟨-, -, -, -, h4f, -, -⟩ := attachNodes_right_spec b a s3 hab.symm hk4
    have hndp := (nodup_plug fs _).2 hnd
    have hna : s.pFirst ≠ some a := by
      rw [hF, addrs_plug]
      have e : addrsBefore fs ++ (BT.node (.node ll b kb cb xb lr) a ka ca xa r).addrs ++
          addrsAfter fs =
          (addrsBefore fs ++ ll.addrs) ++ b :: (lr.addrs ++ a :: (r.addrs ++ addrsAfter fs)) := by
        simp [BT.addrs]
      rw [e]
      refine head_ne_of_later ?_ (by simp)
      rw [← e, ← addrs_plug]; exact hndp
    have hf2' : s2.pFirst = s.pFirst := by
      rw [hf2]
      cases lr with
      | nil => rfl
      | node l3 c3 k3 cc3 x3 r3 =>
        simp only [BT.ptr, firstAttach]
        rw [if_neg]
        · rfl
        · exact hna
    rw [h4f, h3f, hf2']
    exact firstAttach_head fs _ b s.pFirst hF (by simp) hnd
  · obtain ⟨-, -, -, -, -, h4c, -⟩ := attachNodes_right_spec b a s3 hab.symm hk4
    rw [h4c, h3calls, hc2]
    rfl
theorem rotLeft_links (s : State) (fs : Path) (l : BT) (a : Nat) (ka : Int) (ca : Ptr)
    (xa : Option Int) (rl : BT) (b : Nat) (kb : Int) (cb : Ptr) (xb : Option Int) (rr : BT)
    (hz : ZRep s fs (.node l a ka ca xa (.node rl b kb cb xb rr)))
    (hnd : (ctxAddrs fs ++ (BT.node l a ka ca xa (.node rl b kb cb xb rr)).addrs).Nodup)
    (hkb : ka < kb) (hrl : ∀ j ∈ rl.keys, ka < j) (hside : sideOK fs kb) :
    ∃ s4, LeftRotation a s =
        (match callRotation a s4 with
          | none => none
          | some s5 => some (b, s5)) ∧
      ZRep s4 fs (.node (.node l a ka ca xa rl) b kb cb xb rr) ∧
      Keeps s s4 (ctxAddrs fs ++ (BT.node l a ka ca xa (.node rl b kb cb xb rr)).addrs) ∧
      (s.pFirst = (plug fs (.node l a ka ca xa (.node rl b kb cb xb rr))).addrs.head? →
        s4.pFirst = s.pFirst) ∧
      s4.calls = s.calls := by
  obtain ⟨hza, hzl, hzb, hzrl, hzrr⟩ := hz.sub
  have hnd' := hnd
  rw [List.nodup_append] at hnd'
  obtain ⟨hn1, hn2, hn3⟩ := hnd'
  obtain ⟨hnl, hnr, hal, har, hlr'⟩ := nodup_node.1 hn2
  obtain ⟨hnrl, hnrr, hbrl, hbrr, hrlrr⟩ := nodup_node.1 hnr
  have hab : a ≠ b := fun h => har (by simp [BT.addrs, h])
  have hs1a : (s.setRight a none).mem a = ⟨l.ptr, none, parOf fs, ka, ca, xa⟩ := by
    simp [State.setRight, hza]
  have hs1o : ∀ x, x ≠ a → (s.setRight a none).mem x = s.mem x := fun x hx => by
    simp [State.setRight, Function.update_noteq hx]
  have hctx1 : RepCtx (s.setRight a none).mem (.R l a ka ca xa :: fs) none := by
    refine ⟨hs1a, rep_congr hzl (fun x hx => hs1o x ?_), repCtx_congr hz.ctx (fun x hx => hs1o x ?_)⟩
    · rintro rfl; exact hal hx
    · rintro rfl; exact hn3 hx (by simp [BT.addrs])
  have hsub1 : Rep (s.setRight a none).mem rl (some b) :=
    rep_congr hzrl (fun x hx => hs1o x (by rintro rfl; exact har (by simp [BT.addrs, hx])))
  have hnd1 : (ctxAddrs (.R l a ka ca xa :: fs) ++ rl.addrs).Nodup := by
    rw [List.nodup_iff_count_le_one] at hnd ⊢
    intro x
    have := hnd x
    simp only [List.count_append, List.count_cons, BT.addrs, ctxAddrs, Frame.addr,
      Frame.sibling] at this ⊢
    split_ifs at this ⊢ <;> omega
  obtain ⟨hz2, hk2, hf2, hc2⟩ := attach_sub (s.setRight a none) (.R l a ka ca xa :: fs) rl (some b)
    hctx1 hsub1 hnd1 (fun j hj => hrl j hj) hz.root (by simp)
  simp only [parOf, Frame.addr] at hz2 hk2 hf2 hc2
  generalize hs2 : AttachNodes (some a) rl.ptr (s.setRight a none) = s2 at hz2 hk2 hf2 hc2
  obtain ⟨hz2a, hz2l, hz2c⟩ := hz2.ctx
  have hb2 : s2.mem b = ⟨rl.ptr, rr.ptr, some a, kb, cb, xb⟩ := by
    rw [hk2.mem b, hs1o b hab.symm, hzb]
    simp only [List.mem_append, Option.mem_toList, not_or]
    constructor
    · intro h
      exact hbrl (ptr_mem_addrs (by simpa using h))
    · simp [Option.mem_def, hab, hab.symm]
  have hbc : b ∉ ctxAddrs fs := fun h => hn3 h (by simp [BT.addrs])
  obtain ⟨h3c, h3b, h3r, h3k, h3f, h3calls⟩ := attach_path s2 fs b (some a) hz2c hn1 hbc
    (by rw [hb2]; exact hside) hz2.root
  generalize hs3 : AttachNodes (parOf fs) (some b) s2 = s3 at h3c h3b h3r h3k h3f h3calls
  have hpb : ∀ x, x ∈ (parOf fs).toList → x ∈ ctxAddrs fs := fun x hx =>
    parOf_mem fs x (by simpa using hx)
  have ha3 : s3.mem a = ⟨l.ptr, rl.ptr, parOf fs, ka, ca, xa⟩ := by
    rw [h3k.mem a, hz2a]
    simp only [List.mem_cons, not_or]
    exact ⟨hab, fun h => hn3 (hpb a h) (by simp [BT.addrs])⟩
  have hb3 : s3.mem b = ⟨rl.ptr, rr.ptr, parOf fs, kb, cb, xb⟩ := by
    rw [h3b, hb2]
  have hk4 : (s3.mem a).nKey < (s3.mem b).nKey := by
    rw [ha3, hb3]; exact hkb
  obtain ⟨h4a, h4b, hm, h4r, h4f, h4c, h4k⟩ := attachNodes_left_spec b a s3 hab.symm hk4
  refine ⟨AttachNodes (some b) (some a) s3, ?_, ?_, ?_, ?_, ?_⟩
  · simp only [LeftRotation, hza, BT.ptr]
    have e1 : ((s.setRight a none).mem b).pLeftChild = rl.ptr := by
      rw [hs1o b hab.symm, hzb]
    simp only [e1, hs2]
    have e2 : (s2.mem a).pParent = parOf fs := by rw [hz2a]
    simp only [e2, hs3]
  · have hm3 : ∀ x, x ≠ a → x ≠ b → x ∉ ctxAddrs fs → s3.mem x = s2.mem x := fun x h1 h2 h3 => by
      apply h3k.mem
      simp only [List.mem_cons, not_or]
      exact ⟨h2, fun h => h3 (hpb x h)⟩
    refine ⟨h4r.trans h3r, repCtx_congr h3c (fun x hx => hm x ?_ ?_), ?_, ⟨?_, ?_, ?_⟩, ?_⟩
    · rintro rfl; exact hn3 hx (by simp [BT.addrs])
    · rintro rfl; exact hbc hx
    · rw [h4b, hb3]; rfl
    · rw [h4a, ha3]
    · refine rep_congr hz2l (fun x hx => ?_)
      have hxa : x ≠ a := by rintro rfl; exact hal hx
      have hxb : x ≠ b := fun h => hlr' x hx (by simp [BT.addrs, h])
      have hxc : x ∉ ctxAddrs fs := fun h => hn3 h (by simp [BT.addrs, hx])
      rw [hm x hxa hxb, hm3 x hxa hxb hxc]
    · refine rep_congr hz2.sub (fun x hx => ?_)
      have hxa : x ≠ a := by rintro rfl; exact har (by simp [BT.addrs, hx])
      have hxb : x ≠ b := by rintro rfl; exact hbrl hx
      have hxc : x ∉ ctxAddrs fs := fun h => hn3 h (by simp [BT.addrs, hx])
      rw [hm x hxa hxb, hm3 x hxa hxb hxc]
    · refine rep_congr hzrr (fun x hx => ?_)
      have hxa : x ≠ a := by rintro rfl; exact har (by simp [BT.addrs, hx])
      have hxb : x ≠ b := by rintro rfl; exact hbrr hx
      have hxc : x ∉ ctxAddrs fs := fun h => hn3 h (by simp [BT.addrs, hx])
      rw [hm x hxa hxb, hm3 x hxa hxb hxc, hk2.mem x, hs1o x hxa]
      simp only [List.mem_append, Option.mem_toList, not_or]
      constructor
      · intro h
        exact hrlrr x (ptr_mem_addrs (by simpa using h)) hx
      · simp [Option.mem_def, hxa, hxa.symm]
  · have k12 := keeps_trans (C := ctxAddrs fs ++ (BT.node l a ka ca xa (.node rl b kb cb xb rr)).addrs)
      (keeps_setRight s a none) hk2
      (fun x hx => by simp at hx; simp [BT.addrs, hx])
      (fun x hx => by
        rcases List.mem_append.1 hx with h | h
        · have := ptr_mem_addrs h; simp [BT.addrs, this]
        · simp at h; simp [BT.addrs, h])
    have k34 := keeps_trans (C := ctxAddrs fs ++ (BT.node l a ka ca xa (.node rl b kb cb xb rr)).addrs)
      h3k h4k
      (fun x hx => by
        rcases List.mem_cons.1 hx with h | h
        · simp [BT.addrs, h]
        · exact List.mem_append_left _ (hpb x h))
      (fun x hx => by simp at hx; rcases hx with h | h <;> simp [BT.addrs, h])
    exact keeps_trans k12 k34 (fun _ h => h) (fun _ h => h)
  · intro hF
    have hndp := (nodup_plug fs _).2 hnd
    have hnb : s.pFirst ≠ some b := by
      rw [hF, addrs_plug]
      have e : addrsBefore fs ++ (BT.node l a ka ca xa (.node rl b kb cb xb rr)).addrs ++
          addrsAfter fs =
          (addrsBefore fs ++ l.addrs) ++ a :: (rl.addrs ++ b :: (rr.addrs ++ addrsAfter fs)) := by
        simp [BT.addrs]
      rw [e]
      refine head_ne_of_later ?_ (by simp)
      rw [← e, ← addrs_plug]; exact hndp
    have hf2' : s2.pFirst = s.pFirst := by
      rw [hf2]
      cases rl with
      | nil => rfl
      | node l3 c3 k3 cc3 x3 r3 => rfl
    have hf3 : s3.pFirst = s.pFirst := by
      rw [h3f, hf2']
      exact firstAttach_head fs _ b s.pFirst hF (by simp) hnd
    rw [h4f, hf3, if_neg hnb]
  · rw [h4c, h3calls, hc2]
    rfl
/-! ### Moving along a path -/

theorem zrep_cons (s : State) (f : Frame) (fs : Path) (t : BT) :
    ZRep s (f :: fs) t ↔ ZRep s fs (f.fill t) := by
  rw [← zrep_nil_iff s (f :: fs) t, ← zrep_nil_iff s fs (f.fill t)]
  rfl

theorem nodup_cons_path (f : Frame) (fs : Path) (t : BT) :
    (ctxAddrs (f :: fs) ++ t.addrs).Nodup ↔ (ctxAddrs fs ++ (f.fill t).addrs).Nodup := by
  rw [← nodup_plug, ← nodup_plug]
  rfl

theorem zrep_record {s : State} {fs : Path} {t : BT} (c : HookCall) (h : ZRep s fs t) :
    ZRep (s.record c) fs t :=
  ⟨h.root, h.ctx, h.sub⟩

theorem ordered_plug_side {fs : Path} {t : BT} (h : (plug fs t).Ordered) :
    ∀ j ∈ t.keys, sideOK fs j := by
  intro j hj
  rw [ordered_iff, keys_plug] at h
  cases fs with
  | nil => trivial
  | cons f fs =>
    cases f with
    | L a k' c' x' r' =>
      simp only [keysAfter, List.pairwise_append] at h
      exact h.2.2 j (by simp [hj]) k' (by simp)
    | R l' a k' c' x' =>
      simp only [keysBefore, List.pairwise_append] at h
      exact h.1.2.2 k' (by simp) j hj

theorem ordered_plug_sub {fs : Path} {t : BT} (h : (plug fs t).Ordered) : t.Ordered := by
  rw [ordered_iff, keys_plug, List.pairwise_append, List.pairwise_append] at h
  exact (ordered_iff t).2 h.1.2.1

theorem ordered_plug_keys {fs : Path} {t t' : BT} (h : (plug fs t).Ordered)
    (hk : t'.keys = t.keys) : (plug fs t').Ordered := by
  rw [ordered_iff, keys_plug] at h ⊢
  rw [hk]; exact h

theorem height_ge (t : BT) : -1 ≤ t.height := by
  induction t with
  | nil => simp [BT.height]
  | node l a k c x r ihl ihr => simp only [BT.height]; split_ifs <;> omega

theorem sh_mk (l : BT) (a : Nat) (k : Int) (c : Ptr) (r : BT) :
    (BT.mk l a k c r).sh = some (BT.mk l a k c r).height := rfl

theorem rotRight_spec (s : State) (fs : Path) (ll : BT) (b : Nat) (kb : Int) (cb : Ptr)
    (xb : Option Int) (lr : BT) (a : Nat) (ka : Int) (ca : Ptr) (xa : Option Int) (r : BT)
    (hz : ZRep s fs (.node (.node ll b kb cb xb lr) a ka ca xa r))
    (hnd : (ctxAddrs fs ++ (BT.node (.node ll b kb cb xb lr) a ka ca xa r).addrs).Nodup)
    (hord : (plug fs (.node (.node ll b kb cb xb lr) a ka ca xa r)).Ordered)
    (hcb : s.cbRotation = true) (hxa : xa.isSome) (hxb : xb.isSome)
    (hll : ll.sh = some ll.height) (hlr : lr.sh = some lr.height)
    (hr : r.sh = some r.height) :
    ∃ s', RightRotation a s = some (b, s') ∧
      ZRep s' fs (BT.rotRight (.node (.node ll b kb cb xb lr) a ka ca xa r)) ∧
      Keeps s s' (ctxAddrs fs ++ (BT.node (.node ll b kb cb xb lr) a ka ca xa r).addrs) ∧
      (s.pFirst = (plug fs (.node (.node ll b kb cb xb lr) a ka ca xa r)).addrs.head? →
        s'.pFirst = s.pFirst) ∧
      s'.calls = s.calls ++ [.cbRotation a] := by
  have hsub := ordered_plug_sub hord
  obtain ⟨⟨-, -, -, hl2⟩, -, hl1, -⟩ := hsub
  have hkb : kb < ka := hl1 kb (by simp [BT.keys])
  have hlrk : ∀ j ∈ lr.keys, j < ka := fun j hj => hl1 j (by simp [BT.keys, hj])
  have hside : sideOK fs kb := ordered_plug_side hord kb (by simp [BT.keys])
  obtain ⟨s4, hrot, hz4, hk4, hf4, hc4⟩ :=
    rotRight_links s fs ll b kb cb xb lr a ka ca xa r hz hnd hkb hlrk hside
  have hnd4 : (ctxAddrs fs ++ (BT.node ll b kb cb xb (.node lr a ka ca xa r)).addrs).Nodup := by
    rw [List.nodup_iff_count_le_one] at hnd ⊢
    intro x
    have := hnd x
    simp only [List.count_append, List.count_cons, BT.addrs] at this ⊢
    split_ifs at this ⊢ <;> omega
  -- the height of `a`
  have hz4' := (zrep_cons _ (.R ll b kb cb xb) fs _).2 (zrep_record (.cbRotation a) hz4)
  obtain ⟨s5, hs5, hz5, hk5, hf5, hc5⟩ := setHeight_spec _ _ lr a ka ca xa r hz4'
    ((nodup_cons_path (.R ll b kb cb xb) fs _).2 hnd4) hxa hlr hr
  have hpa : (s5.mem a).pParent = some b := by
    have := hz5.sub.1
    rw [BT.mk] at hz5
    rw [hz5.sub.1]; rfl
  -- the height of `b`
  have hz5' := (zrep_cons _ (.R ll b kb cb xb) fs _).1 hz5
  have hnd5 : (ctxAddrs fs ++ (BT.node ll b kb cb xb (BT.mk lr a ka ca r)).addrs).Nodup := hnd4
  obtain ⟨s6, hs6, hz6, hk6, hf6, hc6⟩ := setHeight_spec _ _ ll b kb cb xb (BT.mk lr a ka ca r)
    hz5' hnd5 hxb hll (sh_mk _ _ _ _ _)
  refine ⟨s6, ?_, hz6, ?_, ?_, ?_⟩
  · rw [hrot, callRotation, hk4.cbRotation, hcb]
    simp only [if_true, AVLRotationSetHeights, hs5, hpa, hs6]
  · have k56 := keeps_trans (C := ctxAddrs fs ++ (BT.node (.node ll b kb cb xb lr) a ka ca xa r).addrs)
      hk5 hk6 (fun x hx => by simp at hx; simp [BT.addrs, hx])
      (fun x hx => by simp at hx; simp [BT.addrs, hx])
    have k4' : Keeps s (s4.record (.cbRotation a))
        (ctxAddrs fs ++ (BT.node (.node ll b kb cb xb lr) a ka ca xa r).addrs) :=
      ⟨hk4.nSize, hk4.nIterators, hk4.cbAllocNode, hk4.cbInsert, hk4.cbRemove, hk4.cbRotation,
        hk4.brk, hk4.mem⟩
    exact keeps_trans k4' k56 (fun _ h => h) (fun _ h => h)
  · intro hF
    rw [hf6, hf5]; exact hf4 hF
  · rw [hc6, hc5]; simp [State.record, hc4]
theorem rotLeft_spec (s : State) (fs : Path) (l : BT) (a : Nat) (ka : Int) (ca : Ptr)
    (xa : Option Int) (rl : BT) (b : Nat) (kb : Int) (cb : Ptr) (xb : Option Int) (rr : BT)
    (hz : ZRep s fs (.node l a ka ca xa (.node rl b kb cb xb rr)))
    (hnd : (ctxAddrs fs ++ (BT.node l a ka ca xa (.node rl b kb cb xb rr)).addrs).Nodup)
    (hord : (plug fs (.node l a ka ca xa (.node rl b kb cb xb rr))).Ordered)
    (hcb : s.cbRotation = true) (hxa : xa.isSome) (hxb : xb.isSome)
    (hl : l.sh = some l.height) (hrl : rl.sh = some rl.height)
    (hrr : rr.sh = some rr.height) :
    ∃ s', LeftRotation a s = some (b, s') ∧
      ZRep s' fs (BT.rotLeft (.node l a ka ca xa (.node rl b kb cb xb rr))) ∧
      Keeps s s' (ctxAddrs fs ++ (BT.node l a ka ca xa (.node rl b kb cb xb rr)).addrs) ∧
      (s.pFirst = (plug fs (.node l a ka ca xa (.node rl b kb cb xb rr))).addrs.head? →
        s'.pFirst = s.pFirst) ∧
      s'.calls = s.calls ++ [.cbRotation a] := by
  have hsub := ordered_plug_sub hord
  obtain ⟨-, ⟨-, -, hr2, -⟩, -, hr1⟩ := hsub
  have hkb : ka < kb := hr1 kb (by simp [BT.keys])
  have hrlk : ∀ j ∈ rl.keys, ka < j := fun j hj => hr1 j (by simp [BT.keys, hj])
  have hside : sideOK fs kb := ordered_plug_side hord kb (by simp [BT.keys])
  obtain ⟨s4, hrot, hz4, hk4, hf4, hc4⟩ :=
    rotLeft_links s fs l a ka ca xa rl b kb cb xb rr hz hnd hkb hrlk hside
  have hnd4 : (ctxAddrs fs ++ (BT.node (.node l a ka ca xa rl) b kb cb xb rr).addrs).Nodup := by
    rw [List.nodup_iff_count_le_one] at hnd ⊢
    intro x
    have := hnd x
    simp only [List.count_append, List.count_cons, BT.addrs] at this ⊢
    split_ifs at this ⊢ <;> omega
  have hz4' := (zrep_cons _ (.L b kb cb xb rr) fs _).2 (zrep_record (.cbRotation a) hz4)
  obtain ⟨s5, hs5, hz5, hk5, hf5, hc5⟩ := setHeight_spec _ _ l a ka ca xa rl hz4'
    ((nodup_cons_path (.L b kb cb xb rr) fs _).2 hnd4) hxa hl hrl
  have hpa : (s5.mem a).pParent = some b := by
    rw [BT.mk] at hz5
    rw [hz5.sub.1]; rfl
  have hz5' := (zrep_cons _ (.L b kb cb xb rr) fs _).1 hz5
  have hnd5 : (ctxAddrs fs ++ (BT.node (BT.mk l a ka ca rl) b kb cb xb rr).addrs).Nodup := hnd4
  obtain ⟨s6, hs6, hz6, hk6, hf6, hc6⟩ := setHeight_spec _ _ (BT.mk l a ka ca rl) b kb cb xb rr
    hz5' hnd5 hxb (sh_mk _ _ _ _ _) hrr
  refine ⟨s6, ?_, hz6, ?_, ?_, ?_⟩
  · rw [hrot, callRotation, hk4.cbRotation, hcb]
    simp only [if_true, AVLRotationSetHeights, hs5, hpa, hs6]
  · have k56 := keeps_trans (C := ctxAddrs fs ++ (BT.node l a ka ca xa (.node rl b kb cb xb rr)).addrs)
      hk5 hk6 (fun x hx => by simp at hx; simp [BT.addrs, hx])
      (fun x hx => by simp at hx; simp [BT.addrs, hx])
    have k4' : Keeps s (s4.record (.cbRotation a))
        (ctxAddrs fs ++ (BT.node l a ka ca xa (.node rl b kb cb xb rr)).addrs) :=
      ⟨hk4.nSize, hk4.nIterators, hk4.cbAllocNode, hk4.cbInsert, hk4.cbRemove, hk4.cbRotation,
        hk4.brk, hk4.mem⟩
    exact keeps_trans k4' k56 (fun _ h => h) (fun _ h => h)
  · intro hF
    rw [hf6, hf5]; exact hf4 hF
  · rw [hc6, hc5]; simp [State.record, hc4]

/-! ### What the rotations keep -/

theorem addrs_rotRight (t : BT) : (BT.rotRight t).addrs = t.addrs := by
  unfold BT.rotRight
  split <;> simp [BT.addrs, BT.mk]

theorem addrs_rotLeft (t : BT) : (BT.rotLeft t).addrs = t.addrs := by
  unfold BT.rotLeft
  split <;> simp [BT.addrs, BT.mk]

theorem keys_rotRight (t : BT) : (BT.rotRight t).keys = t.keys := by
  unfold BT.rotRight
  split <;> simp [BT.keys, BT.mk]

theorem keys_rotLeft (t : BT) : (BT.rotLeft t).keys = t.keys := by
  unfold BT.rotLeft
  split <;> simp [BT.keys, BT.mk]

theorem toList_rotRight (t : BT) : (BT.rotRight t).toList = t.toList := by
  unfold BT.rotRight
  split <;> simp [BT.toList, BT.mk]

theorem toList_rotLeft (t : BT) : (BT.rotLeft t).toList = t.toList := by
  unfold BT.rotLeft
  split <;> simp [BT.toList, BT.mk]

theorem addrs_fix (t : BT) : t.fix.addrs = t.addrs := by
  cases t with
  | nil => rfl
  | node l a k c x r =>
    simp only [BT.fix]
    split_ifs <;> simp [addrs_rotRight, addrs_rotLeft, BT.addrs, BT.mk]

theorem keys_fix (t : BT) : t.fix.keys = t.keys := by
  cases t with
  | nil => rfl
  | node l a k c x r =>
    simp only [BT.fix]
    split_ifs <;> simp [keys_rotRight, keys_rotLeft, BT.keys, BT.mk]

theorem toList_fix (t : BT) : t.fix.toList = t.toList := by
  cases t with
  | nil => rfl
  | node l a k c x r =>
    simp only [BT.fix]
    split_ifs <;> simp [toList_rotRight, toList_rotLeft, BT.toList, BT.mk]
/-! ### One turn of the loop of `AVLBalance` -/

theorem zrep_parent {s : State} {fs : Path} {t : BT} {p : Nat} (hz : ZRep s fs t)
    (hp : t.ptr = some p) : (s.mem p).pParent = parOf fs := by
  cases t with
  | nil => simp [BT.ptr] at hp
  | node l a k c x r =>
    simp only [BT.ptr, Option.some.injEq] at hp
    subst hp
    rw [hz.sub.1]

theorem node_of_height {t : BT} (h : 0 ≤ t.height) :
    ∃ l a k c x r, t = .node l a k c x r := by
  cases t with
  | nil => simp [BT.height] at h
  | node l a k c x r => exact ⟨l, a, k, c, x, r, rfl⟩

theorem avl_isSome {l r : BT} {a : Nat} {k : Int} {c : Ptr} {x : Option Int}
    (h : (BT.node l a k c x r).AVL) : x.isSome := by
  rw [h.2.2.1]; rfl

theorem head_plug_congr (fs : Path) {t t' : BT} (h : t.addrs = t'.addrs) :
    (plug fs t).addrs.head? = (plug fs t').addrs.head? := by
  rw [addrs_plug, addrs_plug, h]

/-! ### The loop of `AVLBalance` by its body -/

theorem balanceLoop_step (fuel : Nat) (a : Nat) (s : State) :
    AVLBalanceLoop (fuel + 1) (some a) s =
      match AVLBalanceStep a s with
      | none => none
      | some (p, s') => AVLBalanceLoop fuel p s' := by
  rw [AVLBalanceLoop, AVLBalanceStep]
  cases AVLSetHeight a s with
  | none => rfl
  | some s1 =>
    dsimp only
    cases AVLBalanceFactor a s1 with
    | none => rfl
    | some n =>
      dsimp only
      by_cases h1 : n > 1
      · simp only [h1, if_true]
        cases (s1.mem a).pLeftChild with
        | none => rfl
        | some pl =>
          dsimp only
          cases AVLBalanceFactor pl s1 with
          | none => rfl
          | some m =>
            dsimp only
            by_cases h2 : m > -1
            · simp only [h2, if_true]
              cases RightRotation a s1 with
              | none => rfl
              | some q => rfl
            · simp only [h2, if_false]
              cases LeftRotation pl s1 with
              | none => rfl
              | some q =>
                dsimp only
                cases RightRotation a q.2 with
                | none => rfl
                | some q2 => rfl
      · simp only [h1, if_false]
        by_cases h3 : n < -1
        · simp only [h3, if_true]
          cases (s1.mem a).pRightChild with
          | none => rfl
          | some pr =>
            dsimp only
            cases AVLBalanceFactor pr s1 with
            | none => rfl
            | some m =>
              dsimp only
              by_cases h2 : m < 1
              · simp only [h2, if_true]
                cases LeftRotation a s1 with
                | none => rfl
                | some q => rfl
              · simp only [h2, if_false]
                cases RightRotation pr s1 with
                | none => rfl
                | some q =>
                  dsimp only
                  cases LeftRotation a q.2 with
                  | none => rfl
                  | some q2 => rfl
        · simp only [h3, if_false]

/-! ### The body of the loop at a node whose subtrees have correct stored heights -/

theorem stored_sh {t : BT} (h : t.Stored) : t.sh = some t.height := by
  cases t with
  | nil => rfl
  | node l a k c x r => simp [BT.sh, BT.height, h.2.2]

theorem stored_isSome {l r : BT} {a : Nat} {k : Int} {c : Ptr} {x : Option Int}
    (h : (BT.node l a k c x r).Stored) : x.isSome := by
  rw [h.2.2]; rfl

theorem avl_stored {t : BT} (h : t.AVL) : t.Stored := by
  induction t with
  | nil => trivial
  | node l a k c x r ihl ihr => exact ⟨ihl h.1, ihr h.2.1, h.2.2.1⟩

theorem stored_mk {l r : BT} {a : Nat} {k : Int} {c : Ptr} :
    (BT.mk l a k c r).Stored ↔ l.Stored ∧ r.Stored := by
  simp [BT.mk, BT.Stored]

/-- The body of the loop at a node that is heavy on the left and whose left child is not
heavy on the right: one right rotation. -/
theorem step_left_single (s s1 : State) (fs : Path) (ll : BT) (b : Nat) (kb : Int) (cb : Ptr)
    (xb : Option Int) (lr : BT) (a : Nat) (k : Int) (c : Ptr) (x x1 : Option Int) (r : BT)
    (hs1 : AVLSetHeight a s = some s1)
    (hbf : AVLBalanceFactor a s1 = some ((BT.node ll b kb cb xb lr).height - r.height))
    (hz1 : ZRep s1 fs (.node (.node ll b kb cb xb lr) a k c x1 r))
    (hnd : (ctxAddrs fs ++ (BT.node (.node ll b kb cb xb lr) a k c x1 r).addrs).Nodup)
    (hord : (plug fs (.node (.node ll b kb cb xb lr) a k c x1 r)).Ordered)
    (hcb : s1.cbRotation = true) (hx : x1.isSome) (hl : (BT.node ll b kb cb xb lr).Stored)
    (hr : r.Stored)
    (h1 : (BT.node ll b kb cb xb lr).height - r.height > 1)
    (h2 : ll.height - lr.height > -1) :
    ∃ s', AVLBalanceStep a s = some (parOf fs, s') ∧
      ZRep s' fs (BT.node (.node ll b kb cb xb lr) a k c x r).fix ∧
      Keeps s1 s' (ctxAddrs fs ++ (BT.node (.node ll b kb cb xb lr) a k c x1 r).addrs) ∧
      (s1.pFirst = (plug fs (.node (.node ll b kb cb xb lr) a k c x1 r)).addrs.head? →
        s'.pFirst = s1.pFirst) ∧
      ∃ ex, s'.calls = s1.calls ++ ex := by
  have hzl := (zrep_cons s1 (.L a k c _ r) fs _).2 hz1
  have hbfl := balanceFactor_eq s1 _ ll b kb cb xb lr hzl (stored_sh hl.1) (stored_sh hl.2.1)
  have hpl : (s1.mem a).pLeftChild = some b := by rw [hz1.sub.1]; rfl
  obtain ⟨s2, hs2, hz2, hk2, hf2, hc2⟩ := rotRight_spec s1 fs ll b kb cb xb lr a k c _ r
    hz1 hnd hord hcb hx (stored_isSome hl) (stored_sh hl.1) (stored_sh hl.2.1) (stored_sh hr)
  refine ⟨s2, ?_, ?_, hk2, hf2, ⟨_, hc2⟩⟩
  · simp only [AVLBalanceStep, hs1, hbf, h1, if_true, hpl, hbfl, h2, hs2]
    rw [zrep_parent hz2 rfl]
  · simp only [BT.fix, h1, if_true, BT.bal, h2]
    exact hz2

set_option maxHeartbeats 1000000 in
/-- The body of the loop at a node that is heavy on the left and whose left child is
heavy on the right: a left rotation at the child, then a right rotation. -/
theorem step_left_double (s s1 : State) (fs : Path) (ll : BT) (b : Nat) (kb : Int) (cb : Ptr)
    (xb : Option Int) (lrl : BT) (c3 : Nat) (k3 : Int) (cc3 : Ptr) (x3 : Option Int) (lrr : BT)
    (a : Nat) (k : Int) (c : Ptr) (x x1 : Option Int) (r : BT)
    (hs1 : AVLSetHeight a s = some s1)
    (hbf : AVLBalanceFactor a s1 =
      some ((BT.node ll b kb cb xb (.node lrl c3 k3 cc3 x3 lrr)).height - r.height))
    (hz1 : ZRep s1 fs (.node (.node ll b kb cb xb (.node lrl c3 k3 cc3 x3 lrr)) a k c x1 r))
    (hnd : (ctxAddrs fs ++
      (BT.node (.node ll b kb cb xb (.node lrl c3 k3 cc3 x3 lrr)) a k c x1 r).addrs).Nodup)
    (hord : (plug fs (.node (.node ll b kb cb xb (.node lrl c3 k3 cc3 x3 lrr)) a k c x1 r)).Ordered)
    (hcb : s1.cbRotation = true) (hx : x1.isSome)
    (hl : (BT.node ll b kb cb xb (.node lrl c3 k3 cc3 x3 lrr)).Stored) (hr : r.Stored)
    (h1 : (BT.node ll b kb cb xb (.node lrl c3 k3 cc3 x3 lrr)).height - r.height > 1)
    (h2 : ¬ ll.height - (BT.node lrl c3 k3 cc3 x3 lrr).height > -1) :
    ∃ s', AVLBalanceStep a s = some (parOf fs, s') ∧
      ZRep s' fs (BT.node (.node ll b kb cb xb (.node lrl c3 k3 cc3 x3 lrr)) a k c x r).fix ∧
      Keeps s1 s' (ctxAddrs fs ++
        (BT.node (.node ll b kb cb xb (.node lrl c3 k3 cc3 x3 lrr)) a k c x1 r).addrs) ∧
      (s1.pFirst =
          (plug fs (.node (.node ll b kb cb xb (.node lrl c3 k3 cc3 x3 lrr)) a k c x1 r)).addrs.head? →
        s'.pFirst = s1.pFirst) ∧
      ∃ ex, s'.calls = s1.calls ++ ex := by
  have hzl := (zrep_cons s1 (.L a k c _ r) fs _).2 hz1
  have hbfl := balanceFactor_eq s1 _ ll b kb cb xb _ hzl (stored_sh hl.1) (stored_sh hl.2.1)
  have hpl : (s1.mem a).pLeftChild = some b := by rw [hz1.sub.1]; rfl
  obtain ⟨s2, hs2, hz2, hk2, hf2, hc2⟩ := rotLeft_spec s1 (.L a k c _ r :: fs) ll b kb cb xb
    lrl c3 k3 cc3 x3 lrr hzl ((nodup_cons_path _ _ _).2 hnd) hord hcb (stored_isSome hl)
    (stored_isSome hl.2.1) (stored_sh hl.1) (stored_sh hl.2.1.1) (stored_sh hl.2.1.2.1)
  have hz2' := (zrep_cons s2 (.L a k c _ r) fs _).1 hz2
  simp only [BT.rotLeft, Frame.fill] at hz2'
  generalize hm : BT.mk ll b kb cb lrl = m at hz2'
  have hmsh : m.sh = some m.height := by rw [← hm]; rfl
  have hma : m.addrs = ll.addrs ++ b :: lrl.addrs := by rw [← hm]; rfl
  have hmk : m.keys = ll.keys ++ kb :: lrl.keys := by rw [← hm]; rfl
  simp only [BT.mk] at hz2'
  generalize hy : (some ((if m.height > lrr.height then m.height else lrr.height) + 1) :
    Option Int) = y at hz2'
  have hysome : y.isSome := by rw [← hy]; rfl
  have hnd2 : (ctxAddrs fs ++ (BT.node (.node m c3 k3 cc3 y lrr) a k c x1 r).addrs).Nodup := by
    rw [List.nodup_iff_count_le_one] at hnd ⊢
    intro z
    have := hnd z
    simp only [List.count_append, List.count_cons, BT.addrs, hma] at this ⊢
    split_ifs at this ⊢ <;> omega
  have hord2 : (plug fs (BT.node (.node m c3 k3 cc3 y lrr) a k c x1 r)).Ordered :=
    ordered_plug_keys hord (by simp [BT.keys, hmk])
  have hcb2 : s2.cbRotation = true := hk2.cbRotation.trans hcb
  obtain ⟨s3, hs3, hz3, hk3, hf3, hc3⟩ := rotRight_spec s2 fs m c3 k3 cc3
    y lrr a k c x1 r hz2' hnd2 hord2 hcb2 hx hysome hmsh (stored_sh hl.2.1.2.1) (stored_sh hr)
  refine ⟨s3, ?_, ?_, ?_, ?_, ?_⟩
  · simp only [AVLBalanceStep, hs1, hbf, h1, if_true, hpl, hbfl, h2, if_false, hs2, hs3]
    rw [zrep_parent hz3 rfl]
  · simp only [BT.fix, h1, if_true, BT.bal, h2, if_false]
    subst hm hy
    exact hz3
  · refine keeps_trans hk2 hk3 ?_ ?_
    · intro z hz
      simp only [ctxAddrs, Frame.addr, Frame.sibling, BT.addrs, List.mem_append,
        List.mem_cons] at hz ⊢
      tauto
    · intro z hz
      simp only [BT.addrs, hma, List.mem_append, List.mem_cons] at hz ⊢
      tauto
  · intro hF
    have e2 := hf2 hF
    have e3 : s2.pFirst = (plug fs (BT.node (.node m c3 k3 cc3 y lrr) a k c x1 r)).addrs.head? := by
      rw [e2, hF]
      exact head_plug_congr fs (by simp [BT.addrs, hma])
    rw [hf3 e3, e2]
  · exact ⟨[.cbRotation b, .cbRotation a], by rw [hc3, hc2]; simp⟩
/-- The body of the loop at a node that is heavy on the right and whose right child is
not heavy on the left: one left rotation. -/
theorem step_right_single (s s1 : State) (fs : Path) (l : BT) (a : Nat) (k : Int) (c : Ptr)
    (x x1 : Option Int) (rl : BT) (b : Nat) (kb : Int) (cb : Ptr) (xb : Option Int) (rr : BT)
    (hs1 : AVLSetHeight a s = some s1)
    (hbf : AVLBalanceFactor a s1 = some (l.height - (BT.node rl b kb cb xb rr).height))
    (hz1 : ZRep s1 fs (.node l a k c x1 (.node rl b kb cb xb rr)))
    (hnd : (ctxAddrs fs ++ (BT.node l a k c x1 (.node rl b kb cb xb rr)).addrs).Nodup)
    (hord : (plug fs (.node l a k c x1 (.node rl b kb cb xb rr))).Ordered)
    (hcb : s1.cbRotation = true) (hx : x1.isSome) (hl : l.Stored)
    (hr : (BT.node rl b kb cb xb rr).Stored)
    (h1 : ¬ l.height - (BT.node rl b kb cb xb rr).height > 1)
    (h3 : l.height - (BT.node rl b kb cb xb rr).height < -1)
    (h2 : rl.height - rr.height < 1) :
    ∃ s', AVLBalanceStep a s = some (parOf fs, s') ∧
      ZRep s' fs (BT.node l a k c x (.node rl b kb cb xb rr)).fix ∧
      Keeps s1 s' (ctxAddrs fs ++ (BT.node l a k c x1 (.node rl b kb cb xb rr)).addrs) ∧
      (s1.pFirst = (plug fs (.node l a k c x1 (.node rl b kb cb xb rr))).addrs.head? →
        s'.pFirst = s1.pFirst) ∧
      ∃ ex, s'.calls = s1.calls ++ ex := by
  have hzr := (zrep_cons s1 (.R l a k c _) fs _).2 hz1
  have hbfr := balanceFactor_eq s1 _ rl b kb cb xb rr hzr (stored_sh hr.1) (stored_sh hr.2.1)
  have hpr : (s1.mem a).pRightChild = some b := by rw [hz1.sub.1]; rfl
  obtain ⟨s2, hs2, hz2, hk2, hf2, hc2⟩ := rotLeft_spec s1 fs l a k c _ rl b kb cb xb rr
    hz1 hnd hord hcb hx (stored_isSome hr) (stored_sh hl) (stored_sh hr.1) (stored_sh hr.2.1)
  refine ⟨s2, ?_, ?_, hk2, hf2, ⟨_, hc2⟩⟩
  · simp only [AVLBalanceStep, hs1, hbf, h1, h3, if_true, if_false, hpr, hbfr, h2, hs2]
    rw [zrep_parent hz2 rfl]
  · simp only [BT.fix, h1, h3, if_true, if_false, BT.bal, h2]
    exact hz2

set_option maxHeartbeats 1000000 in
/-- The body of the loop at a node that is heavy on the right and whose right child is
heavy on the left: a right rotation at the child, then a left rotation. -/
theorem step_right_double (s s1 : State) (fs : Path) (l : BT) (a : Nat) (k : Int) (c : Ptr)
    (x x1 : Option Int) (rll : BT) (c3 : Nat) (k3 : Int) (cc3 : Ptr) (x3 : Option Int) (rlr : BT)
    (b : Nat) (kb : Int) (cb : Ptr) (xb : Option Int) (rr : BT)
    (hs1 : AVLSetHeight a s = some s1)
    (hbf : AVLBalanceFactor a s1 =
      some (l.height - (BT.node (.node rll c3 k3 cc3 x3 rlr) b kb cb xb rr).height))
    (hz1 : ZRep s1 fs (.node l a k c x1 (.node (.node rll c3 k3 cc3 x3 rlr) b kb cb xb rr)))
    (hnd : (ctxAddrs fs ++
      (BT.node l a k c x1 (.node (.node rll c3 k3 cc3 x3 rlr) b kb cb xb rr)).addrs).Nodup)
    (hord : (plug fs (.node l a k c x1 (.node (.node rll c3 k3 cc3 x3 rlr) b kb cb xb rr))).Ordered)
    (hcb : s1.cbRotation = true) (hx : x1.isSome) (hl : l.Stored)
    (hr : (BT.node (.node rll c3 k3 cc3 x3 rlr) b kb cb xb rr).Stored)
    (h1 : ¬ l.height - (BT.node (.node rll c3 k3 cc3 x3 rlr) b kb cb xb rr).height > 1)
    (h3 : l.height - (BT.node (.node rll c3 k3 cc3 x3 rlr) b kb cb xb rr).height < -1)
    (h2 : ¬ (BT.node rll c3 k3 cc3 x3 rlr).height - rr.height < 1) :
    ∃ s', AVLBalanceStep a s = some (parOf fs, s') ∧
      ZRep s' fs (BT.node l a k c x (.node (.node rll c3 k3 cc3 x3 rlr) b kb cb xb rr)).fix ∧
      Keeps s1 s' (ctxAddrs fs ++
        (BT.node l a k c x1 (.node (.node rll c3 k3 cc3 x3 rlr) b kb cb xb rr)).addrs) ∧
      (s1.pFirst =
          (plug fs (.node l a k c x1 (.node (.node rll c3 k3 cc3 x3 rlr) b kb cb xb rr))).addrs.head? →
        s'.pFirst = s1.pFirst) ∧
      ∃ ex, s'.calls = s1.calls ++ ex := by
  have hzr := (zrep_cons s1 (.R l a k c _) fs _).2 hz1
  have hbfr := balanceFactor_eq s1 _ _ b kb cb xb rr hzr (stored_sh hr.1) (stored_sh hr.2.1)
  have hpr : (s1.mem a).pRightChild = some b := by rw [hz1.sub.1]; rfl
  obtain ⟨s2, hs2, hz2, hk2, hf2, hc2⟩ := rotRight_spec s1 (.R l a k c _ :: fs) rll c3 k3 cc3 x3
    rlr b kb cb xb rr hzr ((nodup_cons_path _ _ _).2 hnd) hord hcb (stored_isSome hr)
    (stored_isSome hr.1) (stored_sh hr.1.1) (stored_sh hr.1.2.1) (stored_sh hr.2.1)
  have hz2' := (zrep_cons s2 (.R l a k c _) fs _).1 hz2
  simp only [BT.rotRight, Frame.fill] at hz2'
  generalize hm : BT.mk rlr b kb cb rr = m at hz2'
  have hmsh : m.sh = some m.height := by rw [← hm]; rfl
  have hma : m.addrs = rlr.addrs ++ b :: rr.addrs := by rw [← hm]; rfl
  have hmk : m.keys = rlr.keys ++ kb :: rr.keys := by rw [← hm]; rfl
  simp only [BT.mk] at hz2'
  generalize hy : (some ((if rll.height > m.height then rll.height else m.height) + 1) :
    Option Int) = y at hz2'
  have hysome : y.isSome := by rw [← hy]; rfl
  have hnd2 : (ctxAddrs fs ++ (BT.node l a k c x1 (.node rll c3 k3 cc3 y m)).addrs).Nodup := by
    rw [List.nodup_iff_count_le_one] at hnd ⊢
    intro z
    have := hnd z
    simp only [List.count_append, List.count_cons, BT.addrs, hma] at this ⊢
    split_ifs at this ⊢ <;> omega
  have hord2 : (plug fs (BT.node l a k c x1 (.node rll c3 k3 cc3 y m))).Ordered :=
    ordered_plug_keys hord (by simp [BT.keys, hmk])
  have hcb2 : s2.cbRotation = true := hk2.cbRotation.trans hcb
  obtain ⟨s3, hs3, hz3, hk3, hf3, hc3⟩ := rotLeft_spec s2 fs l a k c x1 rll c3 k3 cc3
    y m hz2' hnd2 hord2 hcb2 hx hysome (stored_sh hl) (stored_sh hr.1.1) hmsh
  refine ⟨s3, ?_, ?_, ?_, ?_, ?_⟩
  · simp only [AVLBalanceStep, hs1, hbf, h1, h3, if_true, hpr, hbfr, h2, if_false, hs2, hs3]
    rw [zrep_parent hz3 rfl]
  · simp only [BT.fix, h1, h3, if_true, BT.bal, h2, if_false]
    subst hm hy
    exact hz3
  · refine keeps_trans hk2 hk3 ?_ ?_
    · intro z hz
      simp only [ctxAddrs, Frame.addr, Frame.sibling, BT.addrs, List.mem_append,
        List.mem_cons] at hz ⊢
      tauto
    · intro z hz
      simp only [BT.addrs, hma, List.mem_append, List.mem_cons] at hz ⊢
      tauto
  · intro hF
    have e2 := hf2 hF
    have e3 : s2.pFirst = (plug fs (BT.node l a k c x1 (.node rll c3 k3 cc3 y m))).addrs.head? := by
      rw [e2, hF]
      exact head_plug_congr fs (by simp [BT.addrs, hma])
    rw [hf3 e3, e2]
  · exact ⟨[.cbRotation b, .cbRotation a], by rw [hc3, hc2]; simp⟩


/-! ### The loop turns at a node whose subtrees are AVL trees -/

/-- The loop turn at a node that is heavy on the left and whose left child is not
heavy on the right: one right rotation. -/
theorem fix_left_single (s s1 : State) (fs : Path) (ll : BT) (b : Nat) (kb : Int) (cb : Ptr)
    (xb : Option Int) (lr : BT) (a : Nat) (k : Int) (c : Ptr) (x x1 : Option Int) (r : BT)
    (fuel : Nat)
    (hs1 : AVLSetHeight a s = some s1)
    (hbf : AVLBalanceFactor a s1 = some ((BT.node ll b kb cb xb lr).height - r.height))
    (hz1 : ZRep s1 fs (.node (.node ll b kb cb xb lr) a k c x1 r))
    (hnd : (ctxAddrs fs ++ (BT.node (.node ll b kb cb xb lr) a k c x1 r).addrs).Nodup)
    (hord : (plug fs (.node (.node ll b kb cb xb lr) a k c x1 r)).Ordered)
    (hcb : s1.cbRotation = true) (hx : x1.isSome) (hl : (BT.node ll b kb cb xb lr).AVL)
    (hr : r.AVL)
    (h1 : (BT.node ll b kb cb xb lr).height - r.height > 1)
    (h2 : ll.height - lr.height > -1) :
    ∃ s', AVLBalanceLoop (fuel + 1) (some a) s = AVLBalanceLoop fuel (parOf fs) s' ∧
      ZRep s' fs (BT.node (.node ll b kb cb xb lr) a k c x r).fix ∧
      Keeps s1 s' (ctxAddrs fs ++ (BT.node (.node ll b kb cb xb lr) a k c x1 r).addrs) ∧
      (s1.pFirst = (plug fs (.node (.node ll b kb cb xb lr) a k c x1 r)).addrs.head? →
        s'.pFirst = s1.pFirst) ∧
      ∃ ex, s'.calls = s1.calls ++ ex := by
  obtain ⟨s', e1, e2, e3⟩ := step_left_single s s1 fs ll b kb cb xb lr a k c x x1 r hs1 hbf
    hz1 hnd hord hcb hx (avl_stored hl) (avl_stored hr) h1 h2
  exact ⟨s', by rw [balanceLoop_step, e1], e2, e3⟩

/-- The loop turn at a node that is heavy on the left and whose left child is
heavy on the right: a left rotation at the child, then a right rotation. -/
theorem fix_left_double (s s1 : State) (fs : Path) (ll : BT) (b : Nat) (kb : Int) (cb : Ptr)
    (xb : Option Int) (lrl : BT) (c3 : Nat) (k3 : Int) (cc3 : Ptr) (x3 : Option Int) (lrr : BT)
    (a : Nat) (k : Int) (c : Ptr) (x x1 : Option Int) (r : BT) (fuel : Nat)
    (hs1 : AVLSetHeight a s = some s1)
    (hbf : AVLBalanceFactor a s1 =
      some ((BT.node ll b kb cb xb (.node lrl c3 k3 cc3 x3 lrr)).height - r.height))
    (hz1 : ZRep s1 fs (.node (.node ll b kb cb xb (.node lrl c3 k3 cc3 x3 lrr)) a k c x1 r))
    (hnd : (ctxAddrs fs ++
      (BT.node (.node ll b kb cb xb (.node lrl c3 k3 cc3 x3 lrr)) a k c x1 r).addrs).Nodup)
    (hord : (plug fs (.node (.node ll b kb cb xb (.node lrl c3 k3 cc3 x3 lrr)) a k c x1 r)).Ordered)
    (hcb : s1.cbRotation = true) (hx : x1.isSome)
    (hl : (BT.node ll b kb cb xb (.node lrl c3 k3 cc3 x3 lrr)).AVL) (hr : r.AVL)
    (h1 : (BT.node ll b kb cb xb (.node lrl c3 k3 cc3 x3 lrr)).height - r.height > 1)
    (h2 : ¬ ll.height - (BT.node lrl c3 k3 cc3 x3 lrr).height > -1) :
    ∃ s', AVLBalanceLoop (fuel + 1) (some a) s = AVLBalanceLoop fuel (parOf fs) s' ∧
      ZRep s' fs (BT.node (.node ll b kb cb xb (.node lrl c3 k3 cc3 x3 lrr)) a k c x r).fix ∧
      Keeps s1 s' (ctxAddrs fs ++
        (BT.node (.node ll b kb cb xb (.node lrl c3 k3 cc3 x3 lrr)) a k c x1 r).addrs) ∧
      (s1.pFirst =
          (plug fs (.node (.node ll b kb cb xb (.node lrl c3 k3 cc3 x3 lrr)) a k c x1 r)).addrs.head? →
        s'.pFirst = s1.pFirst) ∧
      ∃ ex, s'.calls = s1.calls ++ ex := by
  obtain ⟨s', e1, e2, e3⟩ := step_left_double s s1 fs ll b kb cb xb lrl c3 k3 cc3 x3 lrr a k c
    x x1 r hs1 hbf hz1 hnd hord hcb hx (avl_stored hl) (avl_stored hr) h1 h2
  exact ⟨s', by rw [balanceLoop_step, e1], e2, e3⟩

/-- The loop turn at a node that is heavy on the right and whose right child is
not heavy on the left: one left rotation. -/
theorem fix_right_single (s s1 : State) (fs : Path) (l : BT) (a : Nat) (k : Int) (c : Ptr)
    (x x1 : Option Int) (rl : BT) (b : Nat) (kb : Int) (cb : Ptr) (xb : Option Int) (rr : BT)
    (fuel : Nat)
    (hs1 : AVLSetHeight a s = some s1)
    (hbf : AVLBalanceFactor a s1 = some (l.height - (BT.node rl b kb cb xb rr).height))
    (hz1 : ZRep s1 fs (.node l a k c x1 (.node rl b kb cb xb rr)))
    (hnd : (ctxAddrs fs ++ (BT.node l a k c x1 (.node rl b kb cb xb rr)).addrs).Nodup)
    (hord : (plug fs (.node l a k c x1 (.node rl b kb cb xb rr))).Ordered)
    (hcb : s1.cbRotation = true) (hx : x1.isSome) (hl : l.AVL)
    (hr : (BT.node rl b kb cb xb rr).AVL)
    (h1 : ¬ l.height - (BT.node rl b kb cb xb rr).height > 1)
    (h3 : l.height - (BT.node rl b kb cb xb rr).height < -1)
    (h2 : rl.height - rr.height < 1) :
    ∃ s', AVLBalanceLoop (fuel + 1) (some a) s = AVLBalanceLoop fuel (parOf fs) s' ∧
      ZRep s' fs (BT.node l a k c x (.node rl b kb cb xb rr)).fix ∧
      Keeps s1 s' (ctxAddrs fs ++ (BT.node l a k c x1 (.node rl b kb cb xb rr)).addrs) ∧
      (s1.pFirst = (plug fs (.node l a k c x1 (.node rl b kb cb xb rr))).addrs.head? →
        s'.pFirst = s1.pFirst) ∧
      ∃ ex, s'.calls = s1.calls ++ ex := by
  obtain ⟨s', e1, e2, e3⟩ := step_right_single s s1 fs l a k c x x1 rl b kb cb xb rr hs1
    hbf hz1 hnd hord hcb hx (avl_stored hl) (avl_stored hr) h1 h3 h2
  exact ⟨s', by rw [balanceLoop_step, e1], e2, e3⟩

/-- The loop turn at a node that is heavy on the right and whose right child is
heavy on the left: a right rotation at the child, then a left rotation. -/
theorem fix_right_double (s s1 : State) (fs : Path) (l : BT) (a : Nat) (k : Int) (c : Ptr)
    (x x1 : Option Int) (rll : BT) (c3 : Nat) (k3 : Int) (cc3 : Ptr) (x3 : Option Int) (rlr : BT)
    (b : Nat) (kb : Int) (cb : Ptr) (xb : Option Int) (rr : BT) (fuel : Nat)
    (hs1 : AVLSetHeight a s = some s1)
    (hbf : AVLBalanceFactor a s1 =
      some (l.height - (BT.node (.node rll c3 k3 cc3 x3 rlr) b kb cb xb rr).height))
    (hz1 : ZRep s1 fs (.node l a k c x1 (.node (.node rll c3 k3 cc3 x3 rlr) b kb cb xb rr)))
    (hnd : (ctxAddrs fs ++
      (BT.node l a k c x1 (.node (.node rll c3 k3 cc3 x3 rlr) b kb cb xb rr)).addrs).Nodup)
    (hord : (plug fs (.node l a k c x1 (.node (.node rll c3 k3 cc3 x3 rlr) b kb cb xb rr))).Ordered)
    (hcb : s1.cbRotation = true) (hx : x1.isSome) (hl : l.AVL)
    (hr : (BT.node (.node rll c3 k3 cc3 x3 rlr) b kb cb xb rr).AVL)
    (h1 : ¬ l.height - (BT.node (.node rll c3 k3 cc3 x3 rlr) b kb cb xb rr).height > 1)
    (h3 : l.height - (BT.node (.node rll c3 k3 cc3 x3 rlr) b kb cb xb rr).height < -1)
    (h2 : ¬ (BT.node rll c3 k3 cc3 x3 rlr).height - rr.height < 1) :
    ∃ s', AVLBalanceLoop (fuel + 1) (some a) s = AVLBalanceLoop fuel (parOf fs) s' ∧
      ZRep s' fs (BT.node l a k c x (.node (.node rll c3 k3 cc3 x3 rlr) b kb cb xb rr)).fix ∧
      Keeps s1 s' (ctxAddrs fs ++
        (BT.node l a k c x1 (.node (.node rll c3 k3 cc3 x3 rlr) b kb cb xb rr)).addrs) ∧
      (s1.pFirst =
          (plug fs (.node l a k c x1 (.node (.node rll c3 k3 cc3 x3 rlr) b kb cb xb rr))).addrs.head? →
        s'.pFirst = s1.pFirst) ∧
      ∃ ex, s'.calls = s1.calls ++ ex := by
  obtain ⟨s', e1, e2, e3⟩ := step_right_double s s1 fs l a k c x x1 rll c3 k3 cc3 x3 rlr b kb
    cb xb rr hs1 hbf hz1 hnd hord hcb hx (avl_stored hl) (avl_stored hr) h1 h3 h2
  exact ⟨s', by rw [balanceLoop_step, e1], e2, e3⟩

/-- One turn of the loop of `AVLBalance` at a node whose subtrees are AVL trees:
the memory then holds `fix` of the subtree and the loop goes on at the parent of
its new root. -/
theorem fix_step (s : State) (fs : Path) (l : BT) (a : Nat) (k : Int) (c : Ptr)
    (x : Option Int) (r : BT) (fuel : Nat)
    (hz : ZRep s fs (.node l a k c x r))
    (hnd : (ctxAddrs fs ++ (BT.node l a k c x r).addrs).Nodup)
    (hord : (plug fs (.node l a k c x r)).Ordered)
    (hcb : s.cbRotation = true) (hx : x.isSome) (hl : l.AVL) (hr : r.AVL) :
    ∃ s', AVLBalanceLoop (fuel + 1) (some a) s = AVLBalanceLoop fuel (parOf fs) s' ∧
      ZRep s' fs (BT.node l a k c x r).fix ∧
      Keeps s s' (ctxAddrs fs ++ (BT.node l a k c x r).addrs) ∧
      (s.pFirst = (plug fs (.node l a k c x r)).addrs.head? → s'.pFirst = s.pFirst) ∧
      ∃ ex, s'.calls = s.calls ++ ex := by
  obtain ⟨s1, hs1, hz1, hk1, hf1, hc1⟩ :=
    setHeight_spec s fs l a k c x r hz hnd hx (avl_sh hl) (avl_sh hr)
  have hbf := balanceFactor_eq s1 fs l a k c _ r hz1 (avl_sh hl) (avl_sh hr)
  have hk1' : Keeps s s1 (ctxAddrs fs ++ (BT.node l a k c x r).addrs) :=
    keeps_mono hk1 (fun y hy => by simp at hy; simp [BT.addrs, hy])
  have hcb1 : s1.cbRotation = true := hk1.cbRotation.trans hcb
  rw [BT.mk] at hz1
  generalize hx1 : (some ((if l.height > r.height then l.height else r.height) + 1) :
    Option Int) = x1 at hz1 hbf
  have hx1s : x1.isSome := by rw [← hx1]; rfl
  have hord1 : (plug fs (BT.node l a k c x1 r)).Ordered := ordered_plug_keys hord rfl
  have hnd1 : (ctxAddrs fs ++ (BT.node l a k c x1 r).addrs).Nodup := hnd
  have hfirst : s.pFirst = (plug fs (.node l a k c x r)).addrs.head? →
      s1.pFirst = (plug fs (.node l a k c x1 r)).addrs.head? := fun hF => by
    rw [hf1, hF]; exact head_plug_congr fs rfl
  have wrap : ∀ s', (Keeps s1 s' (ctxAddrs fs ++ (BT.node l a k c x1 r).addrs) ∧
      (s1.pFirst = (plug fs (.node l a k c x1 r)).addrs.head? → s'.pFirst = s1.pFirst) ∧
      ∃ ex, s'.calls = s1.calls ++ ex) →
      (Keeps s s' (ctxAddrs fs ++ (BT.node l a k c x r).addrs) ∧
      (s.pFirst = (plug fs (.node l a k c x r)).addrs.head? → s'.pFirst = s.pFirst) ∧
      ∃ ex, s'.calls = s.calls ++ ex) := by
    rintro s' ⟨hk, hf, ex, hc⟩
    exact ⟨keeps_trans hk1' hk (fun _ h => h) (fun _ h => h),
      fun hF => (hf (hfirst hF)).trans hf1, ⟨ex, by rw [hc, hc1]⟩⟩
  by_cases h1 : l.height - r.height > 1
  · obtain ⟨ll, b, kb, cb, xb, lr, rfl⟩ := node_of_height (t := l) (by have := height_ge r; omega)
    by_cases h2 : ll.height - lr.height > -1
    · obtain ⟨s', e1, e2, e3⟩ := fix_left_single s s1 fs ll b kb cb xb lr a k c x x1 r fuel hs1 hbf
        hz1 hnd1 hord1 hcb1 hx1s hl hr h1 h2
      exact ⟨s', e1, e2, wrap s' e3⟩
    · obtain ⟨lrl, c3, k3, cc3, x3, lrr, rfl⟩ := node_of_height (t := lr)
        (by have := height_ge ll; omega)
      obtain ⟨s', e1, e2, e3⟩ := fix_left_double s s1 fs ll b kb cb xb lrl c3 k3 cc3 x3 lrr a k c
        x x1 r fuel hs1 hbf hz1 hnd1 hord1 hcb1 hx1s hl hr h1 h2
      exact ⟨s', e1, e2, wrap s' e3⟩
  · by_cases h3 : l.height - r.height < -1
    · obtain ⟨rl, b, kb, cb, xb, rr, rfl⟩ := node_of_height (t := r)
        (by have := height_ge l; omega)
      by_cases h2 : rl.height - rr.height < 1
      · obtain ⟨s', e1, e2, e3⟩ := fix_right_single s s1 fs l a k c x x1 rl b kb cb xb rr fuel hs1
          hbf hz1 hnd1 hord1 hcb1 hx1s hl hr h1 h3 h2
        exact ⟨s', e1, e2, wrap s' e3⟩
      · obtain ⟨rll, c3, k3, cc3, x3, rlr, rfl⟩ := node_of_height (t := rl)
          (by have := height_ge rr; omega)
        obtain ⟨s', e1, e2, e3⟩ := fix_right_double s s1 fs l a k c x x1 rll c3 k3 cc3 x3 rlr b kb
          cb xb rr fuel hs1 hbf hz1 hnd1 hord1 hcb1 hx1s hl hr h1 h3 h2
        exact ⟨s', e1, e2, wrap s' e3⟩
    · refine ⟨s1, ?_, ?_, hk1', fun _ => hf1, ⟨[], by simp [hc1]⟩⟩
      · simp only [AVLBalanceLoop, hs1, hbf, h1, h3, if_false]
        rw [zrep_parent hz1 rfl]
      · simp only [BT.fix, h1, h3, if_false]
        subst hx1
        exact hz1
/-! ### The AVL invariant through one loop turn -/

theorem avl_mk {l r : BT} {a : Nat} {k : Int} {c : Ptr} :
    (BT.mk l a k c r).AVL ↔ l.AVL ∧ r.AVL ∧ l.height - r.height ≤ 1 ∧ r.height - l.height ≤ 1 := by
  simp [BT.mk, BT.AVL]

theorem height_mk (l r : BT) (a : Nat) (k : Int) (c : Ptr) :
    (BT.mk l a k c r).height = (if l.height > r.height then l.height else r.height) + 1 := rfl

theorem fix_avl (l : BT) (a : Nat) (k : Int) (c : Ptr) (x : Option Int) (r : BT)
    (hl : l.AVL) (hr : r.AVL) (hb : l.height - r.height ≤ 2) (hb' : r.height - l.height ≤ 2) :
    (BT.node l a k c x r).fix.AVL ∧
      ((BT.node l a k c x r).fix.height = (BT.node l a k c x r).height ∨
        ((BT.node l a k c x r).fix.height = (BT.node l a k c x r).height - 1 ∧
          (l.height - r.height = 2 ∨ r.height - l.height = 2))) := by
  by_cases h1 : l.height - r.height > 1
  · obtain ⟨ll, b, kb, cb, xb, lr, rfl⟩ := node_of_height (t := l) (by have := height_ge r; omega)
    obtain ⟨hll, hlr, -, hl1, hl2⟩ := hl
    by_cases h2 : ll.height - lr.height > -1
    · simp only [BT.fix, h1, if_true, BT.bal, h2, BT.rotRight, BT.mk, BT.AVL, true_and]
      simp only [BT.height] at h1 hb hb' ⊢
      refine ⟨⟨hll, ⟨hlr, hr, ?_, ?_⟩, ?_, ?_⟩, ?_⟩ <;> omega
    · obtain ⟨lrl, c3, k3, cc3, x3, lrr, rfl⟩ := node_of_height (t := lr)
        (by have := height_ge ll; omega)
      obtain ⟨hlrl, hlrr, -, hlr1, hlr2⟩ := hlr
      simp only [BT.fix, h1, if_true, BT.bal, h2, if_false, BT.rotRight, BT.rotLeft, BT.mk,
        BT.AVL, true_and]
      simp only [BT.height] at h1 h2 hb hb' hl1 hl2 hlr1 hlr2 ⊢
      refine ⟨⟨⟨hll, hlrl, ?_, ?_⟩, ⟨hlrr, hr, ?_, ?_⟩, ?_, ?_⟩, ?_⟩ <;> omega
  · by_cases h3 : l.height - r.height < -1
    · obtain ⟨rl, b, kb, cb, xb, rr, rfl⟩ := node_of_height (t := r)
        (by have := height_ge l; omega)
      obtain ⟨hrl, hrr, -, hr1, hr2⟩ := hr
      by_cases h2 : rl.height - rr.height < 1
      · simp only [BT.fix, h1, h3, if_true, if_false, BT.bal, h2, BT.rotLeft, BT.mk, BT.AVL,
          true_and]
        simp only [BT.height] at h1 h3 hb hb' ⊢
        refine ⟨⟨⟨hl, hrl, ?_, ?_⟩, hrr, ?_, ?_⟩, ?_⟩ <;> omega
      · obtain ⟨rll, c3, k3, cc3, x3, rlr, rfl⟩ := node_of_height (t := rl)
          (by have := height_ge rr; omega)
        obtain ⟨hrll, hrlr, -, hrl1, hrl2⟩ := hrl
        simp only [BT.fix, h1, h3, if_true, BT.bal, h2, if_false, BT.rotRight, BT.rotLeft, BT.mk,
          BT.AVL, true_and]
        simp only [BT.height] at h1 h2 h3 hb hb' hr1 hr2 hrl1 hrl2 ⊢
        refine ⟨⟨⟨hl, hrll, ?_, ?_⟩, ⟨hrlr, hrr, ?_, ?_⟩, ?_, ?_⟩, ?_⟩ <;> omega
    · simp only [BT.fix, h1, h3, if_false, avl_mk]
      exact ⟨⟨hl, hr, by omega, by omega⟩, Or.inl rfl⟩
/-! ### The rebalancing walk -/

theorem addrs_walkUp (fs : Path) (t : BT) : (walkUp fs t).addrs = (plug fs t).addrs := by
  induction fs generalizing t with
  | nil => rfl
  | cons f fs ih =>
    rw [walkUp, ih, plug, addrs_plug, addrs_plug, addrs_fix]

theorem keys_walkUp (fs : Path) (t : BT) : (walkUp fs t).keys = (plug fs t).keys := by
  induction fs generalizing t with
  | nil => rfl
  | cons f fs ih =>
    rw [walkUp, ih, plug, keys_plug, keys_plug, keys_fix]

theorem toList_walkUp (fs : Path) (t : BT) : (walkUp fs t).toList = (plug fs t).toList := by
  induction fs generalizing t with
  | nil => rfl
  | cons f fs ih =>
    rw [walkUp, ih, plug, toList_plug, toList_plug, toList_fix]

theorem walkUp_avl (fs : Path) (t : BT) (h : Int) (ht : t.AVL) (hc : CtxAVL fs h)
    (h1 : t.height - h ≤ 1) (h2 : h - t.height ≤ 1) : (walkUp fs t).AVL := by
  induction fs generalizing t h with
  | nil => exact ht
  | cons f fs ih =>
    cases f with
    | L a k c x r =>
      obtain ⟨hr, hb1, hb2, -, hc'⟩ := hc
      obtain ⟨e1, e2⟩ := fix_avl t a k c x r ht hr (by omega) (by omega)
      refine ih _ _ e1 hc' ?_ ?_ <;>
      · simp only [Frame.fill, BT.height] at e2 ⊢
        omega
    | R l a k c x =>
      obtain ⟨hl, hb1, hb2, -, hc'⟩ := hc
      obtain ⟨e1, e2⟩ := fix_avl l a k c x t hl ht (by omega) (by omega)
      refine ih _ _ e1 hc' ?_ ?_ <;>
      · simp only [Frame.fill, BT.height] at e2 ⊢
        omega

theorem fill_node (f : Frame) (t : BT) :
    ∃ l a k c x r, f.fill t = .node l a k c x r ∧ f.addr = a := by
  cases f with
  | L a k c x r => exact ⟨t, a, k, c, x, r, rfl, rfl⟩
  | R l a k c x => exact ⟨l, a, k, c, x, t, rfl, rfl⟩

/-- The loop of `AVLBalance`, started at the parent of the hole of a path around
an AVL subtree whose height is off by at most one, runs to the root and leaves
the tree `walkUp` in memory. -/
theorem walk_spec (fs : Path) (s : State) (t : BT) (h : Int) (fuel : Nat)
    (hz : ZRep s fs t) (hnd : (ctxAddrs fs ++ t.addrs).Nodup)
    (hord : (plug fs t).Ordered) (hcb : s.cbRotation = true)
    (ht : t.AVL) (hc : CtxAVL fs h) (h1 : t.height - h ≤ 1) (h2 : h - t.height ≤ 1)
    (hfuel : fs.length ≤ fuel) :
    ∃ s', AVLBalanceLoop fuel (parOf fs) s = some s' ∧ ZRep s' [] (walkUp fs t) ∧
      Keeps s s' (plug fs t).addrs ∧
      (s.pFirst = (plug fs t).addrs.head? → s'.pFirst = s.pFirst) ∧
      ∃ ex, s'.calls = s.calls ++ ex := by
  induction fs generalizing s t h fuel with
  | nil =>
    refine ⟨s, ?_, hz, keeps_refl _ _, fun _ => rfl, ⟨[], by simp⟩⟩
    cases fuel <;> rfl
  | cons f fs ih =>
    cases fuel with
    | zero => simp at hfuel
    | succ fuel =>
      have hz' := (zrep_cons s f fs t).1 hz
      have hnd' := (nodup_cons_path f fs t).1 hnd
      cases f with
      | L a k c x r =>
        obtain ⟨hr, hb1, hb2, hx, hc'⟩ := hc
        obtain ⟨s1, hs1, hz1, hk1, hf1, ex1, hc1⟩ := fix_step s fs t a k c x r fuel hz' hnd' hord
          hcb hx ht hr
        obtain ⟨e1, e2⟩ := fix_avl t a k c x r ht hr (by omega) (by omega)
        have hnd1 : (ctxAddrs fs ++ (BT.node t a k c x r).fix.addrs).Nodup := by
          rw [addrs_fix]; exact hnd'
        have hord1 : (plug fs (BT.node t a k c x r).fix).Ordered :=
          ordered_plug_keys hord (keys_fix _)
        obtain ⟨s', hs', hz2, hk2, hf2, ex2, hc2⟩ := ih s1 _ _ fuel hz1 hnd1 hord1
          (hk1.cbRotation.trans hcb) e1 hc'
          (by simp only [BT.height] at e2 ⊢; omega) (by simp only [BT.height] at e2 ⊢; omega)
          (by simpa using hfuel)
        have hA : (plug fs (BT.node t a k c x r).fix).addrs = (plug fs (.node t a k c x r)).addrs := by
          rw [addrs_plug, addrs_plug, addrs_fix]
        refine ⟨s', ?_, hz2, ?_, ?_, ⟨ex1 ++ ex2, by rw [hc2, hc1]; simp⟩⟩
        · simp only [parOf, Frame.addr]; rw [hs1, hs']
        · refine keeps_trans hk1 hk2 ?_ ?_
          · intro y hy
            exact (mem_addrs_plug fs _ y).2 (List.mem_append.1 hy)
          · intro y hy
            rw [hA] at hy; exact hy
        · intro hF
          rw [hf2 (by rw [hf1 hF, hA]; exact hF), hf1 hF]
      | R l a k c x =>
        obtain ⟨hl, hb1, hb2, hx, hc'⟩ := hc
        obtain ⟨s1, hs1, hz1, hk1, hf1, ex1, hc1⟩ := fix_step s fs l a k c x t fuel hz' hnd' hord
          hcb hx hl ht
        obtain ⟨e1, e2⟩ := fix_avl l a k c x t hl ht (by omega) (by omega)
        have hnd1 : (ctxAddrs fs ++ (BT.node l a k c x t).fix.addrs).Nodup := by
          rw [addrs_fix]; exact hnd'
        have hord1 : (plug fs (BT.node l a k c x t).fix).Ordered :=
          ordered_plug_keys hord (keys_fix _)
        obtain ⟨s', hs', hz2, hk2, hf2, ex2, hc2⟩ := ih s1 _ _ fuel hz1 hnd1 hord1
          (hk1.cbRotation.trans hcb) e1 hc'
          (by simp only [BT.height] at e2 ⊢; omega) (by simp only [BT.height] at e2 ⊢; omega)
          (by simpa using hfuel)
        have hA : (plug fs (BT.node l a k c x t).fix).addrs = (plug fs (.node l a k c x t)).addrs := by
          rw [addrs_plug, addrs_plug, addrs_fix]
        refine ⟨s', ?_, hz2, ?_, ?_, ⟨ex1 ++ ex2, by rw [hc2, hc1]; simp⟩⟩
        · simp only [parOf, Frame.addr]; rw [hs1, hs']
        · refine keeps_trans hk1 hk2 ?_ ?_
          · intro y hy
            exact (mem_addrs_plug fs _ y).2 (List.mem_append.1 hy)
          · intro y hy
            rw [hA] at hy; exact hy
        · intro hF
          rw [hf2 (by rw [hf1 hF, hA]; exact hF), hf1 hF]
/-! ### Insertion into an AVL tree -/

theorem avl_plug (fs : Path) (t : BT) (h : (plug fs t).AVL) : t.AVL ∧ CtxAVL fs t.height := by
  induction fs generalizing t with
  | nil => exact ⟨h, trivial⟩
  | cons f fs ih =>
    obtain ⟨h1, h2⟩ := ih _ h
    cases f with
    | L a k c x r =>
      obtain ⟨ht, hr, hx, hb1, hb2⟩ := h1
      exact ⟨ht, hr, hb1, hb2, by rw [hx]; rfl, h2⟩
    | R l a k c x =>
      obtain ⟨hl, ht, hx, hb1, hb2⟩ := h1
      exact ⟨ht, hl, hb1, hb2, by rw [hx]; rfl, h2⟩

theorem length_le_size (fs : Path) (t : BT) : fs.length + t.size ≤ (plug fs t).size := by
  induction fs generalizing t with
  | nil => simp [plug]
  | cons f fs ih =>
    have := ih (f.fill t)
    cases f <;> simp only [Frame.fill, BT.size, plug, List.length_cons] at this ⊢ <;> omega

theorem firstAttach_new (fs : Path) (a : Nat) (k : Int) (c : Ptr) (x : Option Int) (first : Ptr)
    (hF : first = (plug fs .nil).addrs.head?) (hnd : (plug fs .nil).addrs.Nodup) :
    firstAttach fs a first = (plug fs (.node .nil a k c x .nil)).addrs.head? := by
  rw [addrs_plug] at hF hnd ⊢
  simp only [BT.addrs, List.append_nil, List.nil_append] at hF hnd ⊢
  cases fs with
  | nil => simp [firstAttach, addrsBefore, addrsAfter] at hF ⊢; simp [hF]
  | cons f fs =>
    cases f with
    | L g kg cg xg rg =>
      simp only [firstAttach, addrsBefore, addrsAfter] at hF hnd ⊢
      cases hb : addrsBefore fs with
      | nil => rw [hb] at hF; simp at hF; simp [hF]
      | cons y ys =>
        rw [hb] at hF hnd
        simp only [List.cons_append, List.head?_cons] at hF ⊢
        have : y ≠ g := by
          rintro rfl
          simp at hnd
        simp [hF, this]
    | R lg g kg cg xg =>
      simp only [firstAttach, addrsBefore] at hF ⊢
      rw [hF]
      cases hb : addrsBefore fs ++ (lg.addrs ++ [g]) with
      | nil => simp at hb
      | cons y ys => simp

theorem good_insertLinked_avl (k : Int) (c : Ptr) (s : State) (T : BT) (hg : Good s T)
    (hh : AVLHooks s) (hT : T.AVL) (hk : k ∉ T.keys) :
    ∃ s', AVLBalance (some s.brk) ((insertLinked k c s T).record (.cbInsert s.brk)) = some s' ∧
      Good s' (walkUp (locate k [] T).1 (BT.node .nil s.brk k c (newAux s) .nil).fix) ∧
      AVLHooks s' ∧ s'.nIterators = s.nIterators ∧ s'.brk = s.brk + 1 ∧
      (s.pFirst = T.addrs.head? → s'.pFirst =
        (walkUp (locate k [] T).1 (BT.node .nil s.brk k c (newAux s) .nil).fix).addrs.head?) ∧
      (∀ b, b ∉ T.addrs → b ≠ s.brk → s'.mem b = s.mem b) ∧
      (∃ ex, s'.calls = s.calls ++ ex) := by
  obtain ⟨hz, hf, hsz, hbrk, hit, hcalls, hc1, hc2, hc3, hc4, hmem⟩ :=
    insertLinked_spec k c s T hg.shape hg.ordered hk
  have hnil : (locate k [] T).2 = .nil := (locate_nil_iff k [] T hg.ordered).2 hk
  have hplug := plug_locate_root k T hnil
  have hperm := addrs_insertAt k c (newAux s) s.brk T hg.ordered hk
  have hord := ordered_insertAt k c (newAux s) s.brk T hg.ordered hk
  rw [insertAt] at hperm hord
  have hndT : (plug (locate k [] T).1 (BT.node .nil s.brk k c (newAux s) .nil)).addrs.Nodup := by
    rw [hperm.nodup_iff, List.nodup_cons]
    exact ⟨shape_fresh hg.shape, hg.shape.nodup⟩
  have hnd := (nodup_plug _ _).1 hndT
  have hx : (newAux s).isSome := by simp [newAux, hh.1]
  have hcb : ((insertLinked k c s T).record (.cbInsert s.brk)).cbRotation = true :=
    hc4.trans hh.2.2.2
  obtain ⟨hnilavl, hctx⟩ := avl_plug (locate k [] T).1 .nil (by rw [hplug]; exact hT)
  have hlen : (locate k [] T).1.length ≤ s.brk := by
    have h1 := length_le_size (locate k [] T).1 .nil
    rw [hplug] at h1
    have h2 := shape_size_le hg.shape
    omega
  obtain ⟨s1, hs1, hz1, hk1, hf1, ex1, hcl1⟩ := fix_step _ _ .nil s.brk k c (newAux s) .nil s.brk
    (zrep_record (.cbInsert s.brk) hz) hnd hord hcb hx trivial trivial
  obtain ⟨e1, e2⟩ := fix_avl .nil s.brk k c (newAux s) .nil trivial trivial (by simp) (by simp)
  have hA : (BT.node .nil s.brk k c (newAux s) .nil).fix.addrs = [s.brk] := by rw [addrs_fix]; rfl
  obtain ⟨s', hs', hz2, hk2, hf2, ex2, hcl2⟩ := walk_spec (locate k [] T).1 s1
    (BT.node .nil s.brk k c (newAux s) .nil).fix (-1) s.brk hz1
    (by rw [addrs_fix]; exact hnd) (ordered_plug_keys hord (keys_fix _))
    (hk1.cbRotation.trans hcb) e1 hctx
    (by simp only [BT.height] at e2 ⊢; omega) (by simp only [BT.height] at e2 ⊢; omega) hlen
  have hAll : (walkUp (locate k [] T).1 (BT.node .nil s.brk k c (newAux s) .nil).fix).addrs =
      (plug (locate k [] T).1 (BT.node .nil s.brk k c (newAux s) .nil)).addrs := by
    rw [addrs_walkUp, addrs_plug, addrs_plug, addrs_fix]
  have hPA : (plug (locate k [] T).1 (BT.node .nil s.brk k c (newAux s) .nil).fix).addrs =
      (plug (locate k [] T).1 (BT.node .nil s.brk k c (newAux s) .nil)).addrs := by
    rw [addrs_plug, addrs_plug, addrs_fix]
  have hhooks : AVLHooks s' := by
    obtain ⟨h1, h2, h3, h4⟩ := hh
    exact ⟨(hk2.cbAllocNode.trans hk1.cbAllocNode).trans (hc1.trans h1),
      (hk2.cbInsert.trans hk1.cbInsert).trans (hc2.trans h2),
      (hk2.cbRemove.trans hk1.cbRemove).trans (hc3.trans h3),
      (hk2.cbRotation.trans hk1.cbRotation).trans (hc4.trans h4)⟩
  refine ⟨s', ?_, ⟨⟨hz2, ?_, ?_⟩, ?_, ?_, Or.inr ⟨hhooks, ?_⟩⟩, hhooks, ?_, ?_, ?_, ?_, ?_⟩
  · rw [AVLBalance]
    show AVLBalanceLoop (insertLinked k c s T).brk _ _ = _
    rw [hbrk, hs1, hs']
  · rw [hAll]; exact hndT
  · intro b hb
    rw [hAll] at hb
    have := hperm.mem_iff.1 hb
    rw [hk2.brk, hk1.brk]
    show b < (insertLinked k c s T).brk
    rw [hbrk]
    rcases List.mem_cons.1 this with rfl | h
    · omega
    · have := hg.shape.lt_brk b h; omega
  · rw [ordered_iff, keys_walkUp]
    rw [ordered_iff] at hord
    rw [keys_plug] at hord ⊢
    rw [keys_fix]; exact hord
  · rw [hk2.nSize, hk1.nSize]
    show (insertLinked k c s T).nSize = _
    rw [hsz, hg.size, size_eq_length, size_eq_length, hAll, hperm.length_eq]
    simp
  · exact walkUp_avl _ _ (-1) e1 hctx (by simp only [BT.height] at e2 ⊢; omega)
      (by simp only [BT.height] at e2 ⊢; omega)
  · rw [hk2.nIterators, hk1.nIterators]; exact hit
  · rw [hk2.brk, hk1.brk]; exact hbrk
  · intro hF
    have hF0 : (insertLinked k c s T).pFirst =
        (plug (locate k [] T).1 (BT.node .nil s.brk k c (newAux s) .nil)).addrs.head? := by
      rw [hf]
      exact firstAttach_new _ _ _ _ _ _ (by rw [hplug]; exact hF) (by rw [hplug]; exact hg.shape.nodup)
    have hF1 : s1.pFirst = (insertLinked k c s T).pFirst := hf1 hF0
    have hF2 : s'.pFirst = s1.pFirst := hf2 (by rw [hF1, hF0, hPA])
    rw [hF2, hF1, hF0, hAll]
  · intro b hb1 hb2
    have hbn : b ∉ (plug (locate k [] T).1 (BT.node .nil s.brk k c (newAux s) .nil)).addrs := by
      intro h
      rcases List.mem_cons.1 (hperm.mem_iff.1 h) with h | h
      · exact hb2 h
      · exact hb1 h
    rw [hk2.mem b (by rw [hPA]; exact hbn), hk1.mem b (fun h => hbn ((mem_addrs_plug _ _ _).2
      (List.mem_append.1 h)))]
    exact hmem b hb1 hb2
  · exact ⟨[.cbInsert s.brk] ++ ex1 ++ ex2, by
      rw [hcl2, hcl1]; simp [State.record, hcalls]⟩
theorem noHooks_not_avl {s : State} (h : NoHooks s) : ¬ AVLHooks s := by
  intro h'
  have := h.1.symm.trans h'.1
  simp at this

/-- Inserting a key that a well-formed tree does not hold: `Insert` returns `TRUE`
and leaves a well-formed tree with the new pair at its place in the order. -/
theorem insert_good (k : Int) (c : Ptr) (s : State) (T : BT) (hg : Good s T)
    (hk : k ∉ T.keys) :
    ∃ s' T', Insert k c s = some (true, s') ∧ Good s' T' ∧
      (∃ xs ys, T.toList = xs ++ ys ∧ T'.toList = xs ++ (k, c) :: ys) ∧
      s'.nIterators = s.nIterators ∧
      (s.pFirst = T.addrs.head? → s'.pFirst = T'.addrs.head?) ∧
      (NoHooks s → NoHooks s') ∧ (AVLHooks s → AVLHooks s') := by
  obtain ⟨hz, hf, hsz, hbrk, hit, hcalls, hc1, hc2, hc3, hc4, hmem⟩ :=
    insertLinked_spec k c s T hg.shape hg.ordered hk
  have hnil : (locate k [] T).2 = .nil := (locate_nil_iff k [] T hg.ordered).2 hk
  have hplug := plug_locate_root k T hnil
  rcases hg.hooks with hh | ⟨hh, hT⟩
  · have hg' := good_insertLinked_nohooks k c s T hg hh hk
    refine ⟨insertLinked k c s T, insertAt k c (newAux s) s.brk T, ?_, hg',
      toList_insertAt k c _ _ T hg.ordered hk, hit, ?_, ?_, ?_⟩
    · rw [insert_new k c s T hg.shape hg.ordered hk, hc2, hh.2.1]
      rfl
    · intro hF
      rw [hf, insertAt]
      exact firstAttach_new _ _ _ _ _ _ (by rw [hplug]; exact hF)
        (by rw [hplug]; exact hg.shape.nodup)
    · intro _
      obtain ⟨h1, h2, h3, h4⟩ := hh
      exact ⟨hc1.trans h1, hc2.trans h2, hc3.trans h3, hc4.trans h4⟩
    · intro h; exact absurd h (noHooks_not_avl hh)
  · obtain ⟨s', hs', hg', hhooks', hit', hbrk', hF', hmem', hcalls'⟩ :=
      good_insertLinked_avl k c s T hg hh hT hk
    refine ⟨s', _, ?_, hg', ?_, hit', hF', ?_, ?_⟩
    · rw [insert_new k c s T hg.shape hg.ordered hk, hc2, hh.2.1]
      simp [hs']
    · obtain ⟨xs, ys, h1, h2⟩ := toList_insertAt k c (newAux s) s.brk T hg.ordered hk
      refine ⟨xs, ys, h1, ?_⟩
      rw [← h2, insertAt, toList_walkUp, toList_plug, toList_plug, toList_fix]
    · intro h; exact absurd hh (noHooks_not_avl h)
    · intro _; exact hhooks'
/-! ### Nodes in order -/

theorem items_plug (fs : Path) (t : BT) :
    (plug fs t).items = itemsBefore fs ++ t.items ++ itemsAfter fs := by
  induction fs generalizing t with
  | nil => simp [plug, itemsBefore, itemsAfter]
  | cons f fs ih =>
    cases f <;> simp [plug, Frame.fill, ih, BT.items, itemsBefore, itemsAfter]

theorem items_addrs (t : BT) : t.items.map (·.1) = t.addrs := by
  induction t with
  | nil => rfl
  | node l a k c x r ihl ihr => simp [BT.items, BT.addrs, ihl, ihr]

theorem items_keys (t : BT) : t.items.map (·.2.1) = t.keys := by
  induction t with
  | nil => rfl
  | node l a k c x r ihl ihr => simp [BT.items, BT.keys, ihl, ihr]

theorem items_toList (t : BT) : t.items.map (·.2) = t.toList := by
  induction t with
  | nil => rfl
  | node l a k c x r ihl ihr => simp [BT.items, BT.toList, ihl, ihr]

theorem items_rotRight (t : BT) : (BT.rotRight t).items = t.items := by
  unfold BT.rotRight
  split <;> simp [BT.items, BT.mk]

theorem items_rotLeft (t : BT) : (BT.rotLeft t).items = t.items := by
  unfold BT.rotLeft
  split <;> simp [BT.items, BT.mk]

theorem items_fix (t : BT) : t.fix.items = t.items := by
  cases t with
  | nil => rfl
  | node l a k c x r =>
    simp only [BT.fix]
    split_ifs <;> simp [items_rotRight, items_rotLeft, BT.items, BT.mk]

theorem items_walkUp (fs : Path) (t : BT) : (walkUp fs t).items = (plug fs t).items := by
  induction fs generalizing t with
  | nil => rfl
  | cons f fs ih =>
    rw [walkUp, ih, plug, items_plug, items_plug, items_fix]

/-- In a list with distinct first components an element is found at one place. -/
theorem split_unique {α β : Type} {l1 l2 r1 r2 : List (α × β)} {x y : α × β}
    (h : l1 ++ x :: r1 = l2 ++ y :: r2) (hxy : x.1 = y.1)
    (hnd : ((l1 ++ x :: r1).map (·.1)).Nodup) : l1 = l2 ∧ x = y ∧ r1 = r2 := by
  induction l1 generalizing l2 with
  | nil =>
    cases l2 with
    | nil => simpa using h
    | cons z l2 =>
      exfalso
      simp only [List.nil_append, List.cons_append, List.cons.injEq] at h
      obtain ⟨rfl, rfl⟩ := h
      simp only [List.nil_append, List.map_cons, List.map_append, List.nodup_cons,
        List.mem_append, List.mem_map, List.mem_cons] at hnd
      exact hnd.1 (Or.inr (Or.inl hxy))
  | cons z l1 ih =>
    cases l2 with
    | nil =>
      exfalso
      simp only [List.nil_append, List.cons_append, List.cons.injEq] at h
      obtain ⟨rfl, rfl⟩ := h
      simp only [List.cons_append, List.map_cons, List.map_append, List.nodup_cons,
        List.mem_append, List.mem_map, List.mem_cons] at hnd
      exact hnd.1 (Or.inr (Or.inl hxy.symm))
    | cons w l2 =>
      simp only [List.cons_append, List.cons.injEq] at h
      obtain ⟨rfl, h⟩ := h
      have := ih h (by simpa using (List.nodup_cons.1 (by simpa using hnd)).2)
      simp [this.1, this.2.1, this.2.2]
/-! ### Neighbours in order -/

theorem chainNext_of_ordered (fs : Path) (t : BT) (j : Int) (h : (plug fs t).Ordered)
    (hj : j ∈ t.keys) : ChainNext j fs := by
  induction fs generalizing t j with
  | nil => trivial
  | cons f fs ih =>
    have hs := ordered_plug_side h j hj
    cases f with
    | L a k c x r => exact hs
    | R l a k c x => exact ⟨hs, ih (.node l a k c x t) k h (by simp [BT.keys])⟩

theorem chainPrev_of_ordered (fs : Path) (t : BT) (j : Int) (h : (plug fs t).Ordered)
    (hj : j ∈ t.keys) : ChainPrev j fs := by
  induction fs generalizing t j with
  | nil => trivial
  | cons f fs ih =>
    have hs := ordered_plug_side h j hj
    cases f with
    | L a k c x r => exact ⟨hs, ih (.node t a k c x r) k h (by simp [BT.keys])⟩
    | R l a k c x => exact hs

theorem climbNext_spec (mem : Nat → Node) (fs : Path) (p0 : Ptr) (j : Int) (fuel : Nat)
    (hctx : RepCtx mem fs p0) (hch : ChainNext j fs) (hf : fs.length ≤ fuel) :
    climbNext mem fuel (parOf fs) j = some (nextUp fs) := by
  induction fs generalizing p0 j fuel with
  | nil => cases fuel <;> rfl
  | cons f fs ih =>
    cases f with
    | L a k c x r =>
      obtain ⟨ha, -, -⟩ := hctx
      have : ¬ k < j := by simp only [ChainNext] at hch; omega
      cases fuel <;> simp [climbNext, parOf, Frame.addr, ha, this, nextUp]
    | R l a k c x =>
      obtain ⟨ha, -, hrest⟩ := hctx
      obtain ⟨hk, hch'⟩ := hch
      cases fuel with
      | zero => simp at hf
      | succ fuel =>
        simp only [climbNext, parOf, Frame.addr, ha, hk, if_true, nextUp]
        exact ih (some a) k fuel hrest hch' (by simpa using hf)

theorem climbPrevious_spec (mem : Nat → Node) (fs : Path) (p0 : Ptr) (j : Int) (fuel : Nat)
    (hctx : RepCtx mem fs p0) (hch : ChainPrev j fs) (hf : fs.length ≤ fuel) :
    climbPrevious mem fuel (parOf fs) j = some (prevUp fs) := by
  induction fs generalizing p0 j fuel with
  | nil => cases fuel <;> rfl
  | cons f fs ih =>
    cases f with
    | R l a k c x =>
      obtain ⟨ha, -, -⟩ := hctx
      have : ¬ k > j := by simp only [ChainPrev] at hch; omega
      cases fuel <;> simp [climbPrevious, parOf, Frame.addr, ha, this, prevUp]
    | L a k c x r =>
      obtain ⟨ha, -, hrest⟩ := hctx
      obtain ⟨hk, hch'⟩ := hch
      have hk' : k > j := hk
      cases fuel with
      | zero => simp at hf
      | succ fuel =>
        simp only [climbPrevious, parOf, Frame.addr, ha, hk', if_true, prevUp]
        exact ih (some a) k fuel hrest hch' (by simpa using hf)

theorem nextUp_eq (fs : Path) : nextUp fs = (addrsAfter fs).head? := by
  induction fs with
  | nil => rfl
  | cons f fs ih => cases f <;> simp [nextUp, addrsAfter, ih]

theorem prevUp_eq (fs : Path) : prevUp fs = (addrsBefore fs).getLast? := by
  induction fs with
  | nil => rfl
  | cons f fs ih =>
    cases f with
    | L a k c x r => simp [prevUp, addrsBefore, ih]
    | R l a k c x =>
      simp only [prevUp, addrsBefore]
      rw [← List.append_assoc, List.getLast?_append]
      simp

theorem descendLeft_spec (mem : Nat → Node) (t : BT) (par : Ptr) (c : Nat) (fuel : Nat)
    (h : Rep mem t par) (hc : t.ptr = some c) (hf : t.size ≤ fuel + 1) :
    ∃ m, descendLeft mem fuel c = some m ∧ t.addrs.head? = some m := by
  induction t generalizing par c fuel with
  | nil => simp [BT.ptr] at hc
  | node l a k cc x r ihl _ =>
    simp only [BT.ptr, Option.some.injEq] at hc
    subst hc
    obtain ⟨h1, h2, -⟩ := h
    cases l with
    | nil =>
      refine ⟨a, ?_, by simp [BT.addrs]⟩
      unfold descendLeft
      simp [h1, BT.ptr]
    | node ll b kb cb xb lr =>
      cases fuel with
      | zero => simp [BT.size] at hf; omega
      | succ fuel =>
        obtain ⟨m, hm1, hm2⟩ := ihl (some a) b fuel h2 rfl (by simp only [BT.size] at hf ⊢; omega)
        refine ⟨m, ?_, ?_⟩
        · rw [descendLeft]; simp only [h1, BT.ptr]; exact hm1
        · rw [BT.addrs, List.head?_append_of_ne_nil _ (by simp [BT.addrs]), hm2]

theorem descendRight_spec (mem : Nat → Node) (t : BT) (par : Ptr) (c : Nat) (fuel : Nat)
    (h : Rep mem t par) (hc : t.ptr = some c) (hf : t.size ≤ fuel + 1) :
    ∃ m, descendRight mem fuel c = some m ∧ t.addrs.getLast? = some m := by
  induction t generalizing par c fuel with
  | nil => simp [BT.ptr] at hc
  | node l a k cc x r _ ihr =>
    simp only [BT.ptr, Option.some.injEq] at hc
    subst hc
    obtain ⟨h1, -, h3⟩ := h
    cases r with
    | nil =>
      refine ⟨a, ?_, by simp [BT.addrs]⟩
      unfold descendRight
      simp [h1, BT.ptr]
    | node rl b kb cb xb rr =>
      cases fuel with
      | zero => simp [BT.size] at hf; omega
      | succ fuel =>
        obtain ⟨m, hm1, hm2⟩ := ihr (some a) b fuel h3 rfl (by simp only [BT.size] at hf ⊢; omega)
        refine ⟨m, ?_, ?_⟩
        · rw [descendRight]; simp only [h1, BT.ptr]; exact hm1
        · rw [BT.addrs, show l.addrs ++ a :: (BT.node rl b kb cb xb rr).addrs =
            (l.addrs ++ [a]) ++ (BT.node rl b kb cb xb rr).addrs by simp,
            List.getLast?_append, hm2]
          rfl
theorem length_le_brk {s : State} {T : BT} (hs : Shape s T) (fs : Path) (t : BT)
    (hT : plug fs t = T) : fs.length + t.size ≤ s.brk := by
  have h1 := length_le_size fs t
  rw [hT] at h1
  have h2 := shape_size_le hs
  omega

theorem getNext_spec (s : State) (T : BT) (fs : Path) (l : BT) (a : Nat) (k : Int) (c : Ptr)
    (x : Option Int) (r : BT) (hs : Shape s T) (ho : T.Ordered)
    (hT : plug fs (.node l a k c x r) = T) :
    GetNext a s = some ((r.addrs ++ addrsAfter fs).head?) := by
  have hz := shape_zrep hs fs _ hT
  have hlen := length_le_brk hs fs _ hT
  obtain ⟨h1, h2, h3⟩ := hz.sub
  cases r with
  | nil =>
    simp only [GetNext, h1, BT.ptr, BT.addrs, List.nil_append]
    rw [← nextUp_eq]
    exact climbNext_spec s.mem fs _ k s.brk hz.ctx
      (chainNext_of_ordered fs _ k (hT ▸ ho) (by simp [BT.keys])) (by omega)
  | node rl b kb cb xb rr =>
    simp only [GetNext, h1, BT.ptr]
    obtain ⟨m, hm1, hm2⟩ := descendLeft_spec s.mem _ _ b s.brk h3 rfl
      (by simp only [BT.size] at hlen ⊢; omega)
    rw [hm1, List.head?_append_of_ne_nil _ (by simp [BT.addrs]), hm2]
    rfl

theorem getPrevious_spec (s : State) (T : BT) (fs : Path) (l : BT) (a : Nat) (k : Int) (c : Ptr)
    (x : Option Int) (r : BT) (hs : Shape s T) (ho : T.Ordered)
    (hT : plug fs (.node l a k c x r) = T) :
    GetPrevious a s = some ((addrsBefore fs ++ l.addrs).getLast?) := by
  have hz := shape_zrep hs fs _ hT
  have hlen := length_le_brk hs fs _ hT
  obtain ⟨h1, h2, h3⟩ := hz.sub
  cases l with
  | nil =>
    simp only [GetPrevious, h1, BT.ptr, BT.addrs, List.append_nil]
    rw [← prevUp_eq]
    exact climbPrevious_spec s.mem fs _ k s.brk hz.ctx
      (chainPrev_of_ordered fs _ k (hT ▸ ho) (by simp [BT.keys])) (by omega)
  | node ll b kb cb xb lr =>
    simp only [GetPrevious, h1, BT.ptr]
    obtain ⟨m, hm1, hm2⟩ := descendRight_spec s.mem _ _ b s.brk h2 rfl
      (by simp only [BT.size] at hlen ⊢; omega)
    rw [hm1, List.getLast?_append, hm2]
    rfl

/-! ### Removing a node with at most one child -/

theorem ptr_eq_none {t : BT} : t.ptr = none ↔ t = .nil := by
  cases t <;> simp [BT.ptr]

theorem detachNodes_left (p c : Nat) (s : State) (hk : (s.mem c).nKey < (s.mem p).nKey) :
    DetachNodes p c s = (s.setLeft p none).setParent c none := by
  simp [DetachNodes, hk]

theorem detachNodes_right (p c : Nat) (s : State) (hk : ¬ (s.mem c).nKey < (s.mem p).nKey) :
    DetachNodes p c s = (s.setRight p none).setParent c none := by
  simp [DetachNodes, hk]

theorem detach_spec (s : State) (fs : Path) (f : Frame) (l : BT) (a : Nat) (k : Int) (c : Ptr)
    (x : Option Int) (r : BT) (hz : ZRep s (f :: fs) (.node l a k c x r))
    (hnd : (ctxAddrs (f :: fs) ++ (BT.node l a k c x r).addrs).Nodup)
    (hside : sideOK (f :: fs) k) :
    RepCtx (DetachNodes f.addr a s).mem (f :: fs) none ∧
    (DetachNodes f.addr a s).mem a = ⟨l.ptr, r.ptr, none, k, c, x⟩ ∧
    (DetachNodes f.addr a s).pRoot = s.pRoot ∧
    (DetachNodes f.addr a s).pFirst = s.pFirst ∧
    (DetachNodes f.addr a s).calls = s.calls ∧
    Keeps s (DetachNodes f.addr a s) [f.addr, a] := by
  obtain ⟨h1, h2, h3⟩ := hz.sub
  rw [List.nodup_append] at hnd
  obtain ⟨hn1, hn2, hn3⟩ := hnd
  have hfa : f.addr ≠ a := fun h => hn3 (show f.addr ∈ ctxAddrs (f :: fs) by simp [ctxAddrs])
    (by rw [h]; simp [BT.addrs])
  have hsib : ∀ b ∈ f.sibling.addrs, b ≠ f.addr ∧ b ≠ a := by
    intro b hb
    constructor
    · rintro rfl
      simp [ctxAddrs] at hn1
      exact hn1.1.1 hb
    · rintro rfl
      exact hn3 (show b ∈ ctxAddrs (f :: fs) by simp [ctxAddrs, hb]) (by simp [BT.addrs])
  have hrest : ∀ b ∈ ctxAddrs fs, b ≠ f.addr ∧ b ≠ a := by
    intro b hb
    constructor
    · rintro rfl
      simp [ctxAddrs] at hn1
      exact hn1.1.2 hb
    · rintro rfl
      exact hn3 (show b ∈ ctxAddrs (f :: fs) by simp [ctxAddrs, hb]) (by simp [BT.addrs])
  cases f with
  | L g kg cg xg rg =>
    obtain ⟨hg, hrg, hfs⟩ := hz.ctx
    simp only [Frame.addr, Frame.sibling] at hfa hsib hrest ⊢
    have hk : (s.mem a).nKey < (s.mem g).nKey := by rw [h1, hg]; exact hside
    rw [detachNodes_left g a s hk]
    have hm : ∀ b, b ≠ g → b ≠ a → ((s.setLeft g none).setParent a none).mem b = s.mem b := fun b hb1 hb2 => by
      simp [State.setLeft, State.setParent, Function.update_noteq hb1,
        Function.update_noteq hb2]
    refine ⟨⟨?_, rep_congr hrg (fun b hb => hm b (hsib b hb).1 (hsib b hb).2),
      repCtx_congr hfs (fun b hb => hm b (hrest b hb).1 (hrest b hb).2)⟩, ?_, ?_, ?_, ?_, ?_⟩
    · simp [State.setLeft, State.setParent, Function.update_noteq hfa, hg]
    · simp [State.setLeft, State.setParent, Function.update_noteq hfa.symm, h1]
    · simp [State.setLeft, State.setParent]
    · simp [State.setLeft, State.setParent]
    · simp [State.setLeft, State.setParent]
    · exact ⟨by simp [State.setLeft, State.setParent],
        by simp [State.setLeft, State.setParent],
        by simp [State.setLeft, State.setParent],
        by simp [State.setLeft, State.setParent],
        by simp [State.setLeft, State.setParent],
        by simp [State.setLeft, State.setParent],
        by simp [State.setLeft, State.setParent],
        fun b hb => by simp at hb; exact hm b hb.1 hb.2⟩
  | R lg g kg cg xg =>
    obtain ⟨hg, hlg, hfs⟩ := hz.ctx
    simp only [Frame.addr, Frame.sibling] at hfa hsib hrest ⊢
    have hk : ¬ (s.mem a).nKey < (s.mem g).nKey := by
      rw [h1, hg]; simp only [sideOK] at hside; simp only [not_lt]; omega
    rw [detachNodes_right g a s hk]
    have hm : ∀ b, b ≠ g → b ≠ a → ((s.setRight g none).setParent a none).mem b = s.mem b := fun b hb1 hb2 => by
      simp [State.setRight, State.setParent, Function.update_noteq hb1,
        Function.update_noteq hb2]
    refine ⟨⟨?_, rep_congr hlg (fun b hb => hm b (hsib b hb).1 (hsib b hb).2),
      repCtx_congr hfs (fun b hb => hm b (hrest b hb).1 (hrest b hb).2)⟩, ?_, ?_, ?_, ?_, ?_⟩
    · simp [State.setRight, State.setParent, Function.update_noteq hfa, hg]
    · simp [State.setRight, State.setParent, Function.update_noteq hfa.symm, h1]
    · simp [State.setRight, State.setParent]
    · simp [State.setRight, State.setParent]
    · simp [State.setRight, State.setParent]
    · exact ⟨by simp [State.setRight, State.setParent],
        by simp [State.setRight, State.setParent],
        by simp [State.setRight, State.setParent],
        by simp [State.setRight, State.setParent],
        by simp [State.setRight, State.setParent],
        by simp [State.setRight, State.setParent],
        by simp [State.setRight, State.setParent],
        fun b hb => by simp at hb; exact hm b hb.1 hb.2⟩
theorem rep_reparent {mem mem' : Nat → Node} {t : BT} {par par' : Ptr} (h : Rep mem t par)
    (hnd : t.addrs.Nodup)
    (hroot : ∀ a, t.ptr = some a → mem' a = { mem a with pParent := par' })
    (hrest : ∀ b ∈ t.addrs, t.ptr ≠ some b → mem' b = mem b) : Rep mem' t par' := by
  cases t with
  | nil => trivial
  | node l a k c x r =>
    obtain ⟨h1, h2, h3⟩ := h
    obtain ⟨-, -, hal, har, -⟩ := nodup_node.1 hnd
    refine ⟨?_, rep_congr h2 (fun b hb => hrest b (by simp [BT.addrs, hb]) ?_),
      rep_congr h3 (fun b hb => hrest b (by simp [BT.addrs, hb]) ?_)⟩
    · rw [hroot a rfl, h1]
    · simp only [BT.ptr, ne_eq, Option.some.injEq]
      rintro rfl; exact hal hb
    · simp only [BT.ptr, ne_eq, Option.some.injEq]
      rintro rfl; exact har hb

theorem attachNodes_freed (p c : Ptr) (s : State) : (AttachNodes p c s).freed = s.freed := by
  unfold AttachNodes
  cases c with
  | none => rfl
  | some c =>
    cases p with
    | none => simp only; split_ifs <;> rfl
    | some p => simp only; split_ifs <;> rfl

theorem detachNodes_freed (p c : Nat) (s : State) : (DetachNodes p c s).freed = s.freed := by
  unfold DetachNodes
  simp only
  split_ifs <;> rfl

theorem zrep_free {s : State} {fs : Path} {t : BT} (a : Nat) (h : ZRep s fs t) :
    ZRep (FreeNode a s) fs t := ⟨h.root, h.ctx, h.sub⟩

theorem keeps_free {s s' : State} {A : List Nat} (a : Nat) (h : Keeps s s' A) :
    Keeps s (FreeNode a s') A :=
  ⟨h.nSize, h.nIterators, h.cbAllocNode, h.cbInsert, h.cbRemove, h.cbRotation, h.brk, h.mem⟩

/-- `RemoveNode` at a node with at most one child, up to the call of the remove
callback: the child is in the place of the node, the node is freed. -/
theorem remove_simple (s s1 : State) (fs : Path) (l : BT) (a : Nat) (k : Int) (c : Ptr)
    (x : Option Int) (r : BT) (orig : Bool) (fuel : Nat)
    (hstep : (if s.pFirst = some a then (GetNext a s).map (fun p => { s with pFirst := p })
      else some s) = some s1)
    (hz : ZRep s1 fs (.node l a k c x r))
    (hnd : (ctxAddrs fs ++ (BT.node l a k c x r).addrs).Nodup)
    (hord : (plug fs (.node l a k c x r)).Ordered) (hlr : l = .nil ∨ r = .nil) :
    ∃ s3, RemoveNode (fuel + 1) (some a) orig s =
        (callRemove (match fs with
          | [] => (if l = .nil then r else l).ptr
          | f :: _ => some f.addr) orig s3).map (fun s4 => (true, s4)) ∧
      ZRep s3 fs (if l = .nil then r else l) ∧
      Keeps s1 s3 (ctxAddrs fs ++ (BT.node l a k c x r).addrs) ∧
      s3.mem a = ⟨l.ptr, r.ptr, none, k, c, x⟩ ∧ s3.calls = s1.calls ∧
      s3.freed = a :: s1.freed ∧
      s3.pFirst = firstSplice fs (if l = .nil then r else l).ptr s1.pFirst := by
  obtain ⟨h1, h2, h3⟩ := hz.sub
  have hnd' := hnd
  rw [List.nodup_append] at hnd'
  obtain ⟨hn1, hn2, hn3⟩ := hnd'
  obtain ⟨hnl, hnr, hal, har, hlr'⟩ := nodup_node.1 hn2
  have hcond : (s1.mem a).pLeftChild = none ∨ (s1.mem a).pRightChild = none := by
    rw [h1]; simpa [ptr_eq_none] using hlr
  have hchild : (if (s1.mem a).pLeftChild = none then (s1.mem a).pRightChild
      else (s1.mem a).pLeftChild) = (if l = .nil then r else l).ptr := by
    rw [h1]
    by_cases hl : l = .nil
    · simp [hl, BT.ptr]
    · simp [hl, ptr_eq_none]
  have hpar : (s1.mem a).pParent = parOf fs := by rw [h1]
  have hcsub : ∀ b ∈ (if l = .nil then r else l).addrs, b ∈ (BT.node l a k c x r).addrs ∧ b ≠ a := by
    intro b hb
    by_cases hl : l = .nil
    · rw [if_pos hl] at hb
      exact ⟨by simp [BT.addrs, hb], fun h => har (h ▸ hb)⟩
    · rw [if_neg hl] at hb
      exact ⟨by simp [BT.addrs, hb], fun h => hal (h ▸ hb)⟩
  have hcrep : Rep s1.mem (if l = .nil then r else l) (some a) := by
    by_cases hl : l = .nil
    · rw [if_pos hl]; exact h3
    · rw [if_neg hl]; exact h2
  have hcnd : (if l = .nil then r else l).addrs.Nodup := by
    by_cases hl : l = .nil
    · rw [if_pos hl]; exact hnr
    · rw [if_neg hl]; exact hnl
  have hckeys : ∀ j ∈ (if l = .nil then r else l).keys, j ∈ (BT.node l a k c x r).keys := by
    intro j hj
    by_cases hl : l = .nil
    · rw [if_pos hl] at hj; simp [BT.keys, hj]
    · rw [if_neg hl] at hj; simp [BT.keys, hj]
  simp only [RemoveNode, hstep, hcond, if_true, hchild, hpar]
  generalize (if l = BT.nil then r else l) = ch at hcsub hcrep hcnd hckeys ⊢
  cases fs with
  | nil =>
    simp only [parOf]
    cases ch with
    | nil =>
      refine ⟨_, rfl, ⟨rfl, trivial, trivial⟩, ?_, ?_, rfl, rfl, rfl⟩
      · exact ⟨rfl, rfl, rfl, rfl, rfl, rfl, rfl, fun _ _ => rfl⟩
      · show s1.mem a = _
        simp only [BT.ptr]; rw [h1]; rfl
    | node cl cn ck cc cx cr =>
      have hcn : cn ≠ a := (hcsub cn (by simp [BT.addrs])).2
      simp only [BT.ptr]
      refine ⟨_, rfl, ⟨rfl, trivial, ?_⟩, ?_, ?_, rfl, rfl, rfl⟩
      · show Rep (State.setParent { s1 with pRoot := some cn } cn none).mem _ _
        refine rep_reparent hcrep hcnd ?_ ?_
        · intro b hb
          simp only [BT.ptr, Option.some.injEq] at hb
          subst hb
          simp [State.setParent, parOf]
        · intro b hb hne
          simp only [BT.ptr, ne_eq, Option.some.injEq] at hne
          simp [State.setParent, Function.update_noteq (Ne.symm hne)]
      · exact ⟨rfl, rfl, rfl, rfl, rfl, rfl, rfl, fun b hb => by
          have : b ≠ cn := fun h => hb (List.mem_append_right _ (hcsub b (by simp [BT.addrs, h])).1)
          simp [FreeNode, State.setParent, Function.update_noteq this]⟩
      · show (State.setParent { s1 with pRoot := some cn } cn none).mem a = _
        simp only [BT.ptr, State.setParent]
        rw [Function.update_noteq hcn.symm, h1]; rfl
  | cons f fs =>
    simp only [parOf]
    obtain ⟨d1, d2, d3, d4, d5, d6⟩ := detach_spec s1 fs f l a k c x r hz hnd
      (ordered_plug_side hord k (by simp [BT.keys]))
    have hfa : f.addr ≠ a := fun h => hn3 (show f.addr ∈ ctxAddrs (f :: fs) by simp [ctxAddrs])
      (by rw [h]; simp [BT.addrs])
    have hcnd2 : (ctxAddrs (f :: fs) ++ ch.addrs).Nodup := by
      rw [List.nodup_append]
      exact ⟨hn1, hcnd, fun b hb1 hb2 => hn3 hb1 (hcsub b hb2).1⟩
    have hcrep2 : Rep (DetachNodes f.addr a s1).mem ch (some a) := by
      refine rep_congr hcrep (fun b hb => d6.mem b ?_)
      simp only [List.mem_cons, List.not_mem_nil, or_false, not_or]
      exact ⟨fun h => hn3 (show b ∈ ctxAddrs (f :: fs) by simp [ctxAddrs, h]) (hcsub b hb).1,
        (hcsub b hb).2⟩
    obtain ⟨a1, a2, a3, a4⟩ := attach_sub (DetachNodes f.addr a s1) (f :: fs) ch (some a) d1 hcrep2
      hcnd2 (fun j hj => ordered_plug_side hord j (hckeys j hj)) (d3.trans hz.root) (by simp)
    simp only [parOf] at a1 a2 a3 a4
    refine ⟨_, rfl, zrep_free a a1, keeps_free a ?_, ?_, a4.trans d5, ?_, ?_⟩
    · refine keeps_trans d6 a2 ?_ ?_
      · intro b hb
        simp only [List.mem_cons, List.not_mem_nil, or_false] at hb
        rcases hb with rfl | rfl
        · simp [ctxAddrs]
        · simp [BT.addrs]
      · intro b hb
        rcases List.mem_append.1 hb with h | h
        · exact List.mem_append_right _ (hcsub b (ptr_mem_addrs h)).1
        · simp only [Option.toList, List.mem_singleton] at h
          simp [ctxAddrs, h]
    · show (AttachNodes (some f.addr) ch.ptr (DetachNodes f.addr a s1)).mem a = _
      rw [a2.mem a, d2]
      simp only [List.mem_append, Option.mem_toList, not_or]
      constructor
      · intro h
        exact (hcsub a (ptr_mem_addrs (by simpa using h))).2 rfl
      · simp [Option.mem_def, hfa]
    · show a :: (AttachNodes (some f.addr) ch.ptr (DetachNodes f.addr a s1)).freed = _
      rw [attachNodes_freed, detachNodes_freed]
    · show (AttachNodes (some f.addr) ch.ptr (DetachNodes f.addr a s1)).pFirst = _
      rw [a3, d4]
      cases ch.ptr <;> rfl

/-! ### Paths, continued -/

theorem plug_append (fs1 fs2 : Path) (t : BT) : plug (fs1 ++ fs2) t = plug fs2 (plug fs1 t) := by
  induction fs1 generalizing t with
  | nil => rfl
  | cons f fs1 ih => exact ih (f.fill t)

theorem walkUp_append (fs1 fs2 : Path) (t : BT) :
    walkUp (fs1 ++ fs2) t = walkUp fs2 (walkUp fs1 t) := by
  induction fs1 generalizing t with
  | nil => rfl
  | cons f fs1 ih => exact ih (f.fill t).fix

/-- Every node of a tree is the root of the subtree in the hole of some path. -/
theorem exists_path (T : BT) (a : Nat) (h : a ∈ T.addrs) :
    ∃ fs l k c x r, T = plug fs (.node l a k c x r) := by
  induction T with
  | nil => simp [BT.addrs] at h
  | node L b kb cb xb R ihL ihR =>
    simp only [BT.addrs, List.mem_append, List.mem_cons] at h
    rcases h with h | rfl | h
    · obtain ⟨fs, l, k, c, x, r, e⟩ := ihL h
      exact ⟨fs ++ [.L b kb cb xb R], l, k, c, x, r, by rw [plug_append, ← e]; rfl⟩
    · exact ⟨[], L, kb, cb, xb, R, rfl⟩
    · obtain ⟨fs, l, k, c, x, r, e⟩ := ihR h
      exact ⟨fs ++ [.R L b kb cb xb], l, k, c, x, r, by rw [plug_append, ← e]; rfl⟩

theorem plug_splitMax (fs : Path) (t : BT) :
    plug (splitMax fs t).1 (splitMax fs t).2 = plug fs t := by
  induction t generalizing fs with
  | nil => rfl
  | node l a k c x r _ ihr =>
    cases r with
    | nil => rfl
    | node rl b kb cb xb rr =>
      rw [splitMax, ihr]; rfl

theorem splitMax_node (fs : Path) (t : BT) (ht : t ≠ .nil) :
    ∃ pl p kp cp xp, (splitMax fs t).2 = .node pl p kp cp xp .nil := by
  induction t generalizing fs with
  | nil => exact absurd rfl ht
  | node l a k c x r _ ihr =>
    cases r with
    | nil => exact ⟨l, a, k, c, x, rfl⟩
    | node rl b kb cb xb rr =>
      rw [splitMax]; exact ihr _ (by simp)

theorem splitMax_last (fs : Path) (t : BT) : t.addrs.getLast? = (splitMax fs t).2.ptr := by
  induction t generalizing fs with
  | nil => rfl
  | node l a k c x r _ ihr =>
    cases r with
    | nil => simp [BT.addrs, splitMax, BT.ptr]
    | node rl b kb cb xb rr =>
      rw [splitMax, ← ihr, BT.addrs, show l.addrs ++ a :: (BT.node rl b kb cb xb rr).addrs =
        (l.addrs ++ [a]) ++ (BT.node rl b kb cb xb rr).addrs by simp, List.getLast?_append]
      have : (BT.node rl b kb cb xb rr).addrs.getLast? ≠ none := by simp [BT.addrs]
      cases h : (BT.node rl b kb cb xb rr).addrs.getLast? with
      | none => exact absurd h this
      | some y => rfl

/-! ### The freed addresses -/

theorem setHeight_freed (a : Nat) (s s' : State) (h : AVLSetHeight a s = some s') :
    s'.freed = s.freed := by
  unfold AVLSetHeight at h
  split at h
  · simp only [Option.some.injEq] at h; rw [← h]; rfl
  · simp at h

theorem callRotation_freed (a : Nat) (s s' : State) (h : callRotation a s = some s') :
    s'.freed = s.freed := by
  unfold callRotation at h
  split_ifs at h
  · unfold AVLRotationSetHeights at h
    split at h
    · simp at h
    · rename_i s1 h1
      have e1 := setHeight_freed _ _ _ h1
      split at h
      · simp only [Option.some.injEq] at h; rw [← h, e1]; rfl
      · rw [setHeight_freed _ _ _ h, e1]; rfl
  · simp only [Option.some.injEq] at h; rw [← h]

theorem leftRotation_freed (a : Nat) (s s' : State) (b : Nat)
    (h : LeftRotation a s = some (b, s')) : s'.freed = s.freed := by
  unfold LeftRotation at h
  split at h
  · simp at h
  · simp only at h
    split at h
    · simp at h
    · rename_i s5 h5
      simp only [Option.some.injEq, Prod.mk.injEq] at h
      rw [← h.2, callRotation_freed _ _ _ h5, attachNodes_freed, attachNodes_freed,
        attachNodes_freed]
      rfl

theorem rightRotation_freed (a : Nat) (s s' : State) (b : Nat)
    (h : RightRotation a s = some (b, s')) : s'.freed = s.freed := by
  unfold RightRotation at h
  split at h
  · simp at h
  · simp only at h
    split at h
    · simp at h
    · rename_i s5 h5
      simp only [Option.some.injEq, Prod.mk.injEq] at h
      rw [← h.2, callRotation_freed _ _ _ h5, attachNodes_freed, attachNodes_freed,
        attachNodes_freed]
      rfl

theorem balanceLoop_freed (fuel : Nat) : ∀ (p : Ptr) (s s' : State),
    AVLBalanceLoop fuel p s = some s' → s'.freed = s.freed := by
  induction fuel with
  | zero =>
    intro p s s' h
    cases p with
    | none => simp only [AVLBalanceLoop, Option.some.injEq] at h; rw [← h]
    | some a => simp [AVLBalanceLoop] at h
  | succ fuel ih =>
    intro p s s' h
    cases p with
    | none => simp only [AVLBalanceLoop, Option.some.injEq] at h; rw [← h]
    | some a =>
      rw [AVLBalanceLoop] at h
      split at h
      · simp at h
      · rename_i s1 h1
        have e1 := setHeight_freed _ _ _ h1
        split at h
        · simp at h
        · split_ifs at h
          · split at h
            · simp at h
            · split at h
              · simp at h
              · split_ifs at h
                · split at h
                  · simp at h
                  · rename_i pNew s2 h2
                    rw [ih _ _ _ h, rightRotation_freed _ _ _ _ h2, e1]
                · split at h
                  · simp at h
                  · rename_i q s2 h2
                    split at h
                    · simp at h
                    · rename_i pNew s3 h3
                      rw [ih _ _ _ h, rightRotation_freed _ _ _ _ h3,
                        leftRotation_freed _ _ _ _ h2, e1]
          · split at h
            · simp at h
            · split at h
              · simp at h
              · split_ifs at h
                · split at h
                  · simp at h
                  · rename_i pNew s2 h2
                    rw [ih _ _ _ h, leftRotation_freed _ _ _ _ h2, e1]
                · split at h
                  · simp at h
                  · rename_i q s2 h2
                    split at h
                    · simp at h
                    · rename_i pNew s3 h3
                      rw [ih _ _ _ h, leftRotation_freed _ _ _ _ h3,
                        rightRotation_freed _ _ _ _ h2, e1]
          · rw [ih _ _ _ h, e1]

theorem callRemove_freed (p : Ptr) (orig : Bool) (s s' : State)
    (h : callRemove p orig s = some s') : s'.freed = s.freed := by
  unfold callRemove at h
  split_ifs at h
  · rw [balanceLoop_freed _ _ _ _ h]; rfl
  · simp only [Option.some.injEq] at h; rw [← h]

/-- A call of `RemoveNode` that returns has freed the node it was given. -/
theorem removeNode_freed (fuel : Nat) (a : Nat) (orig : Bool) (s : State) (b : Bool)
    (s' : State) (h : RemoveNode fuel (some a) orig s = some (b, s')) : a ∈ s'.freed := by
  cases fuel with
  | zero => simp [RemoveNode] at h
  | succ fuel =>
    rw [RemoveNode] at h
    split at h
    · simp at h
    · rename_i s1 h1
      have fin : ∀ (p : Ptr) (s3 : State),
          (callRemove p orig (FreeNode a s3)).map (fun s4 => (true, s4)) = some (b, s') →
          a ∈ s'.freed := by
        intro p s3 h
        obtain ⟨s4, hc, h4⟩ := Option.map_eq_some'.1 h
        simp only [Prod.mk.injEq] at h4
        rw [← h4.2, callRemove_freed _ _ _ _ hc]
        simp [FreeNode]
      split_ifs at h
      · split at h
        · exact fin _ _ h
        · exact fin _ _ h
      · split at h
        · exact fin _ _ h
        · exact fin _ _ h
      · split at h
        · simp at h
        · split at h
          · simp at h
          · split_ifs at h
            exact fin _ _ h

/-- `RemoveNode` at a node with two children does not return: the node it takes
from the left subtree is freed by the inner call and then written. -/
theorem removeNode_two (fuel : Nat) (a : Nat) (orig : Bool) (s : State)
    (hl : (s.mem a).pLeftChild ≠ none) (hr : (s.mem a).pRightChild ≠ none) :
    RemoveNode fuel (some a) orig s = none := by
  cases fuel with
  | zero => rfl
  | succ fuel =>
    rw [RemoveNode]
    split
    · rfl
    · rename_i s1 h1
      have hm : s1.mem = s.mem := by
        split_ifs at h1
        · obtain ⟨q, -, hq⟩ := Option.map_eq_some'.1 h1
          rw [← hq]
        · simp only [Option.some.injEq] at h1; rw [← h1]
      rw [hm]
      simp only [hl, hr, or_self, if_false]
      cases hp : GetPrevious a s1 with
      | none => rfl
      | some pOther =>
        simp only []
        cases hi : RemoveNode fuel pOther false s1 with
        | none => rfl
        | some res =>
          obtain ⟨b, s2⟩ := res
          simp only []
          have hfree : s2.isFreed pOther = true := by
            cases pOther with
            | none =>
              exfalso
              unfold GetPrevious at hp
              rw [hm] at hp
              split at hp
              · obtain ⟨q, -, hq⟩ := Option.map_eq_some'.1 hp
                simp at hq
              · rename_i hnone
                exact hl hnone
            | some m =>
              have := removeNode_freed _ _ _ _ _ _ hi
              simp [State.isFreed, this]
          rw [if_pos hfree]

/-! ### The remove callback -/

theorem fix_of_avl (t : BT) (h : t.AVL) : t.fix = t := by
  cases t with
  | nil => rfl
  | node l a k c x r =>
    obtain ⟨-, -, hx, h1, h2⟩ := h
    have e1 : ¬ l.height - r.height > 1 := by omega
    have e2 : ¬ l.height - r.height < -1 := by omega
    simp only [BT.fix, e1, e2, if_false, BT.mk, hx]

theorem callRemove_nohooks (p : Ptr) (orig : Bool) (s : State) (h : NoHooks s) :
    callRemove p orig s = some s := by
  simp [callRemove, h.2.2.1]

theorem callRemove_up (s : State) (fs : Path) (t : BT) (h : Int) (orig : Bool)
    (hz : ZRep s fs t) (hnd : (ctxAddrs fs ++ t.addrs).Nodup)
    (hord : (plug fs t).Ordered) (hfuel : fs.length ≤ s.brk)
    (hh : NoHooks s ∨ (AVLHooks s ∧ t.AVL ∧ CtxAVL fs h ∧ t.height - h ≤ 1 ∧ h - t.height ≤ 1)) :
    ∃ s', callRemove (parOf fs) orig s = some s' ∧ ZRep s' [] (reb s.cbRemove fs t) ∧
      Keeps s s' (plug fs t).addrs ∧
      (s.pFirst = (plug fs t).addrs.head? → s'.pFirst = s.pFirst) := by
  rcases hh with hh | ⟨hh, ht, hc, h1, h2⟩
  · refine ⟨s, callRemove_nohooks _ _ _ hh, ?_, keeps_refl _ _, fun _ => rfl⟩
    rw [reb, hh.2.2.1]
    exact (zrep_nil_iff s fs t).2 hz
  · obtain ⟨s', hs', hz', hk', hf', -⟩ := walk_spec fs (s.record (.cbRemove (parOf fs) orig)) t h
      s.brk (zrep_record _ hz) hnd hord hh.2.2.2 ht hc h1 h2 hfuel
    refine ⟨s', ?_, ?_, ?_, hf'⟩
    · rw [callRemove, hh.2.2.1]
      exact hs'
    · rw [reb, hh.2.2.1]; exact hz'
    · exact ⟨hk'.nSize, hk'.nIterators, hk'.cbAllocNode, hk'.cbInsert, hk'.cbRemove,
        hk'.cbRotation, hk'.brk, hk'.mem⟩

theorem callRemove_at (s : State) (fs : Path) (l : BT) (a : Nat) (k : Int) (c : Ptr)
    (x : Option Int) (r : BT) (h : Int) (orig : Bool)
    (hz : ZRep s fs (.node l a k c x r))
    (hnd : (ctxAddrs fs ++ (BT.node l a k c x r).addrs).Nodup)
    (hord : (plug fs (.node l a k c x r)).Ordered) (hfuel : fs.length + 1 ≤ s.brk)
    (hh : NoHooks s ∨ (AVLHooks s ∧ l.AVL ∧ r.AVL ∧ x.isSome ∧ l.height - r.height ≤ 2 ∧
      r.height - l.height ≤ 2 ∧ CtxAVL fs h ∧
      (BT.node l a k c x r).fix.height - h ≤ 1 ∧ h - (BT.node l a k c x r).fix.height ≤ 1)) :
    ∃ s', callRemove (some a) orig s = some s' ∧
      ZRep s' [] (rebAt s.cbRemove fs (.node l a k c x r)) ∧
      Keeps s s' (plug fs (.node l a k c x r)).addrs ∧
      (s.pFirst = (plug fs (.node l a k c x r)).addrs.head? → s'.pFirst = s.pFirst) := by
  rcases hh with hh | ⟨hh, hl, hr, hx, hb1, hb2, hc, h1, h2⟩
  · refine ⟨s, callRemove_nohooks _ _ _ hh, ?_, keeps_refl _ _, fun _ => rfl⟩
    rw [rebAt, hh.2.2.1]
    exact (zrep_nil_iff s fs _).2 hz
  · obtain ⟨n, hn⟩ : ∃ n, s.brk = n + 1 := ⟨s.brk - 1, by omega⟩
    obtain ⟨s1, hs1, hz1, hk1, hf1, -⟩ := fix_step (s.record (.cbRemove (some a) orig)) fs l a k c x r
      n (zrep_record _ hz) hnd hord hh.2.2.2 hx hl hr
    obtain ⟨e1, -⟩ := fix_avl l a k c x r hl hr hb1 hb2
    obtain ⟨s', hs', hz', hk', hf', -⟩ := walk_spec fs s1 (BT.node l a k c x r).fix h n hz1
      (by rw [addrs_fix]; exact hnd) (ordered_plug_keys hord (keys_fix _))
      (hk1.cbRotation.trans hh.2.2.2) e1 hc h1 h2 (by omega)
    have hA : (plug fs (BT.node l a k c x r).fix).addrs = (plug fs (.node l a k c x r)).addrs := by
      rw [addrs_plug, addrs_plug, addrs_fix]
    refine ⟨s', ?_, ?_, ?_, fun hF => ?_⟩
    · rw [callRemove, hh.2.2.1]
      simp only [if_true, AVLRemoveBalance, AVLBalance]
      show AVLBalanceLoop s.brk _ _ = _
      rw [hn, hs1, hs']
    · rw [rebAt, hh.2.2.1]; exact hz'
    · have k1 : Keeps s s1 (plug fs (.node l a k c x r)).addrs :=
        ⟨hk1.nSize, hk1.nIterators, hk1.cbAllocNode, hk1.cbInsert, hk1.cbRemove,
          hk1.cbRotation, hk1.brk, fun b hb => hk1.mem b (fun h' => hb
            ((mem_addrs_plug fs _ b).2 (List.mem_append.1 h')))⟩
      exact keeps_trans k1 hk' (fun _ h => h) (fun b hb => by rw [hA] at hb; exact hb)
    · have e1 : s1.pFirst = s.pFirst := hf1 hF
      rw [hf' (by rw [e1, hA]; exact hF), e1]
/-! ### Removal of a node with at most one child, callback included -/

theorem height_leaflike {l r : BT} {a : Nat} {k : Int} {c : Ptr} {x : Option Int}
    (hlr : l = .nil ∨ r = .nil) :
    (if l = .nil then r else l).height = (BT.node l a k c x r).height - 1 := by
  rcases hlr with rfl | rfl
  · have := height_ge r
    simp only [if_true, BT.height]; omega
  · have := height_ge l
    by_cases hl : l = .nil
    · subst hl; simp [BT.height]
    · simp only [if_neg hl, BT.height]; omega

theorem head_drop_mid (X Y : List Nat) (a : Nat) (p : Ptr) (hnd : (X ++ a :: Y).Nodup)
    (hp : p = (X ++ a :: Y).head?) :
    (if p = some a then Y.head? else p) = (X ++ Y).head? := by
  subst hp
  cases X with
  | nil => simp
  | cons x X' =>
    have : x ≠ a := by
      intro h
      subst h
      simp at hnd
    simp [this]

/-- The first statement of `RemoveNode`, with the value it gives `pFirst`. -/
theorem remove_first_val (s : State) (T : BT) (fs : Path) (l : BT) (a : Nat) (k : Int)
    (c : Ptr) (x : Option Int) (r : BT) (hs : Shape s T) (ho : T.Ordered)
    (hT : plug fs (.node l a k c x r) = T) :
    (if s.pFirst = some a then (GetNext a s).map (fun p => { s with pFirst := p })
      else some s) = some { s with pFirst :=
        (if s.pFirst = some a then (r.addrs ++ addrsAfter fs).head? else s.pFirst) } := by
  by_cases h : s.pFirst = some a
  · rw [if_pos h, if_pos h, getNext_spec s T fs l a k c x r hs ho hT]
    rfl
  · rw [if_neg h, if_neg h]

theorem addrs_leaflike {l r : BT} (hlr : l = .nil ∨ r = .nil) :
    (if l = .nil then r else l).addrs = l.addrs ++ r.addrs := by
  rcases hlr with rfl | rfl
  · simp [BT.addrs]
  · by_cases hl : l = .nil
    · subst hl; simp [BT.addrs]
    · simp [hl, BT.addrs]

theorem remove_leaflike (s : State) (T : BT) (fs : Path) (l : BT) (a : Nat) (k : Int) (c : Ptr)
    (x : Option Int) (r : BT) (orig : Bool) (fuel : Nat)
    (hs : Shape s T) (ho : T.Ordered) (hh : NoHooks s ∨ (AVLHooks s ∧ T.AVL))
    (hT : plug fs (.node l a k c x r) = T) (hlr : l = .nil ∨ r = .nil) :
    ∃ s', RemoveNode (fuel + 1) (some a) orig s = some (true, s') ∧
      ZRep s' [] (reb s.cbRemove fs (if l = .nil then r else l)) ∧
      Keeps s s' T.addrs ∧ s'.mem a = ⟨l.ptr, r.ptr, none, k, c, x⟩ ∧
      (s.pFirst = T.addrs.head? →
        s'.pFirst = (plug fs (if l = .nil then r else l)).addrs.head?) := by
  have hstep := remove_first_val s T fs l a k c x r hs ho hT
  generalize hf1 : (if s.pFirst = some a then (r.addrs ++ addrsAfter fs).head?
    else s.pFirst) = f1 at hstep
  have hz := shape_zrep hs fs _ hT
  have hz1 : ZRep { s with pFirst := f1 } fs (.node l a k c x r) := ⟨hz.root, hz.ctx, hz.sub⟩
  have hndT : (plug fs (.node l a k c x r)).addrs.Nodup := by rw [hT]; exact hs.nodup
  have hnd := (nodup_plug _ _).1 hndT
  have hord : (plug fs (.node l a k c x r)).Ordered := by rw [hT]; exact ho
  have hlen := length_le_brk hs fs _ hT
  obtain ⟨s3, hrm, hz3, hk3, hma, hc3, -, hpf3⟩ := remove_simple s _ fs l a k c x r orig fuel
    hstep hz1 hnd hord hlr
  have hk3' : Keeps s s3 T.addrs :=
    ⟨hk3.nSize, hk3.nIterators, hk3.cbAllocNode, hk3.cbInsert, hk3.cbRemove, hk3.cbRotation,
      hk3.brk, fun b hb => hk3.mem b (fun h' => hb (by
        rw [← hT]; exact (mem_addrs_plug fs _ b).2 (List.mem_append.1 h')))⟩
  have hcsub : ∀ b ∈ (if l = .nil then r else l).addrs, b ∈ (BT.node l a k c x r).addrs ∧ b ≠ a := by
    obtain ⟨-, -, hal, har, -⟩ := nodup_node.1 (List.nodup_append.1 hnd).2.1
    intro b hb
    by_cases hl : l = .nil
    · rw [if_pos hl] at hb
      exact ⟨by simp [BT.addrs, hb], fun h => har (h ▸ hb)⟩
    · rw [if_neg hl] at hb
      exact ⟨by simp [BT.addrs, hb], fun h => hal (h ▸ hb)⟩
  have hckeys : (if l = .nil then r else l).keys.Sublist (BT.node l a k c x r).keys := by
    by_cases hl : l = .nil
    · rw [if_pos hl]; simp [BT.keys]
    · rw [if_neg hl]; simp [BT.keys]
  have hcaddrs : (if l = .nil then r else l).addrs.Sublist (BT.node l a k c x r).addrs := by
    by_cases hl : l = .nil
    · rw [if_pos hl]; simp [BT.addrs]
    · rw [if_neg hl]; simp [BT.addrs]
  have hnd3 : (ctxAddrs fs ++ (if l = .nil then r else l).addrs).Nodup :=
    hnd.sublist (List.Sublist.append_left hcaddrs _)
  have hord3 : (plug fs (if l = .nil then r else l)).Ordered := by
    rw [ordered_iff, keys_plug] at hord ⊢
    exact hord.sublist ((List.Sublist.append_left hckeys _).append_right _)
  have hsubT : ∀ b ∈ (plug fs (if l = .nil then r else l)).addrs, b ∈ T.addrs ∧ b ≠ a := by
    intro b hb
    rcases (mem_addrs_plug fs _ b).1 hb with h | h
    · refine ⟨by rw [← hT]; exact (mem_addrs_plug fs _ b).2 (Or.inl h), ?_⟩
      rintro rfl
      exact (List.nodup_append.1 hnd).2.2 h (by simp [BT.addrs])
    · exact ⟨by rw [← hT]; exact (mem_addrs_plug fs _ b).2 (Or.inr (hcsub b h).1), (hcsub b h).2⟩
  have hF3 : s.pFirst = T.addrs.head? →
      s3.pFirst = (plug fs (if l = .nil then r else l)).addrs.head? := by
    intro hF
    have hX : T.addrs = (addrsBefore fs ++ l.addrs) ++ a :: (r.addrs ++ addrsAfter fs) := by
      rw [← hT, addrs_plug]; simp [BT.addrs]
    have hY : (plug fs (if l = .nil then r else l)).addrs =
        (addrsBefore fs ++ l.addrs) ++ (r.addrs ++ addrsAfter fs) := by
      rw [addrs_plug, addrs_leaflike hlr]; simp
    have hf1' : f1 = (plug fs (if l = .nil then r else l)).addrs.head? := by
      rw [hY, ← hf1]
      exact head_drop_mid _ _ a _ (hX ▸ hs.nodup) (hF.trans (congrArg _ hX))
    rw [hpf3]
    show firstSplice fs (if l = .nil then r else l).ptr f1 = _
    cases fs with
    | nil =>
      rw [← hf1']
      cases (if l = .nil then r else l).ptr <;> rfl
    | cons f fs' =>
      cases hc : (if l = .nil then r else l).ptr with
      | none => exact hf1'
      | some cn =>
        show firstAttach (f :: fs') cn f1 = _
        rw [firstAttach_head (f :: fs') (if l = .nil then r else l) cn f1 hf1'
          (fun h => by rw [h] at hc; simp [BT.ptr] at hc) hnd3]
        exact hf1'
  have hh3 : NoHooks s3 ∨ (AVLHooks s3 ∧ T.AVL) := by
    rcases hh with h | ⟨h, hT'⟩
    · exact Or.inl ⟨hk3.cbAllocNode.trans h.1, hk3.cbInsert.trans h.2.1,
        hk3.cbRemove.trans h.2.2.1, hk3.cbRotation.trans h.2.2.2⟩
    · exact Or.inr ⟨⟨hk3.cbAllocNode.trans h.1, hk3.cbInsert.trans h.2.1,
        hk3.cbRemove.trans h.2.2.1, hk3.cbRotation.trans h.2.2.2⟩, hT'⟩
  have hcb : s3.cbRemove = s.cbRemove := hk3.cbRemove
  have finish : ∀ s', ZRep s' [] (reb s3.cbRemove fs (if l = .nil then r else l)) →
      Keeps s3 s' (plug fs (if l = .nil then r else l)).addrs →
      (s3.pFirst = (plug fs (if l = .nil then r else l)).addrs.head? →
        s'.pFirst = s3.pFirst) →
      ZRep s' [] (reb s.cbRemove fs (if l = .nil then r else l)) ∧
      Keeps s s' T.addrs ∧ s'.mem a = ⟨l.ptr, r.ptr, none, k, c, x⟩ ∧
      (s.pFirst = T.addrs.head? →
        s'.pFirst = (plug fs (if l = .nil then r else l)).addrs.head?) := by
    intro s' hz' hk' hf'
    refine ⟨hcb ▸ hz', keeps_trans hk3' hk' (fun _ h => h) (fun b hb => (hsubT b hb).1), ?_,
      fun hF => by rw [hf' (hF3 hF)]; exact hF3 hF⟩
    rw [hk'.mem a (fun h => (hsubT a h).2 rfl), hma]
  have havl : T.AVL → (if l = .nil then r else l).AVL ∧
      CtxAVL fs (BT.node l a k c x r).height := by
    intro hT'
    obtain ⟨h1, h2⟩ := avl_plug fs _ (hT ▸ hT')
    refine ⟨?_, h2⟩
    by_cases hl : l = .nil
    · rw [if_pos hl]; exact h1.2.1
    · rw [if_neg hl]; exact h1.1
  cases fs with
  | nil =>
    simp only at hrm
    cases hch : (if l = .nil then r else l) with
    | nil =>
      rw [hch] at hz3 hrm hnd3 hord3
      obtain ⟨s', hs', hz', hk', hf'⟩ := callRemove_up s3 [] .nil (-1) orig hz3 hnd3 hord3
        (by simp)
        (hh3.imp id (fun h => ⟨h.1, trivial, trivial, by simp [BT.height], by simp [BT.height]⟩))
      simp only [parOf] at hs'
      refine ⟨s', by rw [hrm]; simp only [BT.ptr, hs', Option.map_some'], ?_⟩
      have := finish s' (by rw [hch]; exact hz') (by rw [hch]; exact hk')
        (by rw [hch]; exact hf')
      rw [hch] at this
      exact this
    | node cl cn ck cc cx cr =>
      rw [hch] at hz3 hrm hnd3 hord3
      have hcavl : T.AVL → (BT.node cl cn ck cc cx cr).AVL := fun h => by
        have := (havl h).1; rw [hch] at this; exact this
      obtain ⟨s', hs', hz', hk', hf'⟩ := callRemove_at s3 [] cl cn ck cc cx cr
        (BT.node cl cn ck cc cx cr).fix.height orig hz3 hnd3 hord3
        (by have hb : s3.brk = s.brk := hk3.brk
            simp only [List.length_nil, BT.size] at hlen ⊢; rw [hb]; omega)
        (hh3.imp id (fun h => ⟨h.1, (hcavl h.2).1, (hcavl h.2).2.1, avl_isSome (hcavl h.2),
          by have := (hcavl h.2).2.2.2.1; omega, by have := (hcavl h.2).2.2.2.2; omega,
          trivial, by omega, by omega⟩))
      refine ⟨s', by rw [hrm]; simp only [BT.ptr, hs', Option.map_some'], ?_⟩
      have hreb : rebAt s3.cbRemove [] (BT.node cl cn ck cc cx cr) =
          reb s3.cbRemove [] (BT.node cl cn ck cc cx cr) := by
        rcases hh3 with h | ⟨h, hT'⟩
        · simp [rebAt, reb, h.2.2.1]
        · simp only [rebAt, reb, h.2.2.1, if_true, walkUp]
          exact fix_of_avl _ (hcavl hT')
      rw [hreb] at hz'
      have := finish s' (by rw [hch]; exact hz') (by rw [hch]; exact hk')
        (by rw [hch]; exact hf')
      rw [hch] at this
      exact this
  | cons f fs =>
    simp only at hrm
    obtain ⟨s', hs', hz', hk', hf'⟩ := callRemove_up s3 (f :: fs) _ (BT.node l a k c x r).height orig
      hz3 hnd3 hord3 (by have hb : s3.brk = s.brk := hk3.brk
                         rw [hb]; omega)
      (hh3.imp id (fun h => ⟨h.1, (havl h.2).1, (havl h.2).2,
        by have := @height_leaflike l r a k c x hlr
           omega,
        by have := @height_leaflike l r a k c x hlr
           omega⟩))
    simp only [parOf] at hs'
    exact ⟨s', by rw [hrm, hs']; rfl, finish s' hz' hk' hf'⟩
/-! ### The tree after a removal, as a list of items -/

theorem reb_items (avl : Bool) (fs : Path) (t : BT) :
    (reb avl fs t).items = itemsBefore fs ++ t.items ++ itemsAfter fs := by
  cases avl
  · simp only [reb, Bool.false_eq_true, if_false, items_plug]
  · simp only [reb, if_true, items_walkUp, items_plug]

theorem rebAt_items (avl : Bool) (fs : Path) (t : BT) :
    (rebAt avl fs t).items = itemsBefore fs ++ t.items ++ itemsAfter fs := by
  cases avl
  · simp only [rebAt, Bool.false_eq_true, if_false, items_plug]
  · simp only [rebAt, if_true, items_walkUp, items_plug, items_fix]

theorem items_leaflike {l r : BT} (hlr : l = .nil ∨ r = .nil) :
    (if l = .nil then r else l).items = l.items ++ r.items := by
  rcases hlr with rfl | rfl
  · simp [BT.items]
  · by_cases hl : l = .nil
    · subst hl; simp [BT.items]
    · simp [hl, BT.items]

theorem reb_leaflike_avl (fs : Path) (l : BT) (a : Nat) (k : Int) (c : Ptr) (x : Option Int)
    (r : BT) (hlr : l = .nil ∨ r = .nil) (h : (plug fs (.node l a k c x r)).AVL) :
    (reb true fs (if l = .nil then r else l)).AVL := by
  obtain ⟨h1, h2⟩ := avl_plug fs _ h
  have hc : (if l = .nil then r else l).AVL := by
    by_cases hl : l = .nil
    · rw [if_pos hl]; exact h1.2.1
    · rw [if_neg hl]; exact h1.1
  have hh := @height_leaflike l r a k c x hlr
  simp only [reb, if_true]
  exact walkUp_avl fs _ _ hc h2 (by omega) (by omega)

theorem sublist_drop_mid {α : Type} (X Y : List α) (q : α) : (X ++ Y).Sublist (X ++ q :: Y) :=
  List.Sublist.append_left (List.sublist_cons_self q Y) X

/-! ### `RemoveNode` and `Remove` on a well-formed tree -/

theorem addrs_reb (avl : Bool) (fs : Path) (t : BT) : (reb avl fs t).addrs = (plug fs t).addrs := by
  cases avl
  · simp only [reb, Bool.false_eq_true, if_false]
  · simp only [reb, if_true, addrs_walkUp]

theorem removeNode_splice (s : State) (T : BT) (fs : Path) (l : BT) (a : Nat) (k : Int) (c : Ptr)
    (x : Option Int) (r : BT) (orig : Bool) (fuel : Nat)
    (hs : Shape s T) (ho : T.Ordered) (hh : NoHooks s ∨ (AVLHooks s ∧ T.AVL))
    (hT : plug fs (.node l a k c x r) = T) (hlr : l = .nil ∨ r = .nil) :
    ∃ s' T', RemoveNode (fuel + 1) (some a) orig s = some (true, s') ∧ ZRep s' [] T' ∧
      Keeps s s' T.addrs ∧ (∃ X Y, T.items = X ++ (a, k, c) :: Y ∧ T'.items = X ++ Y) ∧
      (AVLHooks s → T'.AVL) ∧ (s.pFirst = T.addrs.head? → s'.pFirst = T'.addrs.head?) := by
  obtain ⟨s', h1, h2, h3, -, h5⟩ := remove_leaflike s T fs l a k c x r orig fuel hs ho hh hT hlr
  refine ⟨s', _, h1, h2, h3, ⟨itemsBefore fs ++ l.items, r.items ++ itemsAfter fs, ?_, ?_⟩, ?_,
    fun hF => by rw [addrs_reb]; exact h5 hF⟩
  · rw [← hT, items_plug]; simp [BT.items]
  · rw [reb_items, items_leaflike hlr]; simp
  · intro hA
    rcases hh with h | ⟨-, h⟩
    · exact absurd hA.2.2.1 (by rw [h.2.2.1]; simp)
    · rw [hA.2.2.1]
      exact reb_leaflike_avl fs l a k c x r hlr (hT ▸ h)

/-- `Remove` of a key held by a node with two children does not return. -/
theorem remove_two_none (k : Int) (s : State) (T : BT) (hs : Shape s T)
    (h2 : TwoChildren k T) : Remove k s = none := by
  unfold TwoChildren at h2
  rcases locate_key k [] T with h | ⟨l, a, c, x, r, hn⟩
  · rw [h] at h2; exact absurd h2 (by simp)
  rw [hn] at h2
  have hT : plug (locate k [] T).1 (.node l a k c x r) = T := by
    rw [← hn]; exact plug_locate k [] T
  have hm := (shape_zrep hs _ _ hT).sub.1
  rw [Remove, searchNode_eq k s T hs, hn]
  simp only [BT.ptr]
  rw [removeNode_two (s.brk + 1) a true s (by rw [hm]; simpa [ptr_eq_none] using h2.1)
    (by rw [hm]; simpa [ptr_eq_none] using h2.2)]

/-- `Remove` of a key held by a node with two children, on a well-formed tree,
comes to use a freed node: the inner call returns and has freed the node that is
linked in next. -/
theorem remove_uses_freed (k : Int) (s : State) (T : BT) (hg : Good s T)
    (h2 : TwoChildren k T) : UsesFreed k s := by
  unfold TwoChildren at h2
  rcases locate_key k [] T with h | ⟨l, a, c, x, r, hn⟩
  · rw [h] at h2; exact absurd h2 (by simp)
  rw [hn] at h2
  obtain ⟨hl, hr⟩ := h2
  have hs := hg.shape
  have ho := hg.ordered
  have hT : plug (locate k [] T).1 (.node l a k c x r) = T := by
    rw [← hn]; exact plug_locate k [] T
  generalize (locate k [] T).1 = fs at hT
  have hstep := remove_first_val s T fs l a k c x r hs ho hT
  generalize (if s.pFirst = some a then (r.addrs ++ addrsAfter fs).head?
    else s.pFirst) = f1 at hstep
  have hs1 : Shape { s with pFirst := f1 } T :=
    ⟨⟨hs.rep.root, hs.rep.ctx, hs.rep.sub⟩, hs.nodup, hs.lt_brk⟩
  have hm := (shape_zrep hs1 fs _ hT).sub.1
  obtain ⟨pl, p, kp, cp, xp, hsm⟩ := splitMax_node (.L a k c x r :: fs) l hl
  have hTp : plug (splitMax (.L a k c x r :: fs) l).1 (.node pl p kp cp xp .nil) = T := by
    rw [← hsm, plug_splitMax]; exact hT
  have hprev : GetPrevious a { s with pFirst := f1 } = some (some p) := by
    rw [getPrevious_spec _ T fs l a k c x r hs1 ho hT, List.getLast?_append]
    have h1 := splitMax_last (.L a k c x r :: fs) l
    rw [hsm] at h1
    rw [h1]; rfl
  have hbrk : 1 ≤ s.brk := by
    have h1 := length_le_brk hs _ _ hT
    simp only [BT.size] at h1
    omega
  obtain ⟨n, hn'⟩ : ∃ n, s.brk = n + 1 := ⟨s.brk - 1, by omega⟩
  obtain ⟨s2, T2, hrm, -⟩ := removeNode_splice { s with pFirst := f1 } T _ pl p kp cp xp .nil
    false n hs1 ho hg.hooks hTp (Or.inr rfl)
  refine ⟨a, _, p, s2, ?_, hstep, ?_, ?_, hprev, ?_, ?_⟩
  · rw [searchNode_eq k s T hs, hn]; rfl
  · rw [hm]; simpa [ptr_eq_none] using hl
  · rw [hm]; simpa [ptr_eq_none] using hr
  · have e : RemoveNode s.brk (some p) false { s with pFirst := f1 } =
        RemoveNode (n + 1) (some p) false { s with pFirst := f1 } := by rw [hn']
    rw [e]; exact hrm
  · have := removeNode_freed _ _ _ _ _ _ hrm
    simp [State.isFreed, this]

/-- `Remove` of a key held by a node with at most one child, on a well-formed
tree. -/
theorem remove_good (k : Int) (s : State) (T : BT) (hg : Good s T) (hk : k ∈ T.keys)
    (h2 : ¬ TwoChildren k T) :
    ∃ s' T', Remove k s = some (true, s') ∧ Good s' T' ∧
      (∃ xs c ys, T.toList = xs ++ (k, c) :: ys ∧ T'.toList = xs ++ ys) ∧
      s'.nIterators = s.nIterators ∧ (NoHooks s → NoHooks s') ∧ (AVLHooks s → AVLHooks s') ∧
      (s.pFirst = T.addrs.head? → s'.pFirst = T'.addrs.head?) := by
  have hloc : (locate k [] T).2 ≠ .nil := fun h => (locate_nil_iff k [] T hg.ordered).1 h hk
  rcases locate_key k [] T with h | ⟨l, a, c, x, r, hn⟩
  · exact absurd h hloc
  have hT : plug (locate k [] T).1 (.node l a k c x r) = T := by
    rw [← hn]; exact plug_locate k [] T
  have hlr : l = .nil ∨ r = .nil := by
    rw [TwoChildren, hn] at h2
    by_cases hl : l = .nil
    · exact Or.inl hl
    · exact Or.inr (by_contra fun hr => h2 ⟨hl, hr⟩)
  obtain ⟨s1, T', hrm, hz, hkp, ⟨X, Y, hX, hY⟩, havl, hpf⟩ := removeNode_splice s T _ l a k c x r
    true s.brk hg.shape hg.ordered hg.hooks hT hlr
  have hTa : T.addrs = X.map (·.1) ++ a :: Y.map (·.1) := by
    rw [← items_addrs, hX]; simp
  have hTa' : T'.addrs = X.map (·.1) ++ Y.map (·.1) := by
    rw [← items_addrs, hY]; simp
  have hTk : T.keys = X.map (·.2.1) ++ k :: Y.map (·.2.1) := by
    rw [← items_keys, hX]; simp
  have hTk' : T'.keys = X.map (·.2.1) ++ Y.map (·.2.1) := by
    rw [← items_keys, hY]; simp
  have hnS : NoHooks s → NoHooks s1 := fun h =>
    ⟨hkp.cbAllocNode.trans h.1, hkp.cbInsert.trans h.2.1, hkp.cbRemove.trans h.2.2.1,
      hkp.cbRotation.trans h.2.2.2⟩
  have hnA : AVLHooks s → AVLHooks s1 := fun h =>
    ⟨hkp.cbAllocNode.trans h.1, hkp.cbInsert.trans h.2.1, hkp.cbRemove.trans h.2.2.1,
      hkp.cbRotation.trans h.2.2.2⟩
  refine ⟨{ s1 with nSize := s1.nSize - 1 }, T', ?_, ⟨⟨⟨hz.root, hz.ctx, hz.sub⟩, ?_, ?_⟩, ?_, ?_, ?_⟩,
    ⟨X.map (·.2), c, Y.map (·.2), ?_, ?_⟩, hkp.nIterators, hnS, hnA, hpf⟩
  · rw [Remove, searchNode_eq k s T hg.shape, hn]
    simp only [BT.ptr, hrm]
  · have := hg.shape.nodup
    rw [hTa] at this
    rw [hTa']
    exact this.sublist (sublist_drop_mid _ _ a)
  · intro b hb
    have hb' : b ∈ T.addrs := by
      rw [hTa'] at hb
      rw [hTa]
      simp only [List.mem_append, List.mem_cons] at hb ⊢
      tauto
    have := hg.shape.lt_brk b hb'
    have hb2 : s1.brk = s.brk := hkp.brk
    show b < s1.brk
    omega
  · have := (ordered_iff T).1 hg.ordered
    rw [hTk] at this
    rw [ordered_iff, hTk']
    exact this.sublist (sublist_drop_mid _ _ k)
  · show s1.nSize - 1 = T'.size
    rw [hkp.nSize, hg.size, size_eq_length, size_eq_length, hTa, hTa']
    simp
    omega
  · rcases hg.hooks with h | ⟨h, -⟩
    · exact Or.inl (hnS h)
    · exact Or.inr ⟨hnA h, havl h⟩
  · rw [← items_toList, hX]; simp
  · rw [← items_toList, hY]; simp
/-! ### Sequences of calls on a new tree -/

theorem good_newTree (avl : Bool) : Good (newTree avl) .nil := by
  cases avl
  · exact ⟨⟨⟨rfl, trivial, trivial⟩, List.nodup_nil, fun a ha => by simp [BT.addrs] at ha⟩,
      trivial, rfl, Or.inl ⟨rfl, rfl, rfl, rfl⟩⟩
  · exact ⟨⟨⟨rfl, trivial, trivial⟩, List.nodup_nil, fun a ha => by simp [BT.addrs] at ha⟩,
      trivial, rfl, Or.inr ⟨⟨rfl, rfl, rfl, rfl⟩, trivial⟩⟩

theorem good_insertStart (k : Int) (c : Ptr) (s : State) (T : BT) (hg : Good s T) :
    Good (insertStart k c s) T := by
  have hs := hg.shape
  refine ⟨⟨⟨hs.rep.root, trivial, ?_⟩, hs.nodup, fun a ha => ?_⟩, hg.ordered, hg.size, ?_⟩
  · refine rep_congr hs.rep.sub (fun a ha => ?_)
    rw [insertStart_mem]
    exact update_of_mem ha (shape_fresh hs)
  · have := hs.lt_brk a ha
    show a < s.brk + 1
    omega
  · exact hg.hooks.imp (fun h => ⟨h.1, h.2.1, h.2.2.1, h.2.2.2⟩)
      (fun h => ⟨⟨h.1.1, h.1.2.1, h.1.2.2.1, h.1.2.2.2⟩, h.2⟩)

theorem good_free (a : Nat) {s : State} {T : BT} (hg : Good s T) : Good (FreeNode a s) T :=
  ⟨⟨⟨hg.shape.rep.root, hg.shape.rep.ctx, hg.shape.rep.sub⟩, hg.shape.nodup, hg.shape.lt_brk⟩,
    hg.ordered, hg.size, hg.hooks⟩

/-- One call on a well-formed tree: it returns and leaves a well-formed tree with
`pFirst` on the first node, or it is the `Remove` of a key held by a node with two
children and does not return. -/
theorem good_applyOp (op : Op) (s : State) (T : BT) (hg : Good s T)
    (hf : s.pFirst = T.addrs.head?) :
    (∃ b s' T', applyOp op s = some (b, s') ∧ Good s' T' ∧ s'.pFirst = T'.addrs.head? ∧
      (AVLHooks s → AVLHooks s')) ∨
    (applyOp op s = none ∧ ∃ k, op = .remove k ∧ TwoChildren k T ∧ UsesFreed k s) := by
  cases op with
  | insert k c =>
    left
    by_cases hk : k ∈ T.keys
    · exact ⟨false, _, T, insert_dup k c s T hg.shape hg.ordered hk,
        good_free s.brk (good_insertStart k c s T hg), hf,
        fun h => ⟨h.1, h.2.1, h.2.2.1, h.2.2.2⟩⟩
    · obtain ⟨s', T', h1, h2, -, -, h4, -, h3⟩ := insert_good k c s T hg hk
      exact ⟨true, s', T', h1, h2, h4 hf, h3⟩
  | remove k =>
    by_cases hk : k ∈ T.keys
    · by_cases h2 : TwoChildren k T
      · exact Or.inr ⟨remove_two_none k s T hg.shape h2, k, rfl, h2,
          remove_uses_freed k s T hg h2⟩
      · obtain ⟨s', T', h1, h2, -, -, -, h3, h4⟩ := remove_good k s T hg hk h2
        exact Or.inl ⟨true, s', T', h1, h2, h4 hf, h3⟩
    · exact Or.inl ⟨false, s, T, remove_absent k s T hg.shape hg.ordered hk, hg, hf, id⟩

theorem runOps_append (ops1 ops2 : List Op) (s : State) :
    runOps (ops1 ++ ops2) s = (runOps ops1 s).bind (runOps ops2) := by
  induction ops1 generalizing s with
  | nil => rfl
  | cons op ops1 ih =>
    simp only [List.cons_append, runOps]
    cases applyOp op s with
    | none => rfl
    | some r => exact ih r.2

/-- A sequence of calls on a well-formed tree: it returns and leaves a well-formed
tree with `pFirst` on the first node, or it does not return and the first call
that does not return is the `Remove` of a key held by a node with two children. -/
theorem good_runOps (ops : List Op) (s : State) (T : BT) (hg : Good s T)
    (hf : s.pFirst = T.addrs.head?) :
    (∃ s' T', runOps ops s = some s' ∧ Good s' T' ∧ s'.pFirst = T'.addrs.head? ∧
      (AVLHooks s → AVLHooks s')) ∨
    (runOps ops s = none ∧ ∃ ops1 k ops2 s1 T1, ops = ops1 ++ .remove k :: ops2 ∧
      runOps ops1 s = some s1 ∧ Good s1 T1 ∧ s1.pFirst = T1.addrs.head? ∧
      (AVLHooks s → AVLHooks s1) ∧ TwoChildren k T1 ∧ UsesFreed k s1 ∧
      Remove k s1 = none) := by
  induction ops generalizing s T with
  | nil => exact Or.inl ⟨s, T, rfl, hg, hf, id⟩
  | cons op ops ih =>
    rcases good_applyOp op s T hg hf with ⟨b, s1, T1, h1, h2, h3, h4⟩ | ⟨h1, k, rfl, h2, hu⟩
    · rcases ih s1 T1 h2 h3 with ⟨s', T', h5, h6, h7, h8⟩ |
        ⟨h5, ops1, k, ops2, s2, T2, e, h6, h7, h8, h9, h10⟩
      · exact Or.inl ⟨s', T', by simp only [runOps, h1, h5], h6, h7, fun h => h8 (h4 h)⟩
      · refine Or.inr ⟨by simp only [runOps, h1, h5], op :: ops1, k, ops2, s2, T2, ?_, ?_, h7, h8,
          fun h => h9 (h4 h), h10⟩
        · rw [e]; rfl
        · simp only [runOps, h1, h6]
    · exact Or.inr ⟨by simp only [runOps, h1], [], k, ops, s, T, rfl, rfl, hg, hf, id, h2, hu, h1⟩

theorem avl_of_good {s : State} {T : BT} (hg : Good s T) (h : AVLHooks s) : T.AVL := by
  rcases hg.hooks with h' | h'
  · exact absurd h (noHooks_not_avl h')
  · exact h'.2

theorem keys_insert_perm {T T' : BT} {k : Int} {c : Ptr}
    (h : ∃ xs ys, T.toList = xs ++ ys ∧ T'.toList = xs ++ (k, c) :: ys) :
    T'.keys.Perm (k :: T.keys) := by
  obtain ⟨xs, ys, h1, h2⟩ := h
  rw [← toList_keys, ← toList_keys, h1, h2]
  simp only [List.map_append, List.map_cons]
  exact List.perm_middle

/-- Inserts of distinct new keys: all succeed, `pFirst` stays on the first node,
and the keys of the tree are the old ones and the inserted ones. -/
theorem good_inserts (kcs : List (Int × Ptr)) (s : State) (T : BT) (hg : Good s T)
    (hf : s.pFirst = T.addrs.head?) (hnew : ∀ k ∈ kcs.map Prod.fst, k ∉ T.keys)
    (hnd : (kcs.map Prod.fst).Nodup) :
    ∃ s' T', runOps (insertsOf kcs) s = some s' ∧ Good s' T' ∧ s'.pFirst = T'.addrs.head? ∧
      T'.keys.Perm (T.keys ++ kcs.map Prod.fst) ∧ (AVLHooks s → AVLHooks s') := by
  induction kcs generalizing s T with
  | nil => exact ⟨s, T, rfl, hg, hf, by simp, id⟩
  | cons kc kcs ih =>
    obtain ⟨k, c⟩ := kc
    simp only [List.map_cons, List.nodup_cons, List.mem_cons, forall_eq_or_imp] at hnd hnew
    obtain ⟨s1, T1, h1, h2, h3, -, h4, -, h5⟩ := insert_good k c s T hg hnew.1
    have hp := keys_insert_perm h3
    obtain ⟨s', T', h6, h7, h8, h9, h10⟩ := ih s1 T1 h2 (h4 hf)
      (fun j hj hj' => by
        rcases List.mem_cons.1 (hp.subset hj') with rfl | hj''
        · exact hnd.1 hj
        · exact hnew.2 j hj hj'')
      hnd.2
    refine ⟨s', T', ?_, h7, h8, ?_, fun h => h10 (h5 h)⟩
    · simp only [insertsOf, List.map_cons, runOps, applyOp, h1]
      exact h6
    · refine h9.trans ?_
      simp only [List.map_cons]
      exact (List.Perm.append_right _ hp).trans (by
        simp only [List.cons_append]
        exact List.perm_middle.symm)
/-! ### `Search` -/

theorem search_found (s : State) (T : BT) (hs : Shape s T) (ho : T.Ordered) (k : Int) (c : Ptr)
    (hk : (k, c) ∈ T.toList) : Search k s = some c := by
  have hkk : k ∈ T.keys := by
    rw [← toList_keys]; exact List.mem_map.2 ⟨(k, c), hk, rfl⟩
  have hloc : (locate k [] T).2 ≠ .nil := fun h => (locate_nil_iff k [] T ho).1 h hkk
  rcases locate_key k [] T with h | ⟨l, a, c', x, r, hn⟩
  · exact absurd h hloc
  have hT : plug (locate k [] T).1 (.node l a k c' x r) = T := by
    rw [← hn]; exact plug_locate k [] T
  obtain ⟨hm, -, -⟩ := (shape_zrep hs _ _ hT).sub
  have hcc : c' = c := by
    have hnd : (T.toList.map Prod.fst).Nodup := by
      rw [toList_keys]
      exact ((ordered_iff T).1 ho).imp (fun h => ne_of_lt h)
    have hmem : (k, c') ∈ T.toList := by
      rw [← hT, toList_plug]; simp [BT.toList]
    exact (List.inj_on_of_nodup_map hnd hmem hk rfl |> Prod.ext_iff.1).2
  rw [Search, searchNode_eq k s T hs, hn]
  simp only [BT.ptr, hm, hcc]

theorem search_absent (s : State) (T : BT) (hs : Shape s T) (ho : T.Ordered) (k : Int)
    (hk : k ∉ T.keys) : Search k s = some none := by
  have hnil : (locate k [] T).2 = .nil := (locate_nil_iff k [] T ho).2 hk
  rw [Search, searchNode_eq k s T hs, hnil]
  rfl

/-- Two well-formed trees give the same answer for a key when they hold the same
entries for it. -/
theorem search_congr (s s' : State) (T T' : BT) (hs : Shape s T) (ho : T.Ordered)
    (hs' : Shape s' T') (ho' : T'.Ordered) (j : Int)
    (h : ∀ c, (j, c) ∈ T.toList ↔ (j, c) ∈ T'.toList) : Search j s' = Search j s := by
  by_cases hj : j ∈ T.keys
  · rw [← toList_keys] at hj
    obtain ⟨⟨j', c⟩, h1, h2⟩ := List.mem_map.1 hj
    simp only at h2
    subst h2
    rw [search_found s T hs ho j' c h1, search_found s' T' hs' ho' j' c ((h c).1 h1)]
  · have hj' : j ∉ T'.keys := by
      intro h'
      rw [← toList_keys] at h'
      obtain ⟨⟨j', c⟩, h1, h2⟩ := List.mem_map.1 h'
      simp only at h2
      subst h2
      exact hj (by rw [← toList_keys]; exact List.mem_map.2 ⟨(j', c), (h c).2 h1, rfl⟩)
    rw [search_absent s T hs ho j hj, search_absent s' T' hs' ho' j hj']
/-! ### Iteration -/

theorem itemsBefore_addrs (fs : Path) : (itemsBefore fs).map (·.1) = addrsBefore fs := by
  induction fs with
  | nil => rfl
  | cons f fs ih => cases f <;> simp [itemsBefore, addrsBefore, ih, items_addrs]

theorem itemsAfter_addrs (fs : Path) : (itemsAfter fs).map (·.1) = addrsAfter fs := by
  induction fs with
  | nil => rfl
  | cons f fs ih => cases f <;> simp [itemsAfter, addrsAfter, ih, items_addrs]

theorem getLastLoop_spec (mem : Nat → Node) (t : BT) (par : Ptr) (fuel : Nat)
    (h : Rep mem t par) (hf : t.size ≤ fuel + 1) :
    GetLastLoop mem fuel t.ptr = some t.addrs.getLast? := by
  induction t generalizing par fuel with
  | nil => simp [GetLastLoop, BT.ptr, BT.addrs]
  | node l a k c x r _ ihr =>
    obtain ⟨h1, -, h3⟩ := h
    cases r with
    | nil =>
      unfold GetLastLoop
      simp [BT.ptr, h1, BT.addrs]
    | node rl b kb cb xb rr =>
      cases fuel with
      | zero => simp only [BT.size] at hf; omega
      | succ fuel =>
        have := ihr (some a) fuel h3 (by simp only [BT.size] at hf ⊢; omega)
        unfold GetLastLoop
        simp only [BT.ptr, h1]
        simp only [BT.ptr] at this
        rw [this]
        have hR : (BT.node rl b kb cb xb rr).addrs.getLast? ≠ none := by simp [BT.addrs]
        show some (BT.node rl b kb cb xb rr).addrs.getLast? =
          some (l.addrs ++ a :: (BT.node rl b kb cb xb rr).addrs).getLast?
        generalize (BT.node rl b kb cb xb rr).addrs = R at hR ⊢
        rw [show l.addrs ++ a :: R = (l.addrs ++ [a]) ++ R by simp, List.getLast?_append]
        cases h : R.getLast? with
        | none => exact absurd h hR
        | some y => rfl

theorem getLast_spec (s : State) (T : BT) (hs : Shape s T) :
    GetLast s = some T.addrs.getLast? := by
  have := getLastLoop_spec s.mem T none s.brk hs.rep.sub (by have := shape_size_le hs; omega)
  rw [GetLast, hs.rep.root]
  exact this

/-- The neighbours of a node in memory are its neighbours in the in-order list. -/
theorem item_links (s : State) (T : BT) (hs : Shape s T) (ho : T.Ordered)
    (X Y : List (Nat × Int × Ptr)) (a : Nat) (k : Int) (c : Ptr)
    (h : T.items = X ++ (a, k, c) :: Y) :
    (s.mem a).nKey = k ∧ GetNext a s = some ((Y.map (·.1)).head?) ∧
      GetPrevious a s = some ((X.map (·.1)).getLast?) := by
  have ha : a ∈ T.addrs := by rw [← items_addrs, h]; simp
  obtain ⟨fs, l, k', c', x, r, hT⟩ := exists_path T a ha
  have h2 := items_plug fs (.node l a k' c' x r)
  rw [← hT, h] at h2
  simp only [BT.items, List.append_assoc, List.cons_append] at h2
  obtain ⟨hX, hq, hY⟩ := @split_unique _ _ X (itemsBefore fs ++ l.items) Y
    (r.items ++ itemsAfter fs) (a, k, c) (a, k', c') (by simpa using h2) rfl
    (by rw [← h, items_addrs]; exact hs.nodup)
  simp only [Prod.mk.injEq, true_and] at hq
  obtain ⟨hk, hc⟩ := hq
  subst hk hc
  obtain ⟨hm, -, -⟩ := (shape_zrep hs fs _ hT.symm).sub
  refine ⟨by rw [hm], ?_, ?_⟩
  · rw [getNext_spec s T fs l a k c x r hs ho hT.symm, hY]
    simp [items_addrs, itemsAfter_addrs]
  · rw [getPrevious_spec s T fs l a k c x r hs ho hT.symm, hX]
    simp [items_addrs, itemsBefore_addrs]

theorem visit_forward (s : State) (T : BT) (hs : Shape s T) (ho : T.Ordered)
    (Y : List (Nat × Int × Ptr)) :
    ∀ (X : List (Nat × Int × Ptr)) (a : Nat) (k : Int) (c : Ptr) (it : Iterator) (fuel : Nat),
      T.items = X ++ (a, k, c) :: Y → it.pNode = some a → it.ucDirection = FORWARD →
      Y.length < fuel → visitKeys fuel it s = some (k :: Y.map (·.2.1)) := by
  induction Y with
  | nil =>
    intro X a k c it fuel h hp hd hf
    obtain ⟨h1, h2, -⟩ := item_links s T hs ho X [] a k c h
    cases fuel with
    | zero => simp at hf
    | succ fuel =>
      rw [visitKeys]
      simp only [hp, Next, hd, if_true, h2, List.map_nil, List.head?_nil]
      rw [visitKeys]
      simp [h1]
  | cons q Y ih =>
    intro X a k c it fuel h hp hd hf
    obtain ⟨b, kb, cb⟩ := q
    obtain ⟨h1, h2, -⟩ := item_links s T hs ho X _ a k c h
    cases fuel with
    | zero => simp at hf
    | succ fuel =>
      rw [visitKeys]
      simp only [hp, Next, hd, if_true, h2, List.map_cons, List.head?_cons]
      rw [ih (X ++ [(a, k, c)]) b kb cb ⟨it.pTree, some b, FORWARD⟩ fuel (by rw [h]; simp) rfl rfl
        (by simp only [List.length_cons] at hf; omega)]
      simp [h1]

theorem visit_backward (s : State) (T : BT) (hs : Shape s T) (ho : T.Ordered)
    (X : List (Nat × Int × Ptr)) :
    ∀ (Y : List (Nat × Int × Ptr)) (a : Nat) (k : Int) (c : Ptr) (it : Iterator) (fuel : Nat),
      T.items = X ++ (a, k, c) :: Y → it.pNode = some a → it.ucDirection = BACKWARD →
      X.length < fuel → visitKeys fuel it s = some (k :: (X.map (·.2.1)).reverse) := by
  induction X using List.reverseRecOn with
  | nil =>
    intro Y a k c it fuel h hp hd hf
    obtain ⟨h1, -, h3⟩ := item_links s T hs ho [] Y a k c h
    have hne : ¬ BACKWARD = FORWARD := by decide
    cases fuel with
    | zero => simp at hf
    | succ fuel =>
      rw [visitKeys]
      simp only [hp, Next, hd, hne, if_false, h3, List.map_nil, List.getLast?_nil]
      rw [visitKeys]
      simp [h1]
  | append_singleton X q ih =>
    intro Y a k c it fuel h hp hd hf
    obtain ⟨b, kb, cb⟩ := q
    obtain ⟨h1, -, h3⟩ := item_links s T hs ho _ Y a k c h
    have hne : ¬ BACKWARD = FORWARD := by decide
    cases fuel with
    | zero => simp at hf
    | succ fuel =>
      rw [visitKeys]
      simp only [hp, Next, hd, hne, if_false, h3, List.map_append, List.map_cons, List.map_nil,
        List.getLast?_append, List.getLast?_singleton, Option.or]
      rw [ih ((a, k, c) :: Y) b kb cb ⟨it.pTree, some b, BACKWARD⟩ fuel (by rw [h]; simp) rfl rfl
        (by simp only [List.length_append, List.length_singleton] at hf; omega)]
      simp [h1]

theorem keysForward_spec (s : State) (T : BT) (hs : Shape s T) (ho : T.Ordered)
    (hf : s.pFirst = T.addrs.head?) : keysForward s = some T.keys := by
  have hs1 : Shape { s with nIterators := s.nIterators + 1 } T :=
    ⟨⟨hs.rep.root, hs.rep.ctx, hs.rep.sub⟩, hs.nodup, hs.lt_brk⟩
  have hsz := shape_size_le hs
  rw [size_eq_length, ← items_addrs, List.length_map] at hsz
  rw [← items_addrs] at hf
  rw [← items_keys]
  cases hi : T.items with
  | nil =>
    rw [hi] at hf
    simp only [keysForward, Attach, AllocIterator, FORWARD, if_true, GetFirst]
    rw [visitKeys]
    simp [hf]
  | cons q Y =>
    obtain ⟨a, k, c⟩ := q
    rw [hi] at hf hsz
    simp only [keysForward, Attach, AllocIterator, if_true, GetFirst]
    rw [visit_forward _ T hs1 ho Y [] a k c _ _ (by rw [hi]; rfl) (by simp [hf]) rfl
      (by simp only [List.length_cons] at hsz; exact hsz)]
    simp

theorem keysBackward_spec (s : State) (T : BT) (hs : Shape s T) (ho : T.Ordered) :
    keysBackward s = some T.keys.reverse := by
  have hs1 : Shape { s with nIterators := s.nIterators + 1 } T :=
    ⟨⟨hs.rep.root, hs.rep.ctx, hs.rep.sub⟩, hs.nodup, hs.lt_brk⟩
  have hsz := shape_size_le hs
  rw [size_eq_length, ← items_addrs, List.length_map] at hsz
  have hl := getLast_spec s T hs
  rw [← items_addrs] at hl
  rw [← items_keys]
  have hne : ¬ BACKWARD = FORWARD := by decide
  rcases List.eq_nil_or_concat T.items with hi | ⟨X, q, hi⟩
  · rw [hi] at hl
    simp only [keysBackward, AttachEnd, Attach, AllocIterator, hne, if_false, hl]
    rw [visitKeys]
    simp [hi]
  · obtain ⟨a, k, c⟩ := q
    rw [List.concat_eq_append] at hi
    rw [hi] at hl hsz
    simp only [List.map_append, List.map_cons, List.map_nil, List.getLast?_append,
      List.getLast?_singleton, Option.or] at hl
    simp only [keysBackward, AttachEnd, Attach, AllocIterator, hne, if_false, hl]
    rw [visit_backward _ T hs1 ho X [] a k c _ _ (by rw [hi]) rfl rfl
      (by simp only [List.length_append, List.length_singleton] at hsz; exact hsz)]
    simp [hi]
/-! ### `Search` after `Insert` and `Remove` -/

theorem search_after_insert (k : Int) (c : Ptr) (s : State) (T : BT) (hg : Good s T)
    (hk : k ∉ T.keys) :
    ∃ s', Insert k c s = some (true, s') ∧ Search k s' = some c ∧
      ∀ j, j ≠ k → Search j s' = Search j s := by
  obtain ⟨s', T', h1, h2, ⟨xs, ys, h3, h4⟩, -⟩ := insert_good k c s T hg hk
  refine ⟨s', h1, ?_, fun j hj => ?_⟩
  · exact search_found s' T' h2.shape h2.ordered k c (by rw [h4]; simp)
  · refine search_congr s s' T T' hg.shape hg.ordered h2.shape h2.ordered j (fun c' => ?_)
    rw [h3, h4]
    simp only [List.mem_append, List.mem_cons, Prod.mk.injEq]
    constructor
    · rintro (h | h)
      · exact Or.inl h
      · exact Or.inr (Or.inr h)
    · rintro (h | h | h)
      · exact Or.inl h
      · exact absurd h.1 hj
      · exact Or.inr h

theorem remove_entry (k : Int) (s : State) (T : BT) (hg : Good s T) (hk : k ∈ T.keys)
    (h2 : ¬ TwoChildren k T) :
    ∃ s' T' xs c ys, Remove k s = some (true, s') ∧ Good s' T' ∧
      T.toList = xs ++ (k, c) :: ys ∧ T'.toList = xs ++ ys ∧
      Search k s' = some none ∧ ∀ j, j ≠ k → Search j s' = Search j s := by
  obtain ⟨s', T', h1, h2, ⟨xs, c, ys, h3, h4⟩, -⟩ := remove_good k s T hg hk h2
  refine ⟨s', T', xs, c, ys, h1, h2, h3, h4, ?_, fun j hj => ?_⟩
  · apply search_absent s' T' h2.shape h2.ordered
    have hnd : T.keys.Nodup := ((ordered_iff T).1 hg.ordered).imp (fun h => ne_of_lt h)
    rw [← toList_keys, h3] at hnd
    rw [← toList_keys, h4]
    simp only [List.map_append, List.map_cons] at hnd ⊢
    intro hmem
    rw [List.nodup_iff_count_le_one] at hnd
    have h5 := hnd k
    have h6 := List.count_pos_iff.2 hmem
    simp only [List.count_append, List.count_cons, beq_self_eq_true, if_true] at h5 h6
    omega
  · refine search_congr s s' T T' hg.shape hg.ordered h2.shape h2.ordered j (fun c' => ?_)
    rw [h3, h4]
    simp only [List.mem_append, List.mem_cons, Prod.mk.injEq]
    constructor
    · rintro (h | h | h)
      · exact Or.inl h
      · exact absurd h.1 hj
      · exact Or.inr h
    · rintro (h | h)
      · exact Or.inl h
      · exact Or.inr (Or.inr h)

/-! ### The node count -/

theorem size_after_insert (k : Int) (c : Ptr) (s : State) (T : BT) (hg : Good s T)
    (hk : k ∉ T.keys) :
    ∃ s', Insert k c s = some (true, s') ∧ s'.nSize = s.nSize + 1 := by
  obtain ⟨s', T', h1, h2, ⟨xs, ys, h3, h4⟩, -⟩ := insert_good k c s T hg hk
  refine ⟨s', h1, ?_⟩
  have e1 : T'.size = T'.toList.length := by
    rw [size_eq_length, ← keys_length, ← toList_keys, List.length_map]
  have e2 : T.size = T.toList.length := by
    rw [size_eq_length, ← keys_length, ← toList_keys, List.length_map]
  rw [h2.size, hg.size, e1, e2, h3, h4]
  simp only [List.length_append, List.length_cons]
  push_cast
  ring

theorem size_after_remove (k : Int) (s : State) (T : BT) (hg : Good s T) (hk : k ∈ T.keys)
    (h2 : ¬ TwoChildren k T) :
    ∃ s', Remove k s = some (true, s') ∧ s'.nSize = s.nSize - 1 := by
  obtain ⟨s', T', h1, h2, ⟨xs, c, ys, h3, h4⟩, -⟩ := remove_good k s T hg hk h2
  refine ⟨s', h1, ?_⟩
  have e1 : T'.size = T'.toList.length := by
    rw [size_eq_length, ← keys_length, ← toList_keys, List.length_map]
  have e2 : T.size = T.toList.length := by
    rw [size_eq_length, ← keys_length, ← toList_keys, List.length_map]
  rw [h2.size, hg.size, e1, e2, h3, h4]
  simp only [List.length_append, List.length_cons]
  push_cast
  ring

theorem size_after_inserts (avl : Bool) (kcs : List (Int × Ptr))
    (hd : (kcs.map Prod.fst).Nodup) :
    ∃ s, runOps (insertsOf kcs) (newTree avl) = some s ∧ s.nSize = kcs.length := by
  obtain ⟨s, T, h1, h2, -, h3, -⟩ := good_inserts kcs (newTree avl) .nil (good_newTree avl)
    (by cases avl <;> rfl) (fun _ _ h => by simp [BT.keys] at h) hd
  refine ⟨s, h1, ?_⟩
  have := h3.length_eq
  simp only [BT.keys, List.nil_append, List.length_map] at this
  rw [h2.size, size_eq_length, ← keys_length, this]

theorem demo_good : Good demoState demoTree :=
  ⟨⟨⟨rfl, trivial, ⟨rfl, ⟨rfl, trivial, trivial⟩, rfl, trivial, trivial⟩⟩, by decide, by decide⟩,
    by simp [BT.Ordered, demoTree, BT.keys], rfl, Or.inl ⟨rfl, rfl, rfl, rfl⟩⟩
/-! ### Neighbours by key -/

theorem items_sorted (T : BT) (ho : T.Ordered) :
    T.items.Pairwise (fun p q => p.2.1 < q.2.1) := by
  have := (ordered_iff T).1 ho
  rw [← items_keys, List.pairwise_map] at this
  exact this

theorem item_of_addr (T : BT) (a : Nat) (ha : a ∈ T.addrs) :
    ∃ X k c Y, T.items = X ++ (a, k, c) :: Y := by
  rw [← items_addrs] at ha
  obtain ⟨⟨a', k, c⟩, hq, rfl⟩ := List.mem_map.1 ha
  obtain ⟨X, Y, h⟩ := List.append_of_mem hq
  exact ⟨X, k, c, Y, h⟩

theorem item_key (s : State) (T : BT) (hs : Shape s T)
    (q : Nat × Int × Ptr) (hq : q ∈ T.items) :
    (s.mem q.1).nKey = q.2.1 ∧ (s.mem q.1).pContent = q.2.2 ∧ q.1 ∈ T.addrs := by
  obtain ⟨a, k, c⟩ := q
  obtain ⟨X, Y, h⟩ := List.append_of_mem hq
  have ha : a ∈ T.addrs := by rw [← items_addrs, h]; simp
  obtain ⟨fs, l, k', c', x, r, hT⟩ := exists_path T a ha
  have h2 := items_plug fs (.node l a k' c' x r)
  rw [← hT, h] at h2
  simp only [BT.items, List.append_assoc, List.cons_append] at h2
  obtain ⟨-, hq', -⟩ := @split_unique _ _ X (itemsBefore fs ++ l.items) Y
    (r.items ++ itemsAfter fs) (a, k, c) (a, k', c') (by simpa using h2) rfl
    (by rw [← h, items_addrs]; exact hs.nodup)
  simp only [Prod.mk.injEq, true_and] at hq'
  obtain ⟨hk, hc⟩ := hq'
  subst hk hc
  obtain ⟨hm, -, -⟩ := (shape_zrep hs fs _ hT.symm).sub
  exact ⟨by rw [hm], by rw [hm], ha⟩

theorem addr_item (T : BT) (b : Nat) (hb : b ∈ T.addrs) : ∃ q ∈ T.items, q.1 = b := by
  rw [← items_addrs] at hb
  obtain ⟨q, hq, rfl⟩ := List.mem_map.1 hb
  exact ⟨q, hq, rfl⟩

/-- `GetNext` gives the reachable node with the least key above the key of the
node, `NULL` when there is none. -/
theorem getNext_least (s : State) (T : BT) (hs : Shape s T) (ho : T.Ordered) (a : Nat)
    (ha : a ∈ T.addrs) :
    ∃ n, GetNext a s = some n ∧
      (n = none → ∀ b ∈ T.addrs, (s.mem b).nKey ≤ (s.mem a).nKey) ∧
      (∀ b, n = some b → b ∈ T.addrs ∧ (s.mem a).nKey < (s.mem b).nKey ∧
        ∀ d ∈ T.addrs, (s.mem a).nKey < (s.mem d).nKey → (s.mem b).nKey ≤ (s.mem d).nKey) := by
  obtain ⟨X, k, c, Y, h⟩ := item_of_addr T a ha
  obtain ⟨hk, hn, -⟩ := item_links s T hs ho X Y a k c h
  have hsort := items_sorted T ho
  rw [h, List.pairwise_append, List.pairwise_cons] at hsort
  obtain ⟨-, ⟨hY, hYs⟩, hX⟩ := hsort
  have hkey := item_key s T hs
  have hcase : ∀ d ∈ T.addrs, (∃ q ∈ X, q.1 = d ∧ (s.mem d).nKey = q.2.1) ∨ d = a ∨
      (∃ q ∈ Y, q.1 = d ∧ (s.mem d).nKey = q.2.1) := by
    intro d hd
    obtain ⟨q, hq, rfl⟩ := addr_item T d hd
    have hq' := hq
    rw [h] at hq'
    simp only [List.mem_append, List.mem_cons] at hq'
    rcases hq' with h1 | h1 | h1
    · exact Or.inl ⟨q, h1, rfl, (hkey q hq).1⟩
    · exact Or.inr (Or.inl (by rw [h1]))
    · exact Or.inr (Or.inr ⟨q, h1, rfl, (hkey q hq).1⟩)
  refine ⟨_, hn, ?_, ?_⟩
  · intro hnone d hd
    rw [hk]
    rcases hcase d hd with ⟨q, hq, -, hqk⟩ | rfl | ⟨q, hq, -, -⟩
    · rw [hqk]; exact le_of_lt (hX q hq (a, k, c) (by simp))
    · rw [hk]
    · cases Y with
      | nil => simp at hq
      | cons y Y => simp at hnone
  · intro b hb
    cases Y with
    | nil => simp at hb
    | cons y Y =>
      simp only [List.map_cons, List.head?_cons, Option.some.injEq] at hb
      have hy : y ∈ T.items := by rw [h]; simp
      obtain ⟨hyk, -, hya⟩ := hkey y hy
      rw [hb] at hyk hya
      rw [List.pairwise_cons] at hYs
      refine ⟨hya, by rw [hk, hyk]; exact hY y (by simp), fun d hd hlt => ?_⟩
      rw [hk] at hlt
      rcases hcase d hd with ⟨q, hq, -, hqk⟩ | rfl | ⟨q, hq, -, hqk⟩
      · rw [hqk] at hlt
        exact absurd hlt (not_lt.2 (le_of_lt (hX q hq (a, k, c) (by simp))))
      · rw [hk] at hlt; exact absurd hlt (lt_irrefl _)
      · rw [hyk, hqk]
        rcases List.mem_cons.1 hq with rfl | hq'
        · exact le_refl _
        · exact le_of_lt (hYs.1 q hq')

/-- `GetPrevious` gives the reachable node with the greatest key below the key of
the node, `NULL` when there is none. -/
theorem getPrevious_greatest (s : State) (T : BT) (hs : Shape s T) (ho : T.Ordered) (a : Nat)
    (ha : a ∈ T.addrs) :
    ∃ p, GetPrevious a s = some p ∧
      (p = none → ∀ b ∈ T.addrs, (s.mem a).nKey ≤ (s.mem b).nKey) ∧
      (∀ b, p = some b → b ∈ T.addrs ∧ (s.mem b).nKey < (s.mem a).nKey ∧
        ∀ d ∈ T.addrs, (s.mem d).nKey < (s.mem a).nKey → (s.mem d).nKey ≤ (s.mem b).nKey) := by
  obtain ⟨X, k, c, Y, h⟩ := item_of_addr T a ha
  obtain ⟨hk, -, hp⟩ := item_links s T hs ho X Y a k c h
  have hsort := items_sorted T ho
  rw [h, List.pairwise_append, List.pairwise_cons] at hsort
  obtain ⟨hXs, ⟨hY, -⟩, hX⟩ := hsort
  have hkey := item_key s T hs
  have hcase : ∀ d ∈ T.addrs, (∃ q ∈ X, q.1 = d ∧ (s.mem d).nKey = q.2.1) ∨ d = a ∨
      (∃ q ∈ Y, q.1 = d ∧ (s.mem d).nKey = q.2.1) := by
    intro d hd
    obtain ⟨q, hq, rfl⟩ := addr_item T d hd
    have hq' := hq
    rw [h] at hq'
    simp only [List.mem_append, List.mem_cons] at hq'
    rcases hq' with h1 | h1 | h1
    · exact Or.inl ⟨q, h1, rfl, (hkey q hq).1⟩
    · exact Or.inr (Or.inl (by rw [h1]))
    · exact Or.inr (Or.inr ⟨q, h1, rfl, (hkey q hq).1⟩)
  refine ⟨_, hp, ?_, ?_⟩
  · intro hnone d hd
    rw [hk]
    rcases hcase d hd with ⟨q, hq, -, -⟩ | rfl | ⟨q, hq, -, hqk⟩
    · rcases List.eq_nil_or_concat X with hX0 | ⟨X0, y, hX0⟩
      · rw [hX0] at hq; simp at hq
      · rw [hX0] at hnone; simp at hnone
    · rw [hk]
    · rw [hqk]; exact le_of_lt (hY q hq)
  · intro b hb
    rcases List.eq_nil_or_concat X with hX0 | ⟨X0, y, hX0⟩
    · rw [hX0] at hb; simp at hb
    · rw [List.concat_eq_append] at hX0
      subst hX0
      simp only [List.map_append, List.map_cons, List.map_nil, List.getLast?_append,
        List.getLast?_singleton, Option.or, Option.some.injEq] at hb
      have hy : y ∈ T.items := by rw [h]; simp
      obtain ⟨hyk, -, hya⟩ := hkey y hy
      rw [hb] at hyk hya
      rw [List.pairwise_append] at hXs
      refine ⟨hya, by rw [hk, hyk]; exact hX y (by simp) (a, k, c) (by simp), fun d hd hlt => ?_⟩
      rw [hk] at hlt
      rcases hcase d hd with ⟨q, hq, -, hqk⟩ | rfl | ⟨q, hq, -, hqk⟩
      · rw [hyk, hqk]
        rcases List.mem_append.1 hq with hq' | hq'
        · exact le_of_lt (hXs.2.2 q hq' y (by simp))
        · simp only [List.mem_singleton] at hq'
          rw [hq']
      · rw [hk] at hlt; exact absurd hlt (lt_irrefl _)
      · rw [hqk] at hlt
        exact absurd hlt (not_lt.2 (le_of_lt (hY q hq)))

/-- `GetLast` gives the reachable node with the greatest key, `NULL` for the empty
tree. -/
theorem getLast_greatest (s : State) (T : BT) (hs : Shape s T) (ho : T.Ordered) :
    ∃ p, GetLast s = some p ∧ (p = none ↔ T = .nil) ∧
      (∀ b, p = some b → b ∈ T.addrs ∧ ∀ d ∈ T.addrs, (s.mem d).nKey ≤ (s.mem b).nKey) := by
  refine ⟨_, getLast_spec s T hs, ?_, ?_⟩
  · rw [List.getLast?_eq_none_iff]
    constructor
    · intro h
      cases T with
      | nil => rfl
      | node l a k c x r => simp [BT.addrs] at h
    · rintro rfl; rfl
  · intro b hb
    have hb' : b ∈ T.addrs := List.mem_of_mem_getLast? hb
    refine ⟨hb', fun d hd => ?_⟩
    obtain ⟨p, hp, hnone, -⟩ := getNext_least s T hs ho b hb'
    have hpn : p = none := by
      obtain ⟨X, k, c, Y, h⟩ := item_of_addr T b hb'
      obtain ⟨-, hn, -⟩ := item_links s T hs ho X Y b k c h
      rw [hn] at hp
      have hY : Y = [] := by
        cases Y with
        | nil => rfl
        | cons y Y =>
          exfalso
          have hnd := hs.nodup
          rw [← items_addrs, h] at hb hnd
          simp only [List.map_append, List.map_cons] at hb hnd
          rw [show X.map (·.1) ++ b :: y.1 :: Y.map (·.1) =
            (X.map (·.1) ++ [b]) ++ (y.1 :: Y.map (·.1)) by simp, List.getLast?_append] at hb
          have hm : b ∈ (y.1 :: Y.map (·.1)) := by
            cases hl : (y.1 :: Y.map (·.1)).getLast? with
            | none => simp at hl
            | some z =>
              rw [hl] at hb
              simp only [Option.or, Option.some.injEq] at hb
              rw [← hb]; exact List.mem_of_mem_getLast? hl
          rw [List.nodup_append] at hnd
          exact (List.nodup_cons.1 hnd.2.1).1 hm
      rw [hY] at hp
      simpa using hp.symm
    exact hnone hpn d hd
/-! ### Iterators -/

theorem first_least (s : State) (T : BT) (hs : Shape s T) (ho : T.Ordered) :
    IsLeast s T T.addrs.head? := by
  refine ⟨?_, fun b hb => ?_⟩
  · rw [List.head?_eq_none_iff]
    constructor
    · intro h
      cases T with
      | nil => rfl
      | node l a k c x r => simp [BT.addrs] at h
    · rintro rfl; rfl
  · have hb' : b ∈ T.addrs := List.mem_of_mem_head? hb
    refine ⟨hb', ?_⟩
    obtain ⟨X, k, c, Y, h⟩ := item_of_addr T b hb'
    have hX : X = [] := by
      cases X with
      | nil => rfl
      | cons y X =>
        exfalso
        have hnd := hs.nodup
        rw [← items_addrs, h] at hb hnd
        simp only [List.map_append, List.map_cons, List.cons_append, List.head?_cons,
          Option.some.injEq] at hb hnd
        rw [hb] at hnd
        exact (List.nodup_cons.1 hnd).1 (by simp)
    subst hX
    obtain ⟨p, hp, hnone, -⟩ := getPrevious_greatest s T hs ho b hb'
    obtain ⟨-, -, hp'⟩ := item_links s T hs ho [] Y b k c h
    rw [hp'] at hp
    exact hnone (by simpa using hp.symm)

theorem attach_forward (it : Iterator) (s : State) (hd : it.ucDirection = FORWARD) :
    Attach it s = some (⟨true, s.pFirst, it.ucDirection⟩,
      { s with nIterators := s.nIterators + 1 }) := by
  simp [Attach, hd, GetFirst]

theorem attach_backward (it : Iterator) (s : State) (T : BT) (hs : Shape s T)
    (hd : it.ucDirection ≠ FORWARD) :
    Attach it s = some (⟨true, T.addrs.getLast?, it.ucDirection⟩,
      { s with nIterators := s.nIterators + 1 }) := by
  simp [Attach, hd, getLast_spec s T hs]

theorem attachEnd_spec (it : Iterator) (s : State) (T : BT) (hs : Shape s T) :
    AttachEnd it s = some (⟨true, T.addrs.getLast?, BACKWARD⟩,
      { s with nIterators := s.nIterators + 1 }) := by
  have hne : ¬ BACKWARD = FORWARD := by decide
  rw [AttachEnd, attach_backward _ s T hs hne]

theorem next_at_node (it : Iterator) (s : State) (T : BT) (hs : Shape s T) (ho : T.Ordered)
    (a : Nat) (hp : it.pNode = some a) (ha : a ∈ T.addrs) :
    ∃ n, Next it s = some (Current it s, ⟨it.pTree, n, it.ucDirection⟩) ∧
      Current it s = (s.mem a).pContent ∧
      (it.ucDirection = FORWARD → IsSuccessor s T a n) ∧
      (it.ucDirection ≠ FORWARD → IsPredecessor s T a n) := by
  by_cases hd : it.ucDirection = FORWARD
  · obtain ⟨n, hn, h1, h2⟩ := getNext_least s T hs ho a ha
    exact ⟨n, by simp [Next, hp, hd, hn, Current], by simp [Current, hp],
      fun _ => ⟨h1, h2⟩, fun h => absurd hd h⟩
  · obtain ⟨n, hn, h1, h2⟩ := getPrevious_greatest s T hs ho a ha
    exact ⟨n, by simp [Next, hp, hd, hn, Current], by simp [Current, hp],
      fun h => absurd h hd, fun _ => ⟨h1, h2⟩⟩

theorem next_exhausted (it : Iterator) (s : State) (hp : it.pNode = none) :
    Next it s = some (none, it) ∧ Current it s = none := by
  simp [Next, Current, hp]
/-! ### `Remove` followed by `Insert` of the same entry -/

theorem toList_sorted (T : BT) (ho : T.Ordered) :
    T.toList.Pairwise (fun p q => p.1 < q.1) := by
  have := (ordered_iff T).1 ho
  rw [← toList_keys, List.pairwise_map] at this
  exact this

theorem toList_eq_of_perm (T T' : BT) (ho : T.Ordered) (ho' : T'.Ordered)
    (hp : T'.toList.Perm T.toList) : T'.toList = T.toList := by
  have ha : IsAntisymm (Int × Ptr) (fun p q => p.1 < q.1) :=
    ⟨fun a b h1 h2 => absurd h1 (lt_asymm h2)⟩
  exact List.eq_of_perm_of_sorted hp (toList_sorted T' ho') (toList_sorted T ho)

theorem remove_insert_restores (k : Int) (c : Ptr) (s : State) (T : BT) (hg : Good s T)
    (hk : (k, c) ∈ T.toList) (h2 : ¬ TwoChildren k T) :
    ∃ s1 s2 T2, Remove k s = some (true, s1) ∧ Insert k c s1 = some (true, s2) ∧
      Good s2 T2 ∧ s2.nSize = s.nSize ∧ T2.toList = T.toList ∧ Search k s2 = some c := by
  have hkk : k ∈ T.keys := by
    rw [← toList_keys]; exact List.mem_map.2 ⟨(k, c), hk, rfl⟩
  obtain ⟨s1, T1, xs, c', ys, h1, hg1, h3, h4, h5, -⟩ := remove_entry k s T hg hkk h2
  have hnd : (T.toList.map Prod.fst).Nodup := by
    rw [toList_keys]
    exact ((ordered_iff T).1 hg.ordered).imp (fun h => ne_of_lt h)
  have hcc : c' = c := by
    have hmem : (k, c') ∈ T.toList := by rw [h3]; simp
    exact (List.inj_on_of_nodup_map hnd hmem hk rfl |> Prod.ext_iff.1).2
  subst hcc
  have hk1 : k ∉ T1.keys := by
    rw [h3] at hnd
    rw [← toList_keys, h4]
    simp only [List.map_append, List.map_cons] at hnd ⊢
    intro hmem
    rw [List.nodup_iff_count_le_one] at hnd
    have h6 := hnd k
    have h7 := List.count_pos_iff.2 hmem
    simp only [List.count_append, List.count_cons, beq_self_eq_true, if_true] at h6 h7
    omega
  obtain ⟨s2, T2, h6, hg2, ⟨xs', ys', h7, h8⟩, -⟩ := insert_good k c' s1 T1 hg1 hk1
  have hperm : T2.toList.Perm T.toList := by
    rw [h8, h3]
    refine List.perm_middle.trans (List.Perm.trans ?_ List.perm_middle.symm)
    rw [← h7, h4]
  have heq := toList_eq_of_perm T T2 hg.ordered hg2.ordered hperm
  refine ⟨s1, s2, T2, h1, h6, hg2, ?_, heq, ?_⟩
  · have e1 : T2.size = T2.toList.length := by
      rw [size_eq_length, ← keys_length, ← toList_keys, List.length_map]
    have e2 : T.size = T.toList.length := by
      rw [size_eq_length, ← keys_length, ← toList_keys, List.length_map]
    rw [hg2.size, hg.size, e1, e2, heq]
  · exact search_found s2 T2 hg2.shape hg2.ordered k c' (by rw [heq]; exact hk)
/-! ### The rotations on a whole tree -/

theorem leftRotation_tree (s : State) (T : BT) (fs : Path) (l : BT) (a : Nat) (ka : Int)
    (ca : Ptr) (xa : Option Int) (rl : BT) (b : Nat) (kb : Int) (cb : Ptr) (xb : Option Int)
    (rr : BT) (hs : Shape s T) (ho : T.Ordered)
    (hT : plug fs (.node l a ka ca xa (.node rl b kb cb xb rr)) = T)
    (hcb : s.cbRotation = false ∨ (s.cbRotation = true ∧ xa.isSome ∧ xb.isSome ∧
      l.sh = some l.height ∧ rl.sh = some rl.height ∧ rr.sh = some rr.height)) :
    ∃ s' xa' xb', LeftRotation a s = some (b, s') ∧
      Shape s' (plug fs (.node (.node l a ka ca xa' rl) b kb cb xb' rr)) ∧
      (plug fs (.node (.node l a ka ca xa' rl) b kb cb xb' rr)).Ordered ∧
      (plug fs (.node (.node l a ka ca xa' rl) b kb cb xb' rr)).keys = T.keys ∧
      s'.nSize = s.nSize ∧ (s.pFirst = T.addrs.head? → s'.pFirst = s.pFirst) := by
  have hz := shape_zrep hs fs _ hT
  have hndT := hs.nodup
  rw [← hT] at hndT ho
  have hnd := (nodup_plug _ _).1 hndT
  have hkeys : ∀ xa' xb', (BT.node (.node l a ka ca xa' rl) b kb cb xb' rr).keys =
      (BT.node l a ka ca xa (.node rl b kb cb xb rr)).keys := by
    intro _ _; simp [BT.keys]
  have haddrs : ∀ xa' xb', (BT.node (.node l a ka ca xa' rl) b kb cb xb' rr).addrs =
      (BT.node l a ka ca xa (.node rl b kb cb xb rr)).addrs := by
    intro _ _; simp [BT.addrs]
  have fin : ∀ s' xa' xb', ZRep s' fs (.node (.node l a ka ca xa' rl) b kb cb xb' rr) →
      Keeps s s' (ctxAddrs fs ++ (BT.node l a ka ca xa (.node rl b kb cb xb rr)).addrs) →
      (s.pFirst = T.addrs.head? → s'.pFirst = s.pFirst) →
      Shape s' (plug fs (.node (.node l a ka ca xa' rl) b kb cb xb' rr)) ∧
      (plug fs (.node (.node l a ka ca xa' rl) b kb cb xb' rr)).Ordered ∧
      (plug fs (.node (.node l a ka ca xa' rl) b kb cb xb' rr)).keys = T.keys ∧
      s'.nSize = s.nSize ∧ (s.pFirst = T.addrs.head? → s'.pFirst = s.pFirst) := by
    intro s' xa' xb' hz' hk' hf'
    have ha : (plug fs (.node (.node l a ka ca xa' rl) b kb cb xb' rr)).addrs =
        (plug fs (.node l a ka ca xa (.node rl b kb cb xb rr))).addrs := by
      rw [addrs_plug, addrs_plug, haddrs]
    refine ⟨⟨(zrep_nil_iff s' fs _).2 hz', by rw [ha]; exact hndT, fun d hd => ?_⟩,
      ordered_plug_keys ho (hkeys xa' xb'), ?_, hk'.nSize, hf'⟩
    · rw [ha, hT] at hd
      have := hs.lt_brk d hd
      rw [hk'.brk]; exact this
    · rw [← hT, keys_plug, keys_plug, hkeys]
  rcases hcb with hcb | ⟨hcb, hxa, hxb, hl, hrl, hrr⟩
  · have hsub := ordered_plug_sub ho
    obtain ⟨-, ⟨-, -, -, -⟩, -, hr1⟩ := hsub
    have hkb : ka < kb := hr1 kb (by simp [BT.keys])
    have hrlk : ∀ j ∈ rl.keys, ka < j := fun j hj => hr1 j (by simp [BT.keys, hj])
    have hside : sideOK fs kb := ordered_plug_side ho kb (by simp [BT.keys])
    obtain ⟨s4, hrot, hz4, hk4, hf4, -⟩ :=
      rotLeft_links s fs l a ka ca xa rl b kb cb xb rr hz hnd hkb hrlk hside
    have hcb4 : s4.cbRotation = false := hk4.cbRotation.trans hcb
    refine ⟨s4, xa, xb, ?_, fin s4 xa xb hz4 hk4 (fun h => hf4 (hT ▸ h))⟩
    rw [hrot]
    simp [callRotation, hcb4]
  · obtain ⟨s', hrot, hz', hk', hf', -⟩ :=
      rotLeft_spec s fs l a ka ca xa rl b kb cb xb rr hz hnd ho hcb hxa hxb hl hrl hrr
    exact ⟨s', _, _, hrot, fin s' _ _ hz' hk' (fun h => hf' (hT ▸ h))⟩

theorem rightRotation_tree (s : State) (T : BT) (fs : Path) (ll : BT) (b : Nat) (kb : Int)
    (cb : Ptr) (xb : Option Int) (lr : BT) (a : Nat) (ka : Int) (ca : Ptr) (xa : Option Int)
    (r : BT) (hs : Shape s T) (ho : T.Ordered)
    (hT : plug fs (.node (.node ll b kb cb xb lr) a ka ca xa r) = T)
    (hcb : s.cbRotation = false ∨ (s.cbRotation = true ∧ xa.isSome ∧ xb.isSome ∧
      ll.sh = some ll.height ∧ lr.sh = some lr.height ∧ r.sh = some r.height)) :
    ∃ s' xa' xb', RightRotation a s = some (b, s') ∧
      Shape s' (plug fs (.node ll b kb cb xb' (.node lr a ka ca xa' r))) ∧
      (plug fs (.node ll b kb cb xb' (.node lr a ka ca xa' r))).Ordered ∧
      (plug fs (.node ll b kb cb xb' (.node lr a ka ca xa' r))).keys = T.keys ∧
      s'.nSize = s.nSize ∧ (s.pFirst = T.addrs.head? → s'.pFirst = s.pFirst) := by
  have hz := shape_zrep hs fs _ hT
  have hndT := hs.nodup
  rw [← hT] at hndT ho
  have hnd := (nodup_plug _ _).1 hndT
  have hkeys : ∀ xa' xb', (BT.node ll b kb cb xb' (.node lr a ka ca xa' r)).keys =
      (BT.node (.node ll b kb cb xb lr) a ka ca xa r).keys := by
    intro _ _; simp [BT.keys]
  have haddrs : ∀ xa' xb', (BT.node ll b kb cb xb' (.node lr a ka ca xa' r)).addrs =
      (BT.node (.node ll b kb cb xb lr) a ka ca xa r).addrs := by
    intro _ _; simp [BT.addrs]
  have fin : ∀ s' xa' xb', ZRep s' fs (.node ll b kb cb xb' (.node lr a ka ca xa' r)) →
      Keeps s s' (ctxAddrs fs ++ (BT.node (.node ll b kb cb xb lr) a ka ca xa r).addrs) →
      (s.pFirst = T.addrs.head? → s'.pFirst = s.pFirst) →
      Shape s' (plug fs (.node ll b kb cb xb' (.node lr a ka ca xa' r))) ∧
      (plug fs (.node ll b kb cb xb' (.node lr a ka ca xa' r))).Ordered ∧
      (plug fs (.node ll b kb cb xb' (.node lr a ka ca xa' r))).keys = T.keys ∧
      s'.nSize = s.nSize ∧ (s.pFirst = T.addrs.head? → s'.pFirst = s.pFirst) := by
    intro s' xa' xb' hz' hk' hf'
    have ha : (plug fs (.node ll b kb cb xb' (.node lr a ka ca xa' r))).addrs =
        (plug fs (.node (.node ll b kb cb xb lr) a ka ca xa r)).addrs := by
      rw [addrs_plug, addrs_plug, haddrs]
    refine ⟨⟨(zrep_nil_iff s' fs _).2 hz', by rw [ha]; exact hndT, fun d hd => ?_⟩,
      ordered_plug_keys ho (hkeys xa' xb'), ?_, hk'.nSize, hf'⟩
    · rw [ha, hT] at hd
      have := hs.lt_brk d hd
      rw [hk'.brk]; exact this
    · rw [← hT, keys_plug, keys_plug, hkeys]
  rcases hcb with hcb | ⟨hcb, hxa, hxb, hll, hlr, hr⟩
  · have hsub := ordered_plug_sub ho
    obtain ⟨⟨-, -, -, -⟩, -, hl1, -⟩ := hsub
    have hkb : kb < ka := hl1 kb (by simp [BT.keys])
    have hlrk : ∀ j ∈ lr.keys, j < ka := fun j hj => hl1 j (by simp [BT.keys, hj])
    have hside : sideOK fs kb := ordered_plug_side ho kb (by simp [BT.keys])
    obtain ⟨s4, hrot, hz4, hk4, hf4, -⟩ :=
      rotRight_links s fs ll b kb cb xb lr a ka ca xa r hz hnd hkb hlrk hside
    have hcb4 : s4.cbRotation = false := hk4.cbRotation.trans hcb
    refine ⟨s4, xa, xb, ?_, fin s4 xa xb hz4 hk4 (fun h => hf4 (hT ▸ h))⟩
    rw [hrot]
    simp [callRotation, hcb4]
  · obtain ⟨s', hrot, hz', hk', hf', -⟩ :=
      rotRight_spec s fs ll b kb cb xb lr a ka ca xa r hz hnd ho hcb hxa hxb hll hlr hr
    exact ⟨s', _, _, hrot, fin s' _ _ hz' hk' (fun h => hf' (hT ▸ h))⟩
/-! ### One turn of the loop of `AVLBalance` at a node out of balance -/

theorem fix_is_node (l : BT) (a : Nat) (k : Int) (c : Ptr) (x : Option Int) (r : BT) :
    ∃ l' b kb cb xb r', (BT.node l a k c x r).fix = .node l' b kb cb xb r' := by
  cases h : (BT.node l a k c x r).fix with
  | nil =>
    have := addrs_fix (BT.node l a k c x r)
    rw [h] at this
    simp [BT.addrs] at this
  | node l' b kb cb xb r' => exact ⟨l', b, kb, cb, xb, r', rfl⟩

theorem fix_cases (l : BT) (a : Nat) (k : Int) (c : Ptr) (x : Option Int) (r : BT) :
    (l.height - r.height = 2 → l.bal > -1 →
      (BT.node l a k c x r).fix = BT.rotRight (.node l a k c x r)) ∧
    (l.height - r.height = 2 → ¬ l.bal > -1 →
      (BT.node l a k c x r).fix = BT.rotRight (.node (BT.rotLeft l) a k c x r)) ∧
    (l.height - r.height = -2 → r.bal < 1 →
      (BT.node l a k c x r).fix = BT.rotLeft (.node l a k c x r)) ∧
    (l.height - r.height = -2 → ¬ r.bal < 1 →
      (BT.node l a k c x r).fix = BT.rotLeft (.node l a k c x (BT.rotRight r))) := by
  refine ⟨fun h1 h2 => ?_, fun h1 h2 => ?_, fun h1 h2 => ?_, fun h1 h2 => ?_⟩
  · have : l.height - r.height > 1 := by omega
    simp only [BT.fix, this, if_true, h2]
  · have : l.height - r.height > 1 := by omega
    simp only [BT.fix, this, if_true, h2, if_false]
  · have h3 : ¬ l.height - r.height > 1 := by omega
    have h4 : l.height - r.height < -1 := by omega
    simp only [BT.fix, h3, h4, if_true, if_false, h2]
  · have h3 : ¬ l.height - r.height > 1 := by omega
    have h4 : l.height - r.height < -1 := by omega
    simp only [BT.fix, h3, h4, if_true, if_false, h2]

theorem tilt_zrep : ZRep tiltState [] tiltTree :=
  ⟨rfl, trivial, ⟨rfl, trivial, ⟨rfl, trivial, ⟨rfl, trivial, trivial⟩⟩⟩⟩
/-! ### `RemoveNode` leaves `nSize` alone, and what that does to `FreeTree` -/

theorem attachNodes_nSize (p c : Ptr) (s : State) : (AttachNodes p c s).nSize = s.nSize := by
  unfold AttachNodes
  cases c with
  | none => rfl
  | some c =>
    cases p with
    | none => simp only; split_ifs <;> rfl
    | some p => simp only; split_ifs <;> rfl

theorem setHeight_nSize (a : Nat) (s s' : State) (h : AVLSetHeight a s = some s') :
    s'.nSize = s.nSize := by
  unfold AVLSetHeight at h
  split at h
  · simp only [Option.some.injEq] at h; rw [← h]; rfl
  · simp at h

theorem callRotation_nSize (a : Nat) (s s' : State) (h : callRotation a s = some s') :
    s'.nSize = s.nSize := by
  unfold callRotation at h
  split_ifs at h
  · unfold AVLRotationSetHeights at h
    split at h
    · simp at h
    · rename_i s1 h1
      have e1 := setHeight_nSize _ _ _ h1
      split at h
      · simp only [Option.some.injEq] at h; rw [← h, e1]; rfl
      · rw [setHeight_nSize _ _ _ h, e1]; rfl
  · simp only [Option.some.injEq] at h; rw [← h]

theorem leftRotation_nSize (a : Nat) (s s' : State) (b : Nat)
    (h : LeftRotation a s = some (b, s')) : s'.nSize = s.nSize := by
  unfold LeftRotation at h
  split at h
  · simp at h
  · simp only at h
    split at h
    · simp at h
    · rename_i s5 h5
      simp only [Option.some.injEq, Prod.mk.injEq] at h
      rw [← h.2, callRotation_nSize _ _ _ h5, attachNodes_nSize, attachNodes_nSize,
        attachNodes_nSize]
      rfl

theorem rightRotation_nSize (a : Nat) (s s' : State) (b : Nat)
    (h : RightRotation a s = some (b, s')) : s'.nSize = s.nSize := by
  unfold RightRotation at h
  split at h
  · simp at h
  · simp only at h
    split at h
    · simp at h
    · rename_i s5 h5
      simp only [Option.some.injEq, Prod.mk.injEq] at h
      rw [← h.2, callRotation_nSize _ _ _ h5, attachNodes_nSize, attachNodes_nSize,
        attachNodes_nSize]
      rfl

theorem balanceLoop_nSize (fuel : Nat) : ∀ (p : Ptr) (s s' : State),
    AVLBalanceLoop fuel p s = some s' → s'.nSize = s.nSize := by
  induction fuel with
  | zero =>
    intro p s s' h
    cases p with
    | none => simp only [AVLBalanceLoop, Option.some.injEq] at h; rw [← h]
    | some a => simp [AVLBalanceLoop] at h
  | succ fuel ih =>
    intro p s s' h
    cases p with
    | none => simp only [AVLBalanceLoop, Option.some.injEq] at h; rw [← h]
    | some a =>
      rw [AVLBalanceLoop] at h
      split at h
      · simp at h
      · rename_i s1 h1
        have e1 := setHeight_nSize _ _ _ h1
        split at h
        · simp at h
        · split_ifs at h
          · split at h
            · simp at h
            · split at h
              · simp at h
              · split_ifs at h
                · split at h
                  · simp at h
                  · rename_i pNew s2 h2
                    rw [ih _ _ _ h, rightRotation_nSize _ _ _ _ h2, e1]
                · split at h
                  · simp at h
                  · rename_i q s2 h2
                    split at h
                    · simp at h
                    · rename_i pNew s3 h3
                      rw [ih _ _ _ h, rightRotation_nSize _ _ _ _ h3,
                        leftRotation_nSize _ _ _ _ h2, e1]
          · split at h
            · simp at h
            · split at h
              · simp at h
              · split_ifs at h
                · split at h
                  · simp at h
                  · rename_i pNew s2 h2
                    rw [ih _ _ _ h, leftRotation_nSize _ _ _ _ h2, e1]
                · split at h
                  · simp at h
                  · rename_i q s2 h2
                    split at h
                    · simp at h
                    · rename_i pNew s3 h3
                      rw [ih _ _ _ h, leftRotation_nSize _ _ _ _ h3,
                        rightRotation_nSize _ _ _ _ h2, e1]
          · rw [ih _ _ _ h, e1]

theorem callRemove_nSize (p : Ptr) (orig : Bool) (s s' : State)
    (h : callRemove p orig s = some s') : s'.nSize = s.nSize := by
  unfold callRemove at h
  split_ifs at h
  · rw [balanceLoop_nSize _ _ _ _ h]; rfl
  · simp only [Option.some.injEq] at h; rw [← h]
theorem detachNodes_nSize (p c : Nat) (s : State) : (DetachNodes p c s).nSize = s.nSize := by
  unfold DetachNodes
  simp only
  split_ifs <;> rfl

theorem removeNode_nSize (fuel : Nat) : ∀ (p : Ptr) (orig : Bool) (s : State) (b : Bool)
    (s' : State), RemoveNode fuel p orig s = some (b, s') → s'.nSize = s.nSize := by
  induction fuel with
  | zero =>
    intro p orig s b s' h
    cases p with
    | none => simp only [RemoveNode, Option.some.injEq, Prod.mk.injEq] at h; rw [← h.2]
    | some a => simp [RemoveNode] at h
  | succ fuel ih =>
    intro p orig s b s' h
    cases p with
    | none => simp only [RemoveNode, Option.some.injEq, Prod.mk.injEq] at h; rw [← h.2]
    | some a =>
      rw [RemoveNode] at h
      split at h
      · simp at h
      · rename_i s1 h1
        have e1 : s1.nSize = s.nSize := by
          split_ifs at h1
          · cases hg : GetNext a s with
            | none => rw [hg] at h1; simp at h1
            | some q =>
              rw [hg] at h1
              simp only [Option.map_some', Option.some.injEq] at h1
              rw [← h1]
          · simp only [Option.some.injEq] at h1; rw [← h1]
        have leaf : ∀ (ch : Ptr), (match (s1.mem a).pParent with
            | none =>
              (callRemove ch orig (FreeNode a (match ch with
                | none => { s1 with pRoot := ch }
                | some c => ({ s1 with pRoot := ch } : State).setParent c none))).map
                (fun s4 => (true, s4))
            | some pOtherNode =>
              (callRemove (some pOtherNode) orig
                (FreeNode a (AttachNodes (some pOtherNode) ch (DetachNodes pOtherNode a s1)))).map
                (fun s4 => (true, s4))) = some (b, s') → s'.nSize = s.nSize := by
          intro ch h
          split at h
          · obtain ⟨s4, hc, h4⟩ := Option.map_eq_some'.1 h
            simp only [Prod.mk.injEq] at h4
            rw [← h4.2, callRemove_nSize _ _ _ _ hc, ← e1]
            cases ch <;> rfl
          · obtain ⟨s4, hc, h4⟩ := Option.map_eq_some'.1 h
            simp only [Prod.mk.injEq] at h4
            rw [← h4.2, callRemove_nSize _ _ _ _ hc]
            show (AttachNodes _ _ _).nSize = _
            rw [attachNodes_nSize, detachNodes_nSize, e1]
        split_ifs at h
        · exact leaf _ h
        · exact leaf _ h
        · split at h
          · simp at h
          · split at h
            · simp at h
            · rename_i q pOther b2 s2 h2
              split_ifs at h
              obtain ⟨s6, hc, h6⟩ := Option.map_eq_some'.1 h
              simp only [Prod.mk.injEq] at h6
              rw [← h6.2, callRemove_nSize _ _ _ _ hc]
              show (AttachNodes _ _ _).nSize = _
              rw [attachNodes_nSize, attachNodes_nSize,
                attachNodes_nSize, ih _ _ _ _ _ h2, e1]

/-- While `nSize` is positive the loop of `FreeTree` does not come to an end:
`RemoveNode` does not change `nSize`. -/
theorem freeTreeLoop_none (fuel : Nat) : ∀ s : State, s.nSize > 0 →
    FreeTreeLoop fuel s = none := by
  induction fuel with
  | zero =>
    intro s h
    rw [FreeTreeLoop]
    simp [h]
  | succ fuel ih =>
    intro s h
    rw [FreeTreeLoop]
    simp only [h, if_true]
    cases hr : RemoveNode (s.brk + 1) s.pFirst true s with
    | none => rfl
    | some r =>
      obtain ⟨b, s1⟩ := r
      have := removeNode_nSize _ _ _ _ _ _ hr
      exact ih s1 (by rw [this]; exact h)
/-! ### The rebalancing walk needs only correct stored heights -/

/-- The body of the loop of `AVLBalance` at a node whose subtrees have correct
stored heights returns: the memory then holds `fix` of the subtree and the loop
goes on at the parent of its new root. -/
theorem step_stored (s : State) (fs : Path) (l : BT) (a : Nat) (k : Int) (c : Ptr)
    (x : Option Int) (r : BT)
    (hz : ZRep s fs (.node l a k c x r))
    (hnd : (ctxAddrs fs ++ (BT.node l a k c x r).addrs).Nodup)
    (hord : (plug fs (.node l a k c x r)).Ordered)
    (hcb : s.cbRotation = true) (hx : x.isSome) (hl : l.Stored) (hr : r.Stored) :
    ∃ s', AVLBalanceStep a s = some (parOf fs, s') ∧
      ZRep s' fs (BT.node l a k c x r).fix ∧
      Keeps s s' (ctxAddrs fs ++ (BT.node l a k c x r).addrs) ∧
      (s.pFirst = (plug fs (.node l a k c x r)).addrs.head? → s'.pFirst = s.pFirst) ∧
      ∃ ex, s'.calls = s.calls ++ ex := by
  obtain ⟨s1, hs1, hz1, hk1, hf1, hc1⟩ :=
    setHeight_spec s fs l a k c x r hz hnd hx (stored_sh hl) (stored_sh hr)
  have hbf := balanceFactor_eq s1 fs l a k c _ r hz1 (stored_sh hl) (stored_sh hr)
  have hk1' : Keeps s s1 (ctxAddrs fs ++ (BT.node l a k c x r).addrs) :=
    keeps_mono hk1 (fun y hy => by simp at hy; simp [BT.addrs, hy])
  have hcb1 : s1.cbRotation = true := hk1.cbRotation.trans hcb
  rw [BT.mk] at hz1
  generalize hx1 : (some ((if l.height > r.height then l.height else r.height) + 1) :
    Option Int) = x1 at hz1 hbf
  have hx1s : x1.isSome := by rw [← hx1]; rfl
  have hord1 : (plug fs (BT.node l a k c x1 r)).Ordered := ordered_plug_keys hord rfl
  have hnd1 : (ctxAddrs fs ++ (BT.node l a k c x1 r).addrs).Nodup := hnd
  have hfirst : s.pFirst = (plug fs (.node l a k c x r)).addrs.head? →
      s1.pFirst = (plug fs (.node l a k c x1 r)).addrs.head? := fun hF => by
    rw [hf1, hF]; exact head_plug_congr fs rfl
  have wrap : ∀ s', (Keeps s1 s' (ctxAddrs fs ++ (BT.node l a k c x1 r).addrs) ∧
      (s1.pFirst = (plug fs (.node l a k c x1 r)).addrs.head? → s'.pFirst = s1.pFirst) ∧
      ∃ ex, s'.calls = s1.calls ++ ex) →
      (Keeps s s' (ctxAddrs fs ++ (BT.node l a k c x r).addrs) ∧
      (s.pFirst = (plug fs (.node l a k c x r)).addrs.head? → s'.pFirst = s.pFirst) ∧
      ∃ ex, s'.calls = s.calls ++ ex) := by
    rintro s' ⟨hk, hf, ex, hc⟩
    exact ⟨keeps_trans hk1' hk (fun _ h => h) (fun _ h => h),
      fun hF => (hf (hfirst hF)).trans hf1, ⟨ex, by rw [hc, hc1]⟩⟩
  by_cases h1 : l.height - r.height > 1
  · obtain ⟨ll, b, kb, cb, xb, lr, rfl⟩ := node_of_height (t := l) (by have := height_ge r; omega)
    by_cases h2 : ll.height - lr.height > -1
    · obtain ⟨s', e1, e2, e3⟩ := step_left_single s s1 fs ll b kb cb xb lr a k c x x1 r hs1 hbf
        hz1 hnd1 hord1 hcb1 hx1s hl hr h1 h2
      exact ⟨s', e1, e2, wrap s' e3⟩
    · obtain ⟨lrl, c3, k3, cc3, x3, lrr, rfl⟩ := node_of_height (t := lr)
        (by have := height_ge ll; omega)
      obtain ⟨s', e1, e2, e3⟩ := step_left_double s s1 fs ll b kb cb xb lrl c3 k3 cc3 x3 lrr a k c
        x x1 r hs1 hbf hz1 hnd1 hord1 hcb1 hx1s hl hr h1 h2
      exact ⟨s', e1, e2, wrap s' e3⟩
  · by_cases h3 : l.height - r.height < -1
    · obtain ⟨rl, b, kb, cb, xb, rr, rfl⟩ := node_of_height (t := r)
        (by have := height_ge l; omega)
      by_cases h2 : rl.height - rr.height < 1
      · obtain ⟨s', e1, e2, e3⟩ := step_right_single s s1 fs l a k c x x1 rl b kb cb xb rr hs1
          hbf hz1 hnd1 hord1 hcb1 hx1s hl hr h1 h3 h2
        exact ⟨s', e1, e2, wrap s' e3⟩
      · obtain ⟨rll, c3, k3, cc3, x3, rlr, rfl⟩ := node_of_height (t := rl)
          (by have := height_ge rr; omega)
        obtain ⟨s', e1, e2, e3⟩ := step_right_double s s1 fs l a k c x x1 rll c3 k3 cc3 x3 rlr b kb
          cb xb rr hs1 hbf hz1 hnd1 hord1 hcb1 hx1s hl hr h1 h3 h2
        exact ⟨s', e1, e2, wrap s' e3⟩
    · refine ⟨s1, ?_, ?_, hk1', fun _ => hf1, ⟨[], by simp [hc1]⟩⟩
      · simp only [AVLBalanceStep, hs1, hbf, h1, h3, if_false]
        rw [zrep_parent hz1 rfl]
      · simp only [BT.fix, h1, h3, if_false]
        subst hx1
        exact hz1

theorem fix_stored (l : BT) (a : Nat) (k : Int) (c : Ptr) (x : Option Int) (r : BT)
    (hl : l.Stored) (hr : r.Stored) : (BT.node l a k c x r).fix.Stored := by
  by_cases h1 : l.height - r.height > 1
  · obtain ⟨ll, b, kb, cb, xb, lr, rfl⟩ := node_of_height (t := l) (by have := height_ge r; omega)
    by_cases h2 : ll.height - lr.height > -1
    · simp only [BT.fix, h1, if_true, BT.bal, h2, BT.rotRight, stored_mk]
      exact ⟨hl.1, hl.2.1, hr⟩
    · obtain ⟨lrl, c3, k3, cc3, x3, lrr, rfl⟩ := node_of_height (t := lr)
        (by have := height_ge ll; omega)
      simp only [BT.fix, h1, if_true, BT.bal, h2, if_false, BT.rotLeft, BT.mk, BT.rotRight,
        BT.Stored, and_true]
      exact ⟨⟨hl.1, hl.2.1.1⟩, hl.2.1.2.1, hr⟩
  · by_cases h3 : l.height - r.height < -1
    · obtain ⟨rl, b, kb, cb, xb, rr, rfl⟩ := node_of_height (t := r)
        (by have := height_ge l; omega)
      by_cases h2 : rl.height - rr.height < 1
      · simp only [BT.fix, h1, h3, if_true, if_false, BT.bal, h2, BT.rotLeft, stored_mk]
        exact ⟨⟨hl, hr.1⟩, hr.2.1⟩
      · obtain ⟨rll, c3, k3, cc3, x3, rlr, rfl⟩ := node_of_height (t := rl)
          (by have := height_ge rr; omega)
        simp only [BT.fix, h1, h3, if_true, if_false, BT.bal, h2, BT.rotRight, BT.mk, BT.rotLeft,
          BT.Stored, and_true]
        exact ⟨⟨hl, hr.1.1⟩, hr.1.2.1, hr.2.1⟩
    · simp only [BT.fix, h1, h3, if_false, stored_mk]
      exact ⟨hl, hr⟩

/-- The loop of `AVLBalance`, started at the parent of the hole of a path whose
siblings have correct stored heights, around a subtree with correct stored
heights, runs to the root and returns. -/
theorem walk_stored (fs : Path) (s : State) (t : BT) (fuel : Nat)
    (hz : ZRep s fs t) (hnd : (ctxAddrs fs ++ t.addrs).Nodup)
    (hord : (plug fs t).Ordered) (hcb : s.cbRotation = true)
    (ht : t.Stored) (hc : CtxStored fs) (hfuel : fs.length ≤ fuel) :
    ∃ s', AVLBalanceLoop fuel (parOf fs) s = some s' ∧ ZRep s' [] (walkUp fs t) ∧
      (walkUp fs t).Stored := by
  induction fs generalizing s t fuel with
  | nil =>
    refine ⟨s, ?_, hz, ht⟩
    cases fuel <;> rfl
  | cons f fs ih =>
    cases fuel with
    | zero => simp at hfuel
    | succ fuel =>
      have hz' := (zrep_cons s f fs t).1 hz
      have hnd' := (nodup_cons_path f fs t).1 hnd
      cases f with
      | L a k c x r =>
        obtain ⟨hr, hx, hc'⟩ := hc
        obtain ⟨s1, hs1, hz1, hk1, -, -⟩ := step_stored s fs t a k c x r hz' hnd' hord hcb hx ht hr
        have hnd1 : (ctxAddrs fs ++ (BT.node t a k c x r).fix.addrs).Nodup := by
          rw [addrs_fix]; exact hnd'
        have hord1 : (plug fs (BT.node t a k c x r).fix).Ordered :=
          ordered_plug_keys hord (keys_fix _)
        obtain ⟨s', hs', hz2, hst⟩ := ih s1 _ fuel hz1 hnd1 hord1
          (hk1.cbRotation.trans hcb) (fix_stored t a k c x r ht hr) hc' (by simpa using hfuel)
        refine ⟨s', ?_, hz2, hst⟩
        simp only [parOf, Frame.addr]; rw [balanceLoop_step, hs1]; exact hs'
      | R l a k c x =>
        obtain ⟨hl, hx, hc'⟩ := hc
        obtain ⟨s1, hs1, hz1, hk1, -, -⟩ := step_stored s fs l a k c x t hz' hnd' hord hcb hx hl ht
        have hnd1 : (ctxAddrs fs ++ (BT.node l a k c x t).fix.addrs).Nodup := by
          rw [addrs_fix]; exact hnd'
        have hord1 : (plug fs (BT.node l a k c x t).fix).Ordered :=
          ordered_plug_keys hord (keys_fix _)
        obtain ⟨s', hs', hz2, hst⟩ := ih s1 _ fuel hz1 hnd1 hord1
          (hk1.cbRotation.trans hcb) (fix_stored l a k c x t hl ht) hc' (by simpa using hfuel)
        refine ⟨s', ?_, hz2, hst⟩
        simp only [parOf, Frame.addr]; rw [balanceLoop_step, hs1]; exact hs'

/-- At a node whose subtrees have correct stored heights the children that the
rotations of the loop body read are there. -/
theorem turn_children (s : State) (fs : Path) (l : BT) (a : Nat) (k : Int) (c : Ptr)
    (x : Option Int) (r : BT)
    (hz : ZRep s fs (.node l a k c x r))
    (hnd : (ctxAddrs fs ++ (BT.node l a k c x r).addrs).Nodup)
    (hx : x.isSome) (hl : l.Stored) (hr : r.Stored) :
    ∃ s1, AVLSetHeight a s = some s1 ∧ AVLBalanceFactor a s1 = some (l.height - r.height) ∧
      (l.height - r.height > 1 → ∃ b, (s1.mem a).pLeftChild = some b ∧
        ∃ n, AVLBalanceFactor b s1 = some n ∧ (¬ n > -1 → (s1.mem b).pRightChild ≠ none)) ∧
      (l.height - r.height < -1 → ∃ b, (s1.mem a).pRightChild = some b ∧
        ∃ n, AVLBalanceFactor b s1 = some n ∧ (¬ n < 1 → (s1.mem b).pLeftChild ≠ none)) := by
  obtain ⟨s1, hs1, hz1, -, -, -⟩ :=
    setHeight_spec s fs l a k c x r hz hnd hx (stored_sh hl) (stored_sh hr)
  have hbf := balanceFactor_eq s1 fs l a k c _ r hz1 (stored_sh hl) (stored_sh hr)
  rw [BT.mk] at hz1
  refine ⟨s1, hs1, hbf, fun h1 => ?_, fun h3 => ?_⟩
  · obtain ⟨ll, b, kb, cb, xb, lr, rfl⟩ := node_of_height (t := l) (by have := height_ge r; omega)
    have hzl := (zrep_cons s1 (.L a k c _ r) fs _).2 hz1
    have hbfl := balanceFactor_eq s1 _ ll b kb cb xb lr hzl (stored_sh hl.1) (stored_sh hl.2.1)
    refine ⟨b, by rw [hz1.sub.1]; rfl, _, hbfl, fun h2 => ?_⟩
    obtain ⟨lrl, c3, k3, cc3, x3, lrr, rfl⟩ := node_of_height (t := lr)
      (by have := height_ge ll; omega)
    rw [hzl.sub.1]
    simp [BT.ptr]
  · obtain ⟨rl, b, kb, cb, xb, rr, rfl⟩ := node_of_height (t := r) (by have := height_ge l; omega)
    have hzr := (zrep_cons s1 (.R l a k c _) fs _).2 hz1
    have hbfr := balanceFactor_eq s1 _ rl b kb cb xb rr hzr (stored_sh hr.1) (stored_sh hr.2.1)
    refine ⟨b, by rw [hz1.sub.1]; rfl, _, hbfr, fun h2 => ?_⟩
    obtain ⟨rll, c3, k3, cc3, x3, rlr, rfl⟩ := node_of_height (t := rl)
      (by have := height_ge rr; omega)
    rw [hzr.sub.1]
    simp [BT.ptr]

/-- From a node of a tree whose other stored heights are correct `AVLBalance`
returns, with the walk up to the root done. -/
theorem balance_stored (s : State) (T : BT) (fs : Path) (l : BT) (a : Nat) (k : Int) (c : Ptr)
    (x : Option Int) (r : BT) (hs : Shape s T) (ho : T.Ordered)
    (hT : plug fs (.node l a k c x r) = T)
    (hcb : s.cbRotation = true) (hx : x.isSome) (hl : l.Stored) (hr : r.Stored)
    (hc : CtxStored fs) :
    ∃ s', AVLBalance (some a) s = some s' ∧
      ZRep s' [] (walkUp fs (BT.node l a k c x r).fix) ∧
      (walkUp fs (BT.node l a k c x r).fix).Stored := by
  have hz := shape_zrep hs fs _ hT
  have hnd : (ctxAddrs fs ++ (BT.node l a k c x r).addrs).Nodup :=
    (nodup_plug fs _).1 (hT ▸ hs.nodup)
  have hlen := length_le_brk hs fs _ hT
  have hord : (plug (.L a k c x r :: fs) l).Ordered := by
    have : (plug fs (.node l a k c x r)).Ordered := hT ▸ ho
    exact this
  have hfuel : (Frame.L a k c x r :: fs).length ≤ s.brk := by
    simp only [BT.size] at hlen
    simp only [List.length_cons]
    omega
  exact walk_stored (.L a k c x r :: fs) s l s.brk ((zrep_cons s _ fs l).2 hz)
    ((nodup_cons_path _ fs l).2 hnd) hord hcb hl ⟨hr, hx, hc⟩ hfuel

/-- The body of the loop of `AVLBalance` at a node out of balance by two whose
subtrees satisfy the AVL invariant: it returns, leaves `fix` of the subtree in
memory, which satisfies the AVL invariant, and goes on at the parent. -/
theorem turn_step (s : State) (fs : Path) (l : BT) (a : Nat) (k : Int) (c : Ptr)
    (x : Option Int) (r : BT)
    (hz : ZRep s fs (.node l a k c x r))
    (hnd : (ctxAddrs fs ++ (BT.node l a k c x r).addrs).Nodup)
    (hord : (plug fs (.node l a k c x r)).Ordered)
    (hcb : s.cbRotation = true) (hx : x.isSome) (hl : l.AVL) (hr : r.AVL)
    (hb : l.height - r.height = 2 ∨ l.height - r.height = -2) :
    ∃ s' t', AVLBalanceStep a s = some (parOf fs, s') ∧
      ZRep s' fs t' ∧ t' = (BT.node l a k c x r).fix ∧ t'.AVL ∧
      t'.keys = (BT.node l a k c x r).keys ∧
      (t'.height = (BT.node l a k c x r).height ∨
        t'.height = (BT.node l a k c x r).height - 1) ∧
      (∃ b, t'.ptr = some b ∧ (s'.mem b).pParent = parOf fs) := by
  obtain ⟨s', h1, h2, -, -, -⟩ :=
    step_stored s fs l a k c x r hz hnd hord hcb hx (avl_stored hl) (avl_stored hr)
  obtain ⟨e1, e2⟩ := fix_avl l a k c x r hl hr (by omega) (by omega)
  refine ⟨s', _, h1, h2, rfl, e1, keys_fix _, ?_, ?_⟩
  · rcases e2 with e2 | ⟨e2, -⟩
    · exact Or.inl e2
    · exact Or.inr e2
  · obtain ⟨l', b, kb, cb, xb, r', hfix⟩ := fix_is_node l a k c x r
    have := h2.sub
    rw [hfix] at this ⊢
    exact ⟨b, rfl, by rw [this.1]⟩
/-! ### The removal of a node with two children, and iteration after a removal -/

/-- Three inserts that give the node with the key 2 two children, then the
removal of that node: the call does not return. -/
theorem stale_none (avl : Bool) : runOps staleOps (newTree avl) = none := by
  cases avl <;> rfl

/-- The inner call of `RemoveNode` in that removal: it frees the node with the
key 1 and moves `pFirst` to the node that is being removed. -/
theorem stale_inner :
    ∃ s0 s2, runOps (insertsOf [(2, none), (1, none), (3, none)]) AllocTree = some s0 ∧
      s0.pRoot = some 0 ∧ (s0.mem 0).nKey = 2 ∧ s0.pFirst = some 1 ∧ (s0.mem 1).nKey = 1 ∧
      GetPrevious 0 s0 = some (some 1) ∧
      RemoveNode s0.brk (some 1) false s0 = some (true, s2) ∧
      s2.pFirst = some 0 ∧ s2.isFreed (some 1) = true ∧ Remove 2 s0 = none :=
  ⟨_, _, rfl, rfl, rfl, rfl, rfl, rfl, rfl, rfl, rfl, rfl⟩

theorem first_null_iff (s : State) (T : BT) (hs : Shape s T) (hf : s.pFirst = T.addrs.head?) :
    s.pFirst = none ↔ s.pRoot = none := by
  rw [hf, hs.rep.root]
  cases T <;> simp [BT.addrs, BT.ptr, rootOf]

/-- After the removal of a key held by a node with at most one child, from a tree
whose `pFirst` is the first node, a forward iteration visits the other keys in
order. -/
theorem forward_after_remove (k : Int) (s : State) (T : BT) (hg : Good s T)
    (hf : s.pFirst = T.addrs.head?) (hk : k ∈ T.keys) (h2 : ¬ TwoChildren k T) :
    ∃ s' xs ys, Remove k s = some (true, s') ∧ T.keys = xs ++ k :: ys ∧
      keysForward s' = some (xs ++ ys) ∧ (xs ++ ys).Pairwise (· < ·) := by
  obtain ⟨s', T', h1, hg', ⟨xs, c, ys, h3, h4⟩, -, -, -, h5⟩ := remove_good k s T hg hk h2
  have e : T'.keys = xs.map Prod.fst ++ ys.map Prod.fst := by
    rw [← toList_keys, h4, List.map_append]
  refine ⟨s', xs.map Prod.fst, ys.map Prod.fst, h1, ?_, ?_, ?_⟩
  · rw [← toList_keys, h3]; simp
  · rw [← e]
    exact keysForward_spec s' T' hg'.shape hg'.ordered (h5 hf)
  · rw [← e]
    exact (ordered_iff T').1 hg'.ordered

theorem demo_two : TwoChildren 2 demoTree := by
  simp [TwoChildren, locate, demoTree]

theorem demo_not_two : ¬ TwoChildren 1 demoTree := by
  simp [TwoChildren, locate, demoTree]
/-! ## The claims -/

theorem demo_shape : Shape demoState demoTree := by
  refine ⟨⟨rfl, trivial, ?_⟩, by decide, by decide⟩
  simp [Rep, demoTree, demoState, demoMem, BT.ptr, parOf]

theorem demo_ordered : demoTree.Ordered := by
  simp [BT.Ordered, demoTree, BT.keys]

/-- C1 does not hold for every sequence of calls. A sequence of `Insert` and
`Remove` calls on a new tree, made by `AllocTree(NULL)` or by `AVLAllocTree()`,
either returns, and then the nodes reachable from the root form a tree in BST
order, or it does not return, and then the first call that does not return is the
`Remove` of a key held by a node with two children in a tree in BST order: in
`RemoveNode` the inner call frees the node that is then linked in. `Insert` of 2,
1 and 3 followed by `Remove(2)` is such a sequence. -/
theorem bst_order_until_two_child_remove (avl : Bool) (ops : List Op) :
    ((∃ s T, runOps ops (newTree avl) = some s ∧ Shape s T ∧ T.Ordered) ∨
      (runOps ops (newTree avl) = none ∧ ∃ ops1 k ops2 s1 T1,
        ops = ops1 ++ .remove k :: ops2 ∧ runOps ops1 (newTree avl) = some s1 ∧
        Shape s1 T1 ∧ T1.Ordered ∧ TwoChildren k T1 ∧ UsesFreed k s1 ∧
        Remove k s1 = none)) ∧
    runOps staleOps (newTree avl) = none := by
  refine ⟨?_, stale_none avl⟩
  rcases good_runOps ops (newTree avl) .nil (good_newTree avl) (by cases avl <;> rfl) with
    ⟨s, T, h1, h2, -⟩ | ⟨h1, ops1, k, ops2, s1, T1, e, h2, h3, -, -, h4, h6, h7⟩
  · exact Or.inl ⟨s, T, h1, h2.shape, h2.ordered⟩
  · exact Or.inr ⟨h1, ops1, k, ops2, s1, T1, e, h2, h3.shape, h3.ordered, h4, h6, h7⟩

/-- C2 does not hold for every sequence of calls. A sequence of `Insert` and
`Remove` calls on a tree made by `AVLAllocTree()` either returns, and then at
every reachable node the heights of the two subtrees (-1 for an absent child)
differ by at most one and the stored height is one more than the larger of them,
or it does not return, and then the first call that does not return is the
`Remove` of a key held by a node with two children in a tree with that
invariant. `Insert` of 1, 2 and 3 followed by `Remove(2)` is such a sequence. -/
theorem avl_invariant_until_two_child_remove (ops : List Op) :
    ((∃ s T, runOps ops AVLAllocTree = some s ∧ Shape s T ∧ T.AVL) ∨
      (runOps ops AVLAllocTree = none ∧ ∃ ops1 k ops2 s1 T1,
        ops = ops1 ++ .remove k :: ops2 ∧ runOps ops1 AVLAllocTree = some s1 ∧
        Shape s1 T1 ∧ T1.AVL ∧ TwoChildren k T1 ∧ UsesFreed k s1 ∧ Remove k s1 = none)) ∧
    runOps [.insert 1 none, .insert 2 none, .insert 3 none, .remove 2] AVLAllocTree = none := by
  refine ⟨?_, rfl⟩
  rcases good_runOps ops (newTree true) .nil (good_newTree true) rfl with
    ⟨s, T, h1, h2, -, h3⟩ | ⟨h1, ops1, k, ops2, s1, T1, e, h2, h3, -, h5, h4, h6, h7⟩
  · exact Or.inl ⟨s, T, h1, h2.shape, avl_of_good h2 (h3 ⟨rfl, rfl, rfl, rfl⟩)⟩
  · exact Or.inr ⟨h1, ops1, k, ops2, s1, T1, e, h2, h3.shape,
      avl_of_good h3 (h5 ⟨rfl, rfl, rfl, rfl⟩), h4, h6, h7⟩

/-- C3: after the inserts of pairwise distinct keys into a new tree, an iterator
attached with `Attach` and advanced with `Next` until it has no position visits
the keys `vs`, one that is attached with `AttachEnd` visits `vs` reversed, and
`vs` is the list of the inserted keys, each once, in strictly increasing order
(so the reversed list is strictly decreasing). -/
theorem iteration_in_key_order (avl : Bool) (kcs : List (Int × Ptr))
    (hd : (kcs.map Prod.fst).Nodup) :
    ∃ s vs, runOps (insertsOf kcs) (newTree avl) = some s ∧
      keysForward s = some vs ∧ keysBackward s = some vs.reverse ∧
      vs.Perm (kcs.map Prod.fst) ∧ vs.Pairwise (· < ·) ∧ vs.reverse.Pairwise (· > ·) := by
  obtain ⟨s, T, h1, h2, h3, h4, -⟩ := good_inserts kcs (newTree avl) .nil (good_newTree avl)
    (by cases avl <;> rfl) (fun _ _ h => by simp [BT.keys] at h) hd
  have hp := (ordered_iff T).1 h2.ordered
  exact ⟨s, T.keys, h1, keysForward_spec s T h2.shape h2.ordered h3,
    keysBackward_spec s T h2.shape h2.ordered, by simpa [BT.keys] using h4, hp,
    List.pairwise_reverse.2 hp⟩

theorem iteration_in_key_order_witness :
    ∃ s vs, runOps (insertsOf [(2, none), (1, some 5), (3, none)]) (newTree true) = some s ∧
      keysForward s = some vs ∧ keysBackward s = some vs.reverse ∧
      vs.Perm ([(2, none), (1, some 5), (3, none)].map Prod.fst) ∧ vs.Pairwise (· < ·) ∧
      vs.reverse.Pairwise (· > ·) :=
  iteration_in_key_order true [(2, none), (1, some 5), (3, none)] (by decide)

/-- C4 does not hold for every sequence of calls. A sequence of `Insert` and
`Remove` calls on a new tree either returns, and then `pFirst` is the first of
the reachable nodes in order, which has the least key, and is `NULL` exactly when
`pRoot` is, or it does not return, and then the first call that does not return
is the `Remove` of a key held by a node with two children. In that case, as after
`Insert` of 2, 1 and 3 in `Remove(2)`: the inner call `RemoveNode` on the node
with the key 1, which is `pFirst`, returns with that node freed and `pFirst`
moved to the node with the key 2 that is being removed, and `Remove(2)` does not
return. -/
theorem pFirst_until_two_child_remove (avl : Bool) (ops : List Op) :
    ((∃ s T, runOps ops (newTree avl) = some s ∧ Shape s T ∧ T.Ordered ∧
        s.pFirst = T.addrs.head? ∧ IsLeast s T s.pFirst ∧
        (s.pFirst = none ↔ s.pRoot = none)) ∨
      (runOps ops (newTree avl) = none ∧ ∃ ops1 k ops2 s1 T1,
        ops = ops1 ++ .remove k :: ops2 ∧ runOps ops1 (newTree avl) = some s1 ∧
        Shape s1 T1 ∧ T1.Ordered ∧ s1.pFirst = T1.addrs.head? ∧ TwoChildren k T1 ∧
        UsesFreed k s1 ∧ Remove k s1 = none)) ∧
    ∃ s0 s2, runOps (insertsOf [(2, none), (1, none), (3, none)]) AllocTree = some s0 ∧
      s0.pRoot = some 0 ∧ (s0.mem 0).nKey = 2 ∧ s0.pFirst = some 1 ∧ (s0.mem 1).nKey = 1 ∧
      GetPrevious 0 s0 = some (some 1) ∧
      RemoveNode s0.brk (some 1) false s0 = some (true, s2) ∧
      s2.pFirst = some 0 ∧ s2.isFreed (some 1) = true ∧ Remove 2 s0 = none := by
  refine ⟨?_, stale_inner⟩
  rcases good_runOps ops (newTree avl) .nil (good_newTree avl) (by cases avl <;> rfl) with
    ⟨s, T, h1, h2, h3, -⟩ | ⟨h1, ops1, k, ops2, s1, T1, e, h2, h3, h5, -, h4, h6, h7⟩
  · exact Or.inl ⟨s, T, h1, h2.shape, h2.ordered, h3,
      h3 ▸ first_least s T h2.shape h2.ordered, first_null_iff s T h2.shape h3⟩
  · exact Or.inr ⟨h1, ops1, k, ops2, s1, T1, e, h2, h3.shape, h3.ordered, h5, h4, h6, h7⟩

/-- C5 does not hold for every sequence of calls. A sequence of `Insert` and
`Remove` calls on a new tree either does not return, the first call that does not
return being the `Remove` of a key held by a node with two children, or it
returns, and then `nSize` is the number of nodes reachable from the root; in that
state an `Insert` of a key the tree does not hold returns `TRUE` and raises
`nSize` by one, a `Remove` of a key held by a node with at most one child returns
`TRUE` and lowers `nSize` by one, and a `Remove` of a key held by a node with two
children uses the node its inner call has freed and does not return. After the inserts of `n` pairwise distinct keys into a
new tree `nSize` is `n`. -/
theorem nSize_until_two_child_remove (avl : Bool) (ops : List Op) :
    ((∃ s T, runOps ops (newTree avl) = some s ∧ Shape s T ∧ s.nSize = T.size ∧
        (∀ k c, k ∉ T.keys → ∃ s', Insert k c s = some (true, s') ∧ s'.nSize = s.nSize + 1) ∧
        (∀ k, k ∈ T.keys → ¬ TwoChildren k T →
          ∃ s', Remove k s = some (true, s') ∧ s'.nSize = s.nSize - 1) ∧
        (∀ k, TwoChildren k T → UsesFreed k s ∧ Remove k s = none)) ∨
      (runOps ops (newTree avl) = none ∧ ∃ ops1 k ops2 s1 T1,
        ops = ops1 ++ .remove k :: ops2 ∧ runOps ops1 (newTree avl) = some s1 ∧
        Shape s1 T1 ∧ s1.nSize = T1.size ∧ TwoChildren k T1 ∧ UsesFreed k s1 ∧
        Remove k s1 = none)) ∧
    (∀ kcs : List (Int × Ptr), (kcs.map Prod.fst).Nodup →
      ∃ s, runOps (insertsOf kcs) (newTree avl) = some s ∧ s.nSize = kcs.length) := by
  refine ⟨?_, size_after_inserts avl⟩
  rcases good_runOps ops (newTree avl) .nil (good_newTree avl) (by cases avl <;> rfl) with
    ⟨s, T, h1, h2, -⟩ | ⟨h1, ops1, k, ops2, s1, T1, e, h2, h3, -, -, h4, h6, h7⟩
  · exact Or.inl ⟨s, T, h1, h2.shape, h2.size, fun k c hk => size_after_insert k c s T h2 hk,
      fun k hk hn => size_after_remove k s T h2 hk hn,
      fun k hk => ⟨remove_uses_freed k s T h2 hk, remove_two_none k s T h2.shape hk⟩⟩
  · exact Or.inr ⟨h1, ops1, k, ops2, s1, T1, e, h2, h3.shape, h3.size, h4, h6, h7⟩

/-- C6: in a BST-ordered tree that holds the key `k`, `Insert k c` returns `FALSE`
for every content `c` and leaves the tree as it was: root, first, size, iterator
count and recorded callbacks are the same, every address that was allocated
keeps its whole record (so every reachable node keeps key, content, links and
auxiliary state), and the reachable nodes still form the same tree. -/
theorem insert_existing_key_unchanged (k : Int) (c : Ptr) (s : State) (T : BT)
    (hs : Shape s T) (ho : T.Ordered) (hk : k ∈ T.keys) :
    ∃ s', Insert k c s = some (false, s') ∧
      s'.pRoot = s.pRoot ∧ s'.pFirst = s.pFirst ∧ s'.nSize = s.nSize ∧
      s'.nIterators = s.nIterators ∧ s'.calls = s.calls ∧
      (∀ a, a < s.brk → s'.mem a = s.mem a) ∧
      (∀ a ∈ T.addrs, s'.mem a = s.mem a) ∧ Shape s' T := by
  refine ⟨FreeNode s.brk (insertStart k c s), insert_dup k c s T hs ho hk, rfl, rfl, rfl, rfl,
    rfl, ?_, ?_, ?_⟩
  · intro a ha
    show (insertStart k c s).mem a = _
    rw [insertStart_mem]
    exact Function.update_noteq (by omega) _ _
  · intro a ha
    show (insertStart k c s).mem a = _
    rw [insertStart_mem]
    exact update_of_mem ha (shape_fresh hs)
  · refine ⟨⟨hs.rep.root, trivial, ?_⟩, hs.nodup, fun a ha => ?_⟩
    · refine rep_congr hs.rep.sub (fun a ha => ?_)
      show (insertStart k c s).mem a = _
      rw [insertStart_mem]
      exact update_of_mem ha (shape_fresh hs)
    · have := hs.lt_brk a ha
      show a < s.brk + 1
      omega

theorem insert_existing_key_unchanged_witness :
    ∃ s', Insert 3 (some 7) demoState = some (false, s') ∧
      s'.pRoot = demoState.pRoot ∧ s'.pFirst = demoState.pFirst ∧
      s'.nSize = demoState.nSize ∧ s'.nIterators = demoState.nIterators ∧
      s'.calls = demoState.calls ∧
      (∀ a, a < demoState.brk → s'.mem a = demoState.mem a) ∧
      (∀ a ∈ demoTree.addrs, s'.mem a = demoState.mem a) ∧ Shape s' demoTree :=
  insert_existing_key_unchanged 3 (some 7) demoState demoTree demo_shape demo_ordered
    (by decide)

/-- C7: in a BST-ordered tree `Search k` returns the content of the reachable
node with the key `k` when there is one and `NULL` when there is none (`Search`
only reads the tree); and in a well-formed tree without the key `k`, after the
successful `Insert k c` the search for `k` returns `c` and the search for every
other key returns what it returned before. -/
theorem search_returns_content (s : State) (T : BT) (hs : Shape s T) (ho : T.Ordered)
    (k : Int) :
    (∀ c, (k, c) ∈ T.toList → Search k s = some c) ∧
    (k ∉ T.keys → Search k s = some none) ∧
    (Good s T → k ∉ T.keys → ∀ c, ∃ s', Insert k c s = some (true, s') ∧
      Search k s' = some c ∧ ∀ j, j ≠ k → Search j s' = Search j s) :=
  ⟨fun c hc => search_found s T hs ho k c hc, fun hk => search_absent s T hs ho k hk,
    fun hg hk c => search_after_insert k c s T hg hk⟩

theorem search_returns_content_witness :
    (∀ c, ((5 : Int), c) ∈ demoTree.toList → Search 5 demoState = some c) ∧
    ((5 : Int) ∉ demoTree.keys → Search 5 demoState = some none) ∧
    (Good demoState demoTree → (5 : Int) ∉ demoTree.keys → ∀ c, ∃ s',
      Insert 5 c demoState = some (true, s') ∧
      Search 5 s' = some c ∧ ∀ j, j ≠ 5 → Search j s' = Search j demoState) :=
  search_returns_content demoState demoTree demo_shape demo_ordered 5

/-- C8 holds for a node with at most one child only. In a well-formed tree
(without callbacks or with the AVL callbacks) that holds the key `k`: when the
node with `k` has at most one child, `Remove k` returns `TRUE`, and afterwards
the nodes reachable from the root form a BST-ordered tree whose in-order list of
key and content pairs is the list before with the entry of `k` taken out, the
search for `k` returns `NULL` and the search for every other key returns what it
returned before; when the node with `k` has two children, the inner call of
`RemoveNode` returns with the node it was given freed, that node is written next,
and `Remove k` does not return. -/
theorem remove_deletes_entry_one_child (k : Int) (s : State) (T : BT) (hg : Good s T)
    (hk : k ∈ T.keys) :
    (¬ TwoChildren k T →
      ∃ s' T' xs c ys, Remove k s = some (true, s') ∧ Shape s' T' ∧ T'.Ordered ∧
        T.toList = xs ++ (k, c) :: ys ∧ T'.toList = xs ++ ys ∧
        Search k s' = some none ∧ ∀ j, j ≠ k → Search j s' = Search j s) ∧
    (TwoChildren k T → UsesFreed k s ∧ Remove k s = none) := by
  refine ⟨fun h2 => ?_, fun h2 =>
    ⟨remove_uses_freed k s T hg h2, remove_two_none k s T hg.shape h2⟩⟩
  obtain ⟨s', T', xs, c, ys, h1, h2, h3, h4, h5, h6⟩ := remove_entry k s T hg hk h2
  exact ⟨s', T', xs, c, ys, h1, h2.shape, h2.ordered, h3, h4, h5, h6⟩

theorem remove_deletes_entry_one_child_witness :
    (∃ s' T' xs c ys, Remove 1 demoState = some (true, s') ∧ Shape s' T' ∧ T'.Ordered ∧
      demoTree.toList = xs ++ (1, c) :: ys ∧ T'.toList = xs ++ ys ∧
      Search 1 s' = some none ∧ ∀ j, j ≠ 1 → Search j s' = Search j demoState) ∧
    TwoChildren 2 demoTree ∧ UsesFreed 2 demoState ∧ Remove 2 demoState = none :=
  ⟨(remove_deletes_entry_one_child 1 demoState demoTree demo_good (by decide)).1 demo_not_two,
    demo_two,
    (remove_deletes_entry_one_child 2 demoState demoTree demo_good (by decide)).2 demo_two⟩

/-- C9: in a BST-ordered tree that does not hold the key `k`, `Remove k` returns
`FALSE` and the state it returns is the state it was given: root, first, size,
iterator count, every node and the list of callbacks invoked are unchanged. -/
theorem remove_absent_key_unchanged (k : Int) (s : State) (T : BT)
    (hs : Shape s T) (ho : T.Ordered) (hk : k ∉ T.keys) :
    Remove k s = some (false, s) :=
  remove_absent k s T hs ho hk

theorem remove_absent_key_unchanged_witness :
    Remove 5 demoState = some (false, demoState) :=
  remove_absent_key_unchanged 5 demoState demoTree demo_shape demo_ordered (by decide)

/-- C10: when the iterator count is positive `FreeTree` returns `FALSE` and the
state it returns is the state it was given, whatever the fuel of its loop: no
node is removed and nothing is written. -/
theorem freeTree_refused (fuel : Nat) (s : State) (h : s.nIterators > 0) :
    FreeTree fuel s = some (false, s) := by
  simp [FreeTree, h]

theorem freeTree_refused_witness :
    FreeTree 5 { demoState with nIterators := 1 } =
      some (false, { demoState with nIterators := 1 }) :=
  freeTree_refused 5 { demoState with nIterators := 1 } (by decide)

/-- C11, where the code departs from it: in a tree without attached iterators
whose `nSize` is positive `FreeTree` does not return, however much fuel its loop
is given: `RemoveNode` removes nodes without lowering `nSize`, so the test of
the loop `while (pTree->nSize > 0)` never fails. -/
theorem freeTree_never_returns (fuel : Nat) (s : State) (hi : s.nIterators = 0)
    (hn : s.nSize > 0) : FreeTree fuel s = none := by
  have h : ¬ s.nIterators > 0 := by omega
  simp [FreeTree, h, freeTreeLoop_none fuel s hn]

theorem freeTree_never_returns_witness : FreeTree 1000 demoState = none :=
  freeTree_never_returns 1000 demoState (by decide) (by decide)

/-- C12: in a BST-ordered tree with consistent links, without a rotation callback
or with the AVL one and the stored heights it reads, `LeftRotation` at a node `a`
with the right child `b` returns `b`; afterwards `b` stands where `a` stood with
`a` as its left child, the former left subtree of `b` is the right subtree of
`a`, the reachable nodes still form a BST-ordered tree with consistent links and
the same in-order keys, `nSize` is unchanged, and `pFirst` is unchanged when it
is the leftmost node of the tree, as the invariant of the tree says.  The same
for `RightRotation` at a node `a` with the left child `b`, mirrored. -/
theorem rotation_keeps_tree (s : State) (T : BT) (hs : Shape s T) (ho : T.Ordered) :
    (∀ fs l a ka ca xa rl b kb cb xb rr,
      plug fs (.node l a ka ca xa (.node rl b kb cb xb rr)) = T →
      (s.cbRotation = false ∨ (s.cbRotation = true ∧ xa.isSome ∧ xb.isSome ∧
        l.sh = some l.height ∧ rl.sh = some rl.height ∧ rr.sh = some rr.height)) →
      ∃ s' xa' xb', LeftRotation a s = some (b, s') ∧
        Shape s' (plug fs (.node (.node l a ka ca xa' rl) b kb cb xb' rr)) ∧
        (plug fs (.node (.node l a ka ca xa' rl) b kb cb xb' rr)).Ordered ∧
        (plug fs (.node (.node l a ka ca xa' rl) b kb cb xb' rr)).keys = T.keys ∧
        s'.nSize = s.nSize ∧ (s.pFirst = T.addrs.head? → s'.pFirst = s.pFirst)) ∧
    (∀ fs ll b kb cb xb lr a ka ca xa r,
      plug fs (.node (.node ll b kb cb xb lr) a ka ca xa r) = T →
      (s.cbRotation = false ∨ (s.cbRotation = true ∧ xa.isSome ∧ xb.isSome ∧
        ll.sh = some ll.height ∧ lr.sh = some lr.height ∧ r.sh = some r.height)) →
      ∃ s' xa' xb', RightRotation a s = some (b, s') ∧
        Shape s' (plug fs (.node ll b kb cb xb' (.node lr a ka ca xa' r))) ∧
        (plug fs (.node ll b kb cb xb' (.node lr a ka ca xa' r))).Ordered ∧
        (plug fs (.node ll b kb cb xb' (.node lr a ka ca xa' r))).keys = T.keys ∧
        s'.nSize = s.nSize ∧ (s.pFirst = T.addrs.head? → s'.pFirst = s.pFirst)) :=
  ⟨fun fs l a ka ca xa rl b kb cb xb rr hT hcb =>
      leftRotation_tree s T fs l a ka ca xa rl b kb cb xb rr hs ho hT hcb,
    fun fs ll b kb cb xb lr a ka ca xa r hT hcb =>
      rightRotation_tree s T fs ll b kb cb xb lr a ka ca xa r hs ho hT hcb⟩

theorem rotation_keeps_tree_witness :
    ∃ s' xa' xb', LeftRotation 0 demoState = some (2, s') ∧
      Shape s' (plug [] (.node (.node (.node .nil 1 1 (some 10) none .nil) 0 2 (some 20) xa' .nil)
        2 3 (some 30) xb' .nil)) ∧
      (plug [] (.node (.node (.node .nil 1 1 (some 10) none .nil) 0 2 (some 20) xa' .nil)
        2 3 (some 30) xb' .nil)).Ordered ∧
      (plug [] (.node (.node (.node .nil 1 1 (some 10) none .nil) 0 2 (some 20) xa' .nil)
        2 3 (some 30) xb' .nil)).keys = demoTree.keys ∧
      s'.nSize = demoState.nSize ∧
      (demoState.pFirst = demoTree.addrs.head? → s'.pFirst = demoState.pFirst) :=
  (rotation_keeps_tree demoState demoTree demo_shape demo_ordered).1 []
    (.node .nil 1 1 (some 10) none .nil) 0 2 (some 20) none .nil 2 3 (some 30) none .nil rfl
    (Or.inl rfl)

/-- C13: the inserts of 10, 20 and 30, in that order and with any contents, into a
tree made by `AVLAllocTree()`.  After the first two the node with key 10 is the
root and the node with key 20 its right child, and no rotation callback has run.
After the third the callbacks that have run are the three insert callbacks and
one rotation callback, for the node with key 10; the root is the node with key
20 and stored height 1, its left child the node with key 10 and its right child
the node with key 30, both without children and with stored height 0: the node
with key 10 went down to the left of its former right child, a left rotation. -/
theorem avl_insert_10_20_30 (c1 c2 c3 : Ptr) :
    (∃ s2, runOps (insertsOf [(10, c1), (20, c2)]) AVLAllocTree = some s2 ∧
      s2.calls = [.cbInsert 0, .cbInsert 1] ∧ s2.pRoot = some 0 ∧
      s2.mem 0 = ⟨none, some 1, none, 10, c1, some 1⟩ ∧
      s2.mem 1 = ⟨none, none, some 0, 20, c2, some 0⟩) ∧
    (∃ s, runOps (insertsOf [(10, c1), (20, c2), (30, c3)]) AVLAllocTree = some s ∧
      s.calls = [.cbInsert 0, .cbInsert 1, .cbInsert 2, .cbRotation 0] ∧
      s.pRoot = some 1 ∧
      s.mem 1 = ⟨some 0, some 2, none, 20, c2, some 1⟩ ∧
      s.mem 0 = ⟨none, none, some 1, 10, c1, some 0⟩ ∧
      s.mem 2 = ⟨none, none, some 1, 30, c3, some 0⟩) := by
  have h2 : (runOps (insertsOf [(10, c1), (20, c2)]) AVLAllocTree).map
      (fun s => (s.calls, s.pRoot, s.mem 0, s.mem 1)) =
      some ([.cbInsert 0, .cbInsert 1], some 0, ⟨none, some 1, none, 10, c1, some 1⟩,
        ⟨none, none, some 0, 20, c2, some 0⟩) := by
    simp [runOps, insertsOf, applyOp, Insert, AllocNode, AVLAllocTree, AllocTree,
      State.setKeyContent, InsertNode, InsertNodeLoop, AttachNodes, AVLBalance, AVLBalanceLoop,
      AVLSetHeight, AVLGetHeight, AVLBalanceFactor, LeftRotation, RightRotation, callRotation,
      AVLRotationSetHeights, State.record, State.setLeft, State.setRight, State.setParent,
      State.setHeight, blankNode, Function.update]
  have h3 : (runOps (insertsOf [(10, c1), (20, c2), (30, c3)]) AVLAllocTree).map
      (fun s => (s.calls, s.pRoot, s.mem 1, s.mem 0, s.mem 2)) =
      some ([.cbInsert 0, .cbInsert 1, .cbInsert 2, .cbRotation 0], some 1,
        ⟨some 0, some 2, none, 20, c2, some 1⟩, ⟨none, none, some 1, 10, c1, some 0⟩,
        ⟨none, none, some 1, 30, c3, some 0⟩) := by
    simp [runOps, insertsOf, applyOp, Insert, AllocNode, AVLAllocTree, AllocTree,
      State.setKeyContent, InsertNode, InsertNodeLoop, AttachNodes, AVLBalance, AVLBalanceLoop,
      AVLSetHeight, AVLGetHeight, AVLBalanceFactor, LeftRotation, RightRotation, callRotation,
      AVLRotationSetHeights, State.record, State.setLeft, State.setRight, State.setParent,
      State.setHeight, blankNode, Function.update]
  obtain ⟨s2, e2, p2⟩ := Option.map_eq_some'.1 h2
  obtain ⟨s, e3, p3⟩ := Option.map_eq_some'.1 h3
  simp only [Prod.mk.injEq] at p2 p3
  exact ⟨⟨s2, e2, p2.1, p2.2.1, p2.2.2.1, p2.2.2.2⟩,
    ⟨s, e3, p3.1, p3.2.1, p3.2.2.1, p3.2.2.2.1, p3.2.2.2.2⟩⟩

/-- C14 holds for a node with at most one child only. In a well-formed tree that
holds the key `k` with the content `c`: when the node with `k` has at most one
child, `Remove k` and then `Insert k c` both return `TRUE`, and afterwards the
reachable nodes form a BST-ordered tree, `nSize` is what it was at the start, the
in-order list of key and content pairs is the one of the start, and `Search k`
returns `c`; when the node with `k` has two children, the inner call of
`RemoveNode` returns with the node it was given freed, that node is written next,
and `Remove k` does not return. -/
theorem remove_then_insert_one_child (k : Int) (c : Ptr) (s : State) (T : BT)
    (hg : Good s T) (hk : (k, c) ∈ T.toList) :
    (¬ TwoChildren k T →
      ∃ s1 s2 T2, Remove k s = some (true, s1) ∧ Insert k c s1 = some (true, s2) ∧
        Shape s2 T2 ∧ T2.Ordered ∧ s2.nSize = s.nSize ∧ T2.toList = T.toList ∧
        Search k s2 = some c) ∧
    (TwoChildren k T → UsesFreed k s ∧ Remove k s = none) := by
  refine ⟨fun h2 => ?_, fun h2 =>
    ⟨remove_uses_freed k s T hg h2, remove_two_none k s T hg.shape h2⟩⟩
  obtain ⟨s1, s2, T2, h1, h2, h3, h4, h5, h6⟩ := remove_insert_restores k c s T hg hk h2
  exact ⟨s1, s2, T2, h1, h2, h3.shape, h3.ordered, h4, h5, h6⟩

theorem remove_then_insert_one_child_witness :
    (∃ s1 s2 T2, Remove 1 demoState = some (true, s1) ∧
      Insert 1 (some 10) s1 = some (true, s2) ∧
      Shape s2 T2 ∧ T2.Ordered ∧ s2.nSize = demoState.nSize ∧
      T2.toList = demoTree.toList ∧ Search 1 s2 = some (some 10)) ∧
    TwoChildren 2 demoTree ∧ UsesFreed 2 demoState ∧ Remove 2 demoState = none :=
  ⟨(remove_then_insert_one_child 1 (some 10) demoState demoTree demo_good
      (by decide)).1 demo_not_two,
    demo_two,
    (remove_then_insert_one_child 2 (some 20) demoState demoTree demo_good
      (by decide)).2 demo_two⟩

/-- C15 as stated fails: an iterator that was attached with `AttachEnd` and then
detached keeps the direction `BACKWARD`, and `Attach` puts it on the last node
of the tree (address 2, key 3), not on the first (address 1, key 1). -/
theorem attach_after_attachEnd_is_at_last :
    ∃ it1 s1 it3 s3, AttachEnd AllocIterator demoState = some (it1, s1) ∧
      (Detach it1 s1).1.pTree = false ∧
      Attach (Detach it1 s1).1 (Detach it1 s1).2 = some (it3, s3) ∧
      it3.pNode = some 2 ∧ (demoState.mem 2).nKey = 3 ∧
      demoTree.addrs.head? = some 1 ∧ demoState.pFirst = some 1 ∧
      it3.pNode ≠ demoTree.addrs.head? :=
  ⟨_, _, _, _, rfl, rfl, rfl, rfl, rfl, rfl, rfl, by decide⟩

/-- C15 amended: on a BST-ordered tree, `Attach` binds the iterator to the tree
and raises the iterator count by one; when the direction of the iterator is
`FORWARD` (as `AllocIterator` leaves it) it puts the iterator on `pFirst`, which
is the node with the least key when `pFirst` is the leftmost node of the tree,
and otherwise (as after an earlier `AttachEnd`: `Detach` keeps the direction) on
the node with the greatest key; `AttachEnd` sets the direction to `BACKWARD`,
binds the iterator, raises the count by one and puts it on the node with the
greatest key.  On an empty tree these positions are `NULL`. -/
theorem attach_by_direction (it : Iterator) (s : State) (T : BT) (hs : Shape s T)
    (ho : T.Ordered) :
    (it.ucDirection = FORWARD →
      Attach it s = some (⟨true, s.pFirst, it.ucDirection⟩,
        { s with nIterators := s.nIterators + 1 }) ∧
      (s.pFirst = T.addrs.head? → IsLeast s T s.pFirst)) ∧
    (it.ucDirection ≠ FORWARD → ∃ p, IsGreatest s T p ∧
      Attach it s = some (⟨true, p, it.ucDirection⟩,
        { s with nIterators := s.nIterators + 1 })) ∧
    (∃ p, IsGreatest s T p ∧
      AttachEnd it s = some (⟨true, p, BACKWARD⟩,
        { s with nIterators := s.nIterators + 1 })) ∧
    (Detach it s).1.ucDirection = it.ucDirection ∧ AllocIterator.ucDirection = FORWARD := by
  obtain ⟨l, hl, hl1, hl2⟩ := getLast_greatest s T hs ho
  have hl' : l = T.addrs.getLast? := by
    have := getLast_spec s T hs
    rw [hl] at this
    exact Option.some.inj this
  subst hl'
  refine ⟨fun hd => ⟨attach_forward it s hd, fun hf => hf ▸ first_least s T hs ho⟩,
    fun hd => ⟨_, ⟨hl1, hl2⟩, attach_backward it s T hs hd⟩,
    ⟨_, ⟨hl1, hl2⟩, attachEnd_spec it s T hs⟩, ?_, rfl⟩
  unfold Detach
  split_ifs <;> rfl

theorem attach_by_direction_witness :
    (AllocIterator.ucDirection = FORWARD →
      Attach AllocIterator demoState = some (⟨true, demoState.pFirst, AllocIterator.ucDirection⟩,
        { demoState with nIterators := demoState.nIterators + 1 }) ∧
      (demoState.pFirst = demoTree.addrs.head? → IsLeast demoState demoTree demoState.pFirst)) ∧
    (AllocIterator.ucDirection ≠ FORWARD → ∃ p, IsGreatest demoState demoTree p ∧
      Attach AllocIterator demoState = some (⟨true, p, AllocIterator.ucDirection⟩,
        { demoState with nIterators := demoState.nIterators + 1 })) ∧
    (∃ p, IsGreatest demoState demoTree p ∧
      AttachEnd AllocIterator demoState = some (⟨true, p, BACKWARD⟩,
        { demoState with nIterators := demoState.nIterators + 1 })) ∧
    (Detach AllocIterator demoState).1.ucDirection = AllocIterator.ucDirection ∧
    AllocIterator.ucDirection = FORWARD :=
  attach_by_direction AllocIterator demoState demoTree demo_shape demo_ordered

/-- C16: on a BST-ordered tree, for an iterator that stands on a node of the tree
`Next` returns what `Current` returns, the content of that node, and leaves the
iterator on the in-order successor of the node when the direction is `FORWARD`
and on its in-order predecessor when it is `BACKWARD` (`NULL` when there is
none), with the tree and the direction of the iterator as they were; for an
iterator whose position is `NULL`, `Current` and `Next` return `NULL` and `Next`
leaves the iterator as it is, so that every later `Next` does the same.
`Current` only reads the iterator. -/
theorem next_returns_current_and_advances (it : Iterator) (s : State) (T : BT)
    (hs : Shape s T) (ho : T.Ordered) :
    (∀ a, it.pNode = some a → a ∈ T.addrs →
      ∃ n, Next it s = some (Current it s, ⟨it.pTree, n, it.ucDirection⟩) ∧
        Current it s = (s.mem a).pContent ∧
        (it.ucDirection = FORWARD → IsSuccessor s T a n) ∧
        (it.ucDirection = BACKWARD → IsPredecessor s T a n)) ∧
    (it.pNode = none → Next it s = some (none, it) ∧ Current it s = none) := by
  refine ⟨fun a hp ha => ?_, fun hp => next_exhausted it s hp⟩
  obtain ⟨n, h1, h2, h3, h4⟩ := next_at_node it s T hs ho a hp ha
  exact ⟨n, h1, h2, h3, fun hd => h4 (by rw [hd]; decide)⟩

theorem next_returns_current_and_advances_witness :
    (∀ a, (⟨true, some 0, FORWARD⟩ : Iterator).pNode = some a → a ∈ demoTree.addrs →
      ∃ n, Next ⟨true, some 0, FORWARD⟩ demoState =
          some (Current ⟨true, some 0, FORWARD⟩ demoState,
            ⟨(⟨true, some 0, FORWARD⟩ : Iterator).pTree, n,
              (⟨true, some 0, FORWARD⟩ : Iterator).ucDirection⟩) ∧
        Current ⟨true, some 0, FORWARD⟩ demoState = (demoState.mem a).pContent ∧
        ((⟨true, some 0, FORWARD⟩ : Iterator).ucDirection = FORWARD →
          IsSuccessor demoState demoTree a n) ∧
        ((⟨true, some 0, FORWARD⟩ : Iterator).ucDirection = BACKWARD →
          IsPredecessor demoState demoTree a n)) ∧
    ((⟨true, some 0, FORWARD⟩ : Iterator).pNode = none →
      Next ⟨true, some 0, FORWARD⟩ demoState = some (none, ⟨true, some 0, FORWARD⟩) ∧
        Current ⟨true, some 0, FORWARD⟩ demoState = none) :=
  next_returns_current_and_advances ⟨true, some 0, FORWARD⟩ demoState demoTree demo_shape
    demo_ordered

/-- C17: `Detach` on an iterator that is bound to the tree unbinds it and lowers
the iterator count of the tree by exactly one; on an iterator that is not bound
it changes neither the iterator nor the tree; so `Detach` after `Detach` gives
what one `Detach` gives. -/
theorem detach_once_or_twice (it : Iterator) (s : State) :
    (it.pTree = true → Detach it s =
      (⟨false, it.pNode, it.ucDirection⟩, { s with nIterators := s.nIterators - 1 })) ∧
    (it.pTree = false → Detach it s = (it, s)) ∧
    Detach (Detach it s).1 (Detach it s).2 = Detach it s := by
  refine ⟨fun h => by simp [Detach, h], fun h => by simp [Detach, h], ?_⟩
  cases h : it.pTree <;> simp [Detach, h]

/-- C18: in a BST-ordered tree with consistent links, for every reachable node
`GetNext` returns the reachable node with the least key above the key of the
node, or `NULL` when the node holds the greatest key, and `GetPrevious` returns
the reachable node with the greatest key below it, or `NULL` when the node holds
the least key; `GetLast` returns the reachable node with the greatest key, or
`NULL` for the empty tree. -/
theorem neighbours_by_key (s : State) (T : BT) (hs : Shape s T) (ho : T.Ordered) :
    (∀ a ∈ T.addrs, ∃ n p, GetNext a s = some n ∧ IsSuccessor s T a n ∧
      GetPrevious a s = some p ∧ IsPredecessor s T a p) ∧
    ∃ l, GetLast s = some l ∧ IsGreatest s T l := by
  refine ⟨fun a ha => ?_, ?_⟩
  · obtain ⟨n, hn, h1, h2⟩ := getNext_least s T hs ho a ha
    obtain ⟨p, hp, h3, h4⟩ := getPrevious_greatest s T hs ho a ha
    exact ⟨n, p, hn, ⟨h1, h2⟩, hp, ⟨h3, h4⟩⟩
  · obtain ⟨l, hl, h1, h2⟩ := getLast_greatest s T hs ho
    exact ⟨l, hl, h1, h2⟩

theorem neighbours_by_key_witness :
    (∀ a ∈ demoTree.addrs, ∃ n p, GetNext a demoState = some n ∧
      IsSuccessor demoState demoTree a n ∧
      GetPrevious a demoState = some p ∧ IsPredecessor demoState demoTree a p) ∧
    ∃ l, GetLast demoState = some l ∧ IsGreatest demoState demoTree l :=
  neighbours_by_key demoState demoTree demo_shape demo_ordered

/-- C19, evaluated where the code departs from it: in the tree with the AVL
callbacks after `Insert` of 2, 1, 3 and 4 the node with key 3 (address 2) has no
left child, the right child with key 4 (address 3) and the parent with key 2
(address 0).  `Remove(3)` returns `TRUE` and puts the node at address 3 in the
place of the removed one, and the one remove callback it makes is called with
the parent, address 0, not with the node at address 3 that took the place. -/
theorem remove_hook_gets_parent :
    ∃ s s', runOps hookOps AVLAllocTree = some s ∧
      (s.mem 2).nKey = 3 ∧ (s.mem 2).pLeftChild = none ∧ (s.mem 2).pRightChild = some 3 ∧
      (s.mem 2).pParent = some 0 ∧ (s.mem 0).nKey = 2 ∧ (s.mem 3).nKey = 4 ∧
      Remove 3 s = some (true, s') ∧
      (s'.mem 0).pRightChild = some 3 ∧ (s'.mem 3).pParent = some 0 ∧
      s'.calls = s.calls ++ [.cbRemove (some 0) true] :=
  ⟨_, _, rfl, rfl, rfl, rfl, rfl, rfl, rfl, rfl, rfl, rfl, rfl⟩

/-- C20: at a node of a tree with the AVL rotation callback whose two subtrees
satisfy the AVL invariant with correct stored heights and whose balance factor
is 2 or -2, the body of the loop of `AVLBalance` at that node returns and leaves
in its place a subtree that satisfies the AVL invariant with correct stored heights,
has the same in-order keys, and is as high as the old one or lower by one; the
subtree is the old one after a single rotation when the balance factor of the
heavy child does not have the opposite sign and after a double rotation when it
has; and the loop goes on from the parent of the new root of the subtree with
the state the body has left. -/
theorem avlBalance_turn (s : State) (fs : Path) (l : BT) (a : Nat) (k : Int) (c : Ptr)
    (x : Option Int) (r : BT)
    (hz : ZRep s fs (.node l a k c x r))
    (hnd : (ctxAddrs fs ++ (BT.node l a k c x r).addrs).Nodup)
    (hord : (plug fs (.node l a k c x r)).Ordered)
    (hcb : s.cbRotation = true) (hx : x.isSome) (hl : l.AVL) (hr : r.AVL)
    (hb : l.height - r.height = 2 ∨ l.height - r.height = -2) :
    ∃ s' t', AVLBalanceStep a s = some (parOf fs, s') ∧
      (∀ fuel, AVLBalanceLoop (fuel + 1) (some a) s = AVLBalanceLoop fuel (parOf fs) s') ∧
      ZRep s' fs t' ∧ t'.AVL ∧ t'.keys = (BT.node l a k c x r).keys ∧
      (t'.height = (BT.node l a k c x r).height ∨
        t'.height = (BT.node l a k c x r).height - 1) ∧
      (∃ b, t'.ptr = some b ∧ (s'.mem b).pParent = parOf fs) ∧
      (l.height - r.height = 2 → l.bal > -1 → t' = BT.rotRight (.node l a k c x r)) ∧
      (l.height - r.height = 2 → ¬ l.bal > -1 →
        t' = BT.rotRight (.node (BT.rotLeft l) a k c x r)) ∧
      (l.height - r.height = -2 → r.bal < 1 → t' = BT.rotLeft (.node l a k c x r)) ∧
      (l.height - r.height = -2 → ¬ r.bal < 1 →
        t' = BT.rotLeft (.node l a k c x (BT.rotRight r))) := by
  obtain ⟨s', t', h1, h2, h3, h4, h5, h6, h7⟩ :=
    turn_step s fs l a k c x r hz hnd hord hcb hx hl hr hb
  obtain ⟨f1, f2, f3, f4⟩ := fix_cases l a k c x r
  subst h3
  exact ⟨s', _, h1, fun fuel => by rw [balanceLoop_step, h1], h2, h4, h5, h6, h7,
    f1, f2, f3, f4⟩

theorem avlBalance_turn_witness :
    ∃ s' t', AVLBalanceStep 0 tiltState = some (parOf [], s') ∧
      (∀ fuel, AVLBalanceLoop (fuel + 1) (some 0) tiltState =
        AVLBalanceLoop fuel (parOf []) s') ∧
      ZRep s' [] t' ∧ t'.AVL ∧
      t'.keys = (BT.node .nil 0 10 none (some 1)
        (.node .nil 1 20 none (some 1) (.node .nil 2 30 none (some 0) .nil))).keys ∧
      (t'.height = (BT.node .nil 0 10 none (some 1)
          (.node .nil 1 20 none (some 1) (.node .nil 2 30 none (some 0) .nil))).height ∨
        t'.height = (BT.node .nil 0 10 none (some 1)
          (.node .nil 1 20 none (some 1) (.node .nil 2 30 none (some 0) .nil))).height - 1) ∧
      (∃ b, t'.ptr = some b ∧ (s'.mem b).pParent = parOf []) ∧
      (BT.nil.height - (BT.node .nil 1 20 none (some 1)
          (.node .nil 2 30 none (some 0) .nil)).height = 2 → BT.nil.bal > -1 →
        t' = BT.rotRight (.node .nil 0 10 none (some 1)
          (.node .nil 1 20 none (some 1) (.node .nil 2 30 none (some 0) .nil)))) ∧
      (BT.nil.height - (BT.node .nil 1 20 none (some 1)
          (.node .nil 2 30 none (some 0) .nil)).height = 2 → ¬ BT.nil.bal > -1 →
        t' = BT.rotRight (.node (BT.rotLeft .nil) 0 10 none (some 1)
          (.node .nil 1 20 none (some 1) (.node .nil 2 30 none (some 0) .nil)))) ∧
      (BT.nil.height - (BT.node .nil 1 20 none (some 1)
          (.node .nil 2 30 none (some 0) .nil)).height = -2 →
        (BT.node .nil 1 20 none (some 1) (.node .nil 2 30 none (some 0) .nil)).bal < 1 →
        t' = BT.rotLeft (.node .nil 0 10 none (some 1)
          (.node .nil 1 20 none (some 1) (.node .nil 2 30 none (some 0) .nil)))) ∧
      (BT.nil.height - (BT.node .nil 1 20 none (some 1)
          (.node .nil 2 30 none (some 0) .nil)).height = -2 →
        ¬ (BT.node .nil 1 20 none (some 1) (.node .nil 2 30 none (some 0) .nil)).bal < 1 →
        t' = BT.rotLeft (.node .nil 0 10 none (some 1)
          (BT.rotRight (.node .nil 1 20 none (some 1) (.node .nil 2 30 none (some 0) .nil))))) :=
  avlBalance_turn tiltState [] .nil 0 10 none (some 1)
    (.node .nil 1 20 none (some 1) (.node .nil 2 30 none (some 0) .nil))
    tilt_zrep (by decide) (by simp [plug, BT.Ordered, BT.keys]) rfl rfl trivial
    (by simp [BT.AVL, BT.height]) (Or.inr (by simp [BT.height]))

/-- C21: in a tree with the AVL rotation callback, at a node with its AVL record
whose two subtrees have correct stored heights, the body of the loop of
`AVLBalance` finds every child it reads. `AVLSetHeight` returns and the balance
factor it leaves is the height of the left subtree minus that of the right one;
when it is above 1 the left child is there, and when the balance factor of that
child is below 0 (the double rotation) the right child of that child is there;
when it is below -1 the right child is there, and when the balance factor of that
child is above 0 the left child of that child is there. So the body returns, with
the rebalanced subtree in memory, and the loop goes on at the parent; and when
the siblings along the path to the root have correct stored heights too,
`AVLBalance` from that node returns, with the walk done up to the root and every
stored height of the tree correct. -/
theorem avlBalance_children_exist (s : State) (T : BT) (fs : Path) (l : BT) (a : Nat)
    (k : Int) (c : Ptr) (x : Option Int) (r : BT)
    (hs : Shape s T) (ho : T.Ordered) (hT : plug fs (.node l a k c x r) = T)
    (hcb : s.cbRotation = true) (hx : x.isSome) (hl : l.Stored) (hr : r.Stored) :
    (∃ s1, AVLSetHeight a s = some s1 ∧ AVLBalanceFactor a s1 = some (l.height - r.height) ∧
      (l.height - r.height > 1 → ∃ b, (s1.mem a).pLeftChild = some b ∧
        ∃ n, AVLBalanceFactor b s1 = some n ∧ (¬ n > -1 → (s1.mem b).pRightChild ≠ none)) ∧
      (l.height - r.height < -1 → ∃ b, (s1.mem a).pRightChild = some b ∧
        ∃ n, AVLBalanceFactor b s1 = some n ∧ (¬ n < 1 → (s1.mem b).pLeftChild ≠ none))) ∧
    (∃ s', AVLBalanceStep a s = some (parOf fs, s') ∧
      (∀ fuel, AVLBalanceLoop (fuel + 1) (some a) s = AVLBalanceLoop fuel (parOf fs) s') ∧
      ZRep s' fs (BT.node l a k c x r).fix) ∧
    (CtxStored fs → ∃ s', AVLBalance (some a) s = some s' ∧
      ZRep s' [] (walkUp fs (BT.node l a k c x r).fix) ∧
      (walkUp fs (BT.node l a k c x r).fix).Stored) := by
  have hz := shape_zrep hs fs _ hT
  have hnd : (ctxAddrs fs ++ (BT.node l a k c x r).addrs).Nodup :=
    (nodup_plug fs _).1 (hT ▸ hs.nodup)
  have hord : (plug fs (.node l a k c x r)).Ordered := hT ▸ ho
  obtain ⟨s', h1, h2, -⟩ := step_stored s fs l a k c x r hz hnd hord hcb hx hl hr
  refine ⟨turn_children s fs l a k c x r hz hnd hx hl hr, ⟨s', h1, fun fuel => ?_, h2⟩,
    fun hc => balance_stored s T fs l a k c x r hs ho hT hcb hx hl hr hc⟩
  rw [balanceLoop_step, h1]

theorem avlBalance_children_exist_witness :
    (∃ s1, AVLSetHeight 2 tiltState = some s1 ∧
      AVLBalanceFactor 2 s1 = some (BT.nil.height - BT.nil.height) ∧
      (BT.nil.height - BT.nil.height > 1 → ∃ b, (s1.mem 2).pLeftChild = some b ∧
        ∃ n, AVLBalanceFactor b s1 = some n ∧ (¬ n > -1 → (s1.mem b).pRightChild ≠ none)) ∧
      (BT.nil.height - BT.nil.height < -1 → ∃ b, (s1.mem 2).pRightChild = some b ∧
        ∃ n, AVLBalanceFactor b s1 = some n ∧ (¬ n < 1 → (s1.mem b).pLeftChild ≠ none))) ∧
    (∃ s', AVLBalanceStep 2 tiltState =
        some (parOf [.R .nil 1 20 none (some 1), .R .nil 0 10 none (some 1)], s') ∧
      (∀ fuel, AVLBalanceLoop (fuel + 1) (some 2) tiltState =
        AVLBalanceLoop fuel (parOf [.R .nil 1 20 none (some 1), .R .nil 0 10 none (some 1)]) s') ∧
      ZRep s' [.R .nil 1 20 none (some 1), .R .nil 0 10 none (some 1)]
        (BT.node .nil 2 30 none (some 0) .nil).fix) ∧
    (CtxStored [.R .nil 1 20 none (some 1), .R .nil 0 10 none (some 1)] →
      ∃ s', AVLBalance (some 2) tiltState = some s' ∧
        ZRep s' [] (walkUp [.R .nil 1 20 none (some 1), .R .nil 0 10 none (some 1)]
          (BT.node .nil 2 30 none (some 0) .nil).fix) ∧
        (walkUp [.R .nil 1 20 none (some 1), .R .nil 0 10 none (some 1)]
          (BT.node .nil 2 30 none (some 0) .nil).fix).Stored) :=
  avlBalance_children_exist tiltState tiltTree
    [.R .nil 1 20 none (some 1), .R .nil 0 10 none (some 1)] .nil 2 30 none (some 0) .nil
    ⟨tilt_zrep, by decide, by decide⟩ (by simp [tiltTree, BT.Ordered, BT.keys]) rfl rfl rfl
    trivial trivial

/-- C22 holds for a node with at most one child only. After the inserts of
pairwise distinct keys into a new tree, for every key `k` of the tree: when the
node with `k` has at most one child, `Remove k` returns `TRUE` and a new iterator
attached with `Attach` and advanced with `Next` until it has no position visits
the keys of the tree without `k`, each once, in strictly increasing order; when
the node with `k` has two children, the inner call of `RemoveNode` returns with
the node it was given freed, that node is written next, and `Remove k` does not
return, so that no iteration follows. `Insert` of 2, 1 and 3 followed by `Remove(2)`, where the
in-order predecessor of the removed node holds the smallest key, is such a
case. -/
theorem forward_iteration_after_remove (avl : Bool) (kcs : List (Int × Ptr))
    (hd : (kcs.map Prod.fst).Nodup) :
    (∃ s T, runOps (insertsOf kcs) (newTree avl) = some s ∧ Shape s T ∧
      T.keys.Perm (kcs.map Prod.fst) ∧
      ∀ k ∈ T.keys,
        (¬ TwoChildren k T → ∃ s' xs ys, Remove k s = some (true, s') ∧
          T.keys = xs ++ k :: ys ∧ keysForward s' = some (xs ++ ys) ∧
          (xs ++ ys).Pairwise (· < ·)) ∧
        (TwoChildren k T → UsesFreed k s ∧ Remove k s = none)) ∧
    runOps (insertsOf [(2, none), (1, none), (3, none)] ++ [.remove 2]) (newTree avl) = none := by
  refine ⟨?_, stale_none avl⟩
  obtain ⟨s, T, h1, h2, h3, h4, -⟩ := good_inserts kcs (newTree avl) .nil (good_newTree avl)
    (by cases avl <;> rfl) (fun _ _ h => by simp [BT.keys] at h) hd
  exact ⟨s, T, h1, h2.shape, by simpa [BT.keys] using h4, fun k hk =>
    ⟨fun hn => forward_after_remove k s T h2 h3 hk hn,
      fun ht => ⟨remove_uses_freed k s T h2 ht, remove_two_none k s T h2.shape ht⟩⟩⟩

theorem forward_iteration_after_remove_witness :
    (∃ s T, runOps (insertsOf [(2, none), (1, none), (3, none)]) (newTree false) = some s ∧
      Shape s T ∧ T.keys.Perm ([((2 : Int), (none : Ptr)), (1, none), (3, none)].map Prod.fst) ∧
      ∀ k ∈ T.keys,
        (¬ TwoChildren k T → ∃ s' xs ys, Remove k s = some (true, s') ∧
          T.keys = xs ++ k :: ys ∧ keysForward s' = some (xs ++ ys) ∧
          (xs ++ ys).Pairwise (· < ·)) ∧
        (TwoChildren k T → UsesFreed k s ∧ Remove k s = none)) ∧
    runOps (insertsOf [(2, none), (1, none), (3, none)] ++ [.remove 2]) (newTree false) =
      none :=
  forward_iteration_after_remove false [(2, none), (1, none), (3, none)] (by decide)

end Trees
